import Mathlib

/-!
A verification development for the `portabletext` Go package
(github.com/derickschaefer/portabletext).

The embedding works at the level of Go's decoded JSON values: the package
decodes incoming bytes with `encoding/json` using `UseNumber()`, so every
function of interest (`parseNode`, `parseSpan`, `parseMarkDef`, the
`MarshalJSON` methods, `Validate`, `Walk`, `Filter`, `Clone`) operates on
values of Go type `any` holding `map[string]any`, `[]any`, `json.Number`,
`string`, `bool` or `nil`.  `JValue` below models exactly that universe:

  * `num s` is a `json.Number`, i.e. the numeric literal kept as text;
  * `obj fields` is a `map[string]any`; Go maps are unordered with unique
    keys — we present one as an association list, and properties that rely
    on key uniqueness take a `wf` (no-duplicate-keys) hypothesis, which
    holds for every map produced by `encoding/json`.

Byte-level JSON framing (tokenizer errors, HTML escaping) is out of scope;
`Decode` here receives the already-parsed top-level JSON value, matching
the structure of the Go `Decode` which streams the top-level array and
hands each element to `parseNode`.
-/

namespace PortableText

inductive JValue where
  | null
  | bool (b : Bool)
  | num (s : String)
  | str (s : String)
  | arr (xs : List JValue)
  | obj (fields : List (String × JValue))
deriving Repr

/-- Keys of an association-list object. -/
def keysOf (fields : List (String × JValue)) : List String :=
  fields.map Prod.fst

/-- No key occurs twice (Go maps guarantee this). -/
def nodupKeys : List String → Bool
  | [] => true
  | k :: ks => !(ks.contains k) && nodupKeys ks

mutual

/-- Well-formedness: every object, recursively, has pairwise-distinct keys.
Every value produced by Go's `encoding/json` decoder satisfies this, since
Go objects are maps. -/
def JValue.wf : JValue → Bool
  | .null => true
  | .bool _ => true
  | .num _ => true
  | .str _ => true
  | .arr xs => wfList xs
  | .obj fs => nodupKeys (keysOf fs) && wfFields fs

def wfList : List JValue → Bool
  | [] => true
  | x :: xs => x.wf && wfList xs

def wfFields : List (String × JValue) → Bool
  | [] => true
  | (_, v) :: fs => v.wf && wfFields fs

end

def JValue.isStr : JValue → Bool
  | .str _ => true
  | _ => false

def JValue.isNull : JValue → Bool
  | .null => true
  | _ => false

def JValue.isNum : JValue → Bool
  | .num _ => true
  | _ => false

/-- Go map lookup `obj[k]` (keys are unique, so first match is the match). -/
def lookupField (m : List (String × JValue)) (k : String) : Option JValue :=
  match m with
  | [] => none
  | (k2, v) :: rest => if k2 == k then some v else lookupField rest k

/-- Go map assignment `m[k] = v`: overwrite the binding if present,
otherwise add one.  (Our lists keep insertion order; Go maps are
unordered, so list order is a presentation artifact.) -/
def mapSet (m : List (String × JValue)) (k : String) (v : JValue) :
    List (String × JValue) :=
  match m with
  | [] => [(k, v)]
  | (k2, w) :: rest =>
    if k2 == k then (k2, v) :: rest else (k2, w) :: mapSet rest k v

--
-- Errors (typed + path aware), mirroring the sentinel errors and the
-- path/op-carrying `Error` struct of the Go source.
--

inductive ErrKind where
  | missingType
  | invalidType
  | expectedObject
  | expectedArray
  | invalidMarks
  | invalidNumber
  | unexpectedToken
  | typeMismatch   -- Go json.UnmarshalTypeError (non-object, non-null input to decodeObjectUseNumber)
deriving Repr, DecidableEq

structure PTError where
  op : String
  path : String
  kind : ErrKind
deriving Repr, DecidableEq

--
-- Decimal integers: `json.Number.Int64` is `strconv.ParseInt(s, 10, 64)`
-- (optional sign, then decimal digits), and `json.Marshal` prints a Go
-- `int` in standard decimal.  The 64-bit range bound is elided (Lean `Int`
-- is unbounded); no claim under verification depends on int64 overflow.
--

def digitToNat? (c : Char) : Option Nat :=
  if '0' ≤ c ∧ c ≤ '9' then some (c.toNat - '0'.toNat) else none

def parseDigitsAux (acc : Nat) : List Char → Option Nat
  | [] => some acc
  | c :: cs =>
    match digitToNat? c with
    | some d => parseDigitsAux (acc * 10 + d) cs
    | none => none

/-- Parse a nonempty all-digit character list. -/
def parseDigits (cs : List Char) : Option Nat :=
  parseDigitsAux 0 cs

/-- Model of `json.Number.Int64()`: optional sign followed by at least one
decimal digit. -/
def parseDecInt (s : String) : Option Int :=
  match s.data with
  | [] => none
  | c :: rest =>
    if c = '-' then
      if rest = [] then none else (parseDigits rest).map (fun n => -(n : Int))
    else if c = '+' then
      if rest = [] then none else (parseDigits rest).map (fun n => (n : Int))
    else (parseDigits (c :: rest)).map (fun n => (n : Int))

/-- The decimal digit character for `d < 10`. -/
def decChar (d : Nat) : Char := Char.ofNat (48 + d)

/-- Decimal printing of a natural number (what `json.Marshal` emits for a
nonnegative Go `int`). -/
def natToDecString (n : Nat) : String :=
  if n = 0 then "0" else ⟨((Nat.digits 10 n).reverse.map decChar)⟩

/-- Decimal printing of a Go `int` by `json.Marshal`. -/
def intToDecString : Int → String
  | .ofNat n => natToDecString n
  | .negSucc m => "-" ++ natToDecString (m + 1)

--
-- Entity model.  Go pointer fields (`*string`, `*int`) are `Option`;
-- Go slice fields are `Option (List _)` (a nil slice is `none`, a present
-- — possibly empty — slice is `some`); the `Raw map[string]any` store is
-- an association list of `JValue`s.
--

structure Span where
  type : String
  text : Option String := none
  marks : Option (List String) := none
  raw : List (String × JValue) := []
deriving Repr

structure MarkDef where
  key : String := ""
  type : String
  raw : List (String × JValue) := []
deriving Repr

structure Node where
  type : String
  key : String := ""
  style : Option String := none
  children : Option (List Span) := none
  markDefs : Option (List MarkDef) := none
  listItem : Option String := none
  level : Option Int := none
  raw : List (String × JValue) := []
deriving Repr

/-- Document is an ordered list of Portable Text nodes. -/
abbrev Document := List Node

--
-- Parsing (path aware), translated field case by field case from the Go
-- `parseNode` / `parseSpan` / `parseMarkDef`.
--

/-- Go `decodeObjectUseNumber`: decoding JSON `null` into a `map[string]any`
yields a nil map, reported as `ErrExpectedObject`; any other non-object
value is a `json.UnmarshalTypeError` (modeled as `typeMismatch`). -/
def decodeObjectUseNumber : JValue → Except ErrKind (List (String × JValue))
  | .obj fields => .ok fields
  | .null => .error .expectedObject
  | _ => .error .typeMismatch

/-- `marks` element check: every element must be a string. -/
def asStringList : List JValue → Option (List String)
  | [] => some []
  | .str s :: rest => (asStringList rest).map (fun ss => s :: ss)
  | _ :: _ => none

/-- One iteration of the `for k, v := range obj` loop of Go `parseSpan`. -/
def parseSpanField (path : String) (s : Span) :
    String × JValue → Except PTError Span
  | (k, v) =>
    if k == "_type" then .ok s
    else if k == "text" then
      match v with
      | .null => .ok { s with raw := mapSet s.raw k .null }
      | .str t => .ok { s with text := some t }
      | _ => .ok { s with raw := mapSet s.raw k v }
    else if k == "marks" then
      match v with
      | .null => .ok { s with raw := mapSet s.raw k .null }
      | .arr a =>
        match asStringList a with
        | some ms => .ok { s with marks := some ms }
        | none => .error ⟨"span", path ++ ".marks", .invalidMarks⟩
      | _ => .error ⟨"span", path ++ ".marks", .invalidMarks⟩
    else .ok { s with raw := mapSet s.raw k v }

def parseSpanFields (path : String) : Span → List (String × JValue) →
    Except PTError Span
  | s, [] => .ok s
  | s, e :: rest =>
    match parseSpanField path s e with
    | .error err => .error err
    | .ok s2 => parseSpanFields path s2 rest

def parseSpan (v : JValue) (path : String) : Except PTError Span :=
  match decodeObjectUseNumber v with
  | .error k => .error ⟨"span", path, k⟩
  | .ok obj =>
    match lookupField obj "_type" with
    | none => .error ⟨"span", path, .missingType⟩
    | some t =>
      match t with
      | .str ts =>
        if ts == "" then .error ⟨"span", path, .invalidType⟩
        else parseSpanFields path { type := ts, raw := [] } obj
      | _ => .error ⟨"span", path, .invalidType⟩

/-- Go `parseSpanArray` loop body (the intermediate `json.Marshal` /
re-decode of each element is the identity on decoded JSON values). -/
def parseSpanArrayElems (path : String) : Nat → List JValue →
    Except PTError (List Span)
  | _, [] => .ok []
  | i, x :: rest =>
    match parseSpan x (path ++ "[" ++ toString i ++ "]") with
    | .error err => .error err
    | .ok s =>
      match parseSpanArrayElems path (i + 1) rest with
      | .error err => .error err
      | .ok ss => .ok (s :: ss)

def parseSpanArray (v : JValue) (path : String) : Except PTError (List Span) :=
  match v with
  | .arr xs => parseSpanArrayElems path 0 xs
  | .null => .error ⟨"node", path, .expectedArray⟩
  | _ => .error ⟨"node", path, .expectedArray⟩

/-- The Go `parseMarkDef` reads `_key` from the map before its field loop:
absent leaves the zero value, an explicit null or a non-string value goes
into raw, a string becomes the typed key. -/
def mdKeyInit (ts : String) (mk : Option JValue) : MarkDef :=
  let md0 : MarkDef := { type := ts, raw := [] }
  match mk with
  | none => md0
  | some .null => { md0 with raw := mapSet md0.raw "_key" .null }
  | some (.str ks) => { md0 with key := ks }
  | some kv => { md0 with raw := mapSet md0.raw "_key" kv }

def parseMarkDef (v : JValue) (path : String) : Except PTError MarkDef :=
  match decodeObjectUseNumber v with
  | .error k => .error ⟨"markDef", path, k⟩
  | .ok obj =>
    match lookupField obj "_type" with
    | none => .error ⟨"markDef", path, .missingType⟩
    | some t =>
      match t with
      | .str ts =>
        if ts == "" then .error ⟨"markDef", path, .invalidType⟩
        else
          .ok (obj.foldl
            (fun md e =>
              if e.1 == "_type" || e.1 == "_key" then md
              else { md with raw := mapSet md.raw e.1 e.2 })
            (mdKeyInit ts (lookupField obj "_key")))
      | _ => .error ⟨"markDef", path, .invalidType⟩

def parseMarkDefArrayElems (path : String) : Nat → List JValue →
    Except PTError (List MarkDef)
  | _, [] => .ok []
  | i, x :: rest =>
    match parseMarkDef x (path ++ "[" ++ toString i ++ "]") with
    | .error err => .error err
    | .ok md =>
      match parseMarkDefArrayElems path (i + 1) rest with
      | .error err => .error err
      | .ok mds => .ok (md :: mds)

def parseMarkDefArray (v : JValue) (path : String) :
    Except PTError (List MarkDef) :=
  match v with
  | .arr xs => parseMarkDefArrayElems path 0 xs
  | .null => .error ⟨"node", path, .expectedArray⟩
  | _ => .error ⟨"node", path, .expectedArray⟩

/-- One iteration of the `for k, v := range obj` loop of Go `parseNode`. -/
def parseNodeField (path : String) (n : Node) :
    String × JValue → Except PTError Node
  | (k, v) =>
    if k == "_type" then .ok n
    else if k == "_key" then
      match v with
      | .null => .ok { n with raw := mapSet n.raw k .null }
      | .str s => .ok { n with key := s }
      | _ => .ok { n with raw := mapSet n.raw k v }
    else if k == "style" then
      match v with
      | .null => .ok { n with raw := mapSet n.raw k .null }
      | .str s => .ok { n with style := some s }
      | _ => .ok { n with raw := mapSet n.raw k v }
    else if k == "children" then
      if v.isNull then .ok { n with raw := mapSet n.raw k .null }
      else
        (parseSpanArray v (path ++ ".children")).map
          (fun cs => { n with children := some cs })
    else if k == "markDefs" then
      if v.isNull then .ok { n with raw := mapSet n.raw k .null }
      else
        (parseMarkDefArray v (path ++ ".markDefs")).map
          (fun mds => { n with markDefs := some mds })
    else if k == "listItem" then
      match v with
      | .null => .ok { n with raw := mapSet n.raw k .null }
      | .str s => .ok { n with listItem := some s }
      | _ => .ok { n with raw := mapSet n.raw k v }
    else if k == "level" then
      match v with
      | .null => .ok { n with raw := mapSet n.raw k .null }
      | .num s =>
        match parseDecInt s with
        | some i => .ok { n with level := some i }
        | none => .error ⟨"node", path ++ ".level", .invalidNumber⟩
      | _ => .ok { n with raw := mapSet n.raw k v }
    else .ok { n with raw := mapSet n.raw k v }

def parseNodeFields (path : String) : Node → List (String × JValue) →
    Except PTError Node
  | n, [] => .ok n
  | n, e :: rest =>
    match parseNodeField path n e with
    | .error err => .error err
    | .ok n2 => parseNodeFields path n2 rest

def parseNode (v : JValue) (path : String) : Except PTError Node :=
  match decodeObjectUseNumber v with
  | .error k => .error ⟨"node", path, k⟩
  | .ok obj =>
    match lookupField obj "_type" with
    | none => .error ⟨"node", path, .missingType⟩
    | some t =>
      match t with
      | .str ts =>
        if ts == "" then .error ⟨"node", path, .invalidType⟩
        else parseNodeFields path { type := ts, raw := [] } obj
      | _ => .error ⟨"node", path, .invalidType⟩

--
-- Decode: the top-level JSON value must be an array; elements are parsed
-- in order, failing fast on the first bad element.
--

def decodeElems : Nat → List JValue → Except PTError (List Node)
  | _, [] => .ok []
  | i, x :: rest =>
    match parseNode x ("[" ++ toString i ++ "]") with
    | .error err => .error err
    | .ok n =>
      match decodeElems (i + 1) rest with
      | .error err => .error err
      | .ok ns => .ok (n :: ns)

def Decode (v : JValue) : Except PTError Document :=
  match v with
  | .arr xs => decodeElems 0 xs
  | _ => .error ⟨"decode", "", .unexpectedToken⟩

--
-- JSON marshaling (re-emits Raw + known fields).  The Go `MarshalJSON`
-- methods build a fresh `map[string]any` starting from `Raw` and then
-- assign each populated typed field; the overlay order below follows the
-- source text.  (`json.Marshal` then prints the map with sorted keys —
-- irrelevant at the map level modeled here.)
--

def encodeSpan (s : Span) : JValue :=
  let m := s.raw
  let m := mapSet m "_type" (.str s.type)
  let m := match s.text with
    | some t => mapSet m "text" (.str t)
    | none => m
  let m := match s.marks with
    | some ms => mapSet m "marks" (.arr (ms.map JValue.str))
    | none => m
  .obj m

def encodeMarkDef (md : MarkDef) : JValue :=
  let m := md.raw
  let m := mapSet m "_type" (.str md.type)
  let m := if md.key == "" then m else mapSet m "_key" (.str md.key)
  .obj m

/-- One `if n.Field != nil { m[k] = ... }` step of `Node.MarshalJSON`. -/
def mapSetOpt (m : List (String × JValue)) (k : String) :
    Option JValue → List (String × JValue)
  | none => m
  | some v => mapSet m k v

def encodeNode (n : Node) : JValue :=
  let m := n.raw
  let m := mapSet m "_type" (.str n.type)
  let m := if n.key == "" then m else mapSet m "_key" (.str n.key)
  let m := mapSetOpt m "style" (n.style.map JValue.str)
  let m := mapSetOpt m "children"
    (n.children.map (fun cs => JValue.arr (cs.map encodeSpan)))
  let m := mapSetOpt m "markDefs"
    (n.markDefs.map (fun mds => JValue.arr (mds.map encodeMarkDef)))
  let m := mapSetOpt m "listItem" (n.listItem.map JValue.str)
  let m := mapSetOpt m "level"
    (n.level.map (fun i => JValue.num (intToDecString i)))
  .obj m

/-- Go `Encode` runs `json.Encoder.Encode(doc)` with no special case for
an empty document.  `Decode` builds its result with `var doc Document`
plus `append`, so the empty document it returns is a nil slice, and
`encoding/json` marshals a nil slice as JSON `null` — not as `[]`.  A
non-empty document marshals as the array of the nodes' `MarshalJSON`
values (marshaling cannot fail on values built from decoded JSON). -/
def Encode (doc : Document) : JValue :=
  match doc with
  | [] => .null
  | _ => .arr (doc.map encodeNode)

--
-- Validation.
--

structure ValidationOptions where
  requireKeys : Bool := false
  checkMarkDefRefs : Bool := false
  allowEmptyText : Bool := false
deriving Repr, DecidableEq

structure ValidationError where
  path : String
  message : String
  node : Node
deriving Repr

/-- Indexed flat-map: the `for i := range xs { ... append(errs, ...) }`
accumulation pattern of the Go validator. -/
def enumFlatMap {α β : Type} (f : Nat → α → List β) : Nat → List α → List β
  | _, [] => []
  | i, x :: rest => f i x ++ enumFlatMap f (i + 1) rest

/-- The checks Go `ValidateWithOptions` runs for one span child. -/
def validateChild (opts : ValidationOptions) (markDefKeys : List String)
    (n : Node) (path : String) (j : Nat) (c : Span) : List ValidationError :=
  let cpath := path ++ ".children[" ++ toString j ++ "]"
  if c.type == "" then [⟨cpath, "missing _type", n⟩]
  else if c.type == "span" then
    (match c.text with
     | none => [⟨cpath, "span missing text", n⟩]
     | some t =>
       if !opts.allowEmptyText && t == "" then
         [⟨cpath, "span has empty text", n⟩]
       else []) ++
    (if opts.checkMarkDefRefs then
      (c.marks.getD []).filterMap (fun mark =>
        if markDefKeys.contains mark then none
        else some ⟨cpath,
          "mark \x27" ++ mark ++ "\x27 not found in markDefs", n⟩)
     else [])
  else []

/-- The checks Go `ValidateWithOptions` runs for one mark definition. -/
def validateMarkDef (n : Node) (path : String) (j : Nat) (md : MarkDef) :
    List ValidationError :=
  let mdpath := path ++ ".markDefs[" ++ toString j ++ "]"
  (if md.type == "" then [⟨mdpath, "markDef missing _type", n⟩] else []) ++
  (if md.key == "" then [⟨mdpath, "markDef missing _key", n⟩] else [])

/-- The checks Go `ValidateWithOptions` runs for one top-level node. -/
def validateNode (opts : ValidationOptions) (i : Nat) (n : Node) :
    List ValidationError :=
  let path := "[" ++ toString i ++ "]"
  if n.type == "" then [⟨path, "missing _type", n⟩]
  else
    (if opts.requireKeys && n.key == "" then [⟨path, "missing _key", n⟩]
     else []) ++
    (if n.type == "block" then
      let markDefKeys := (n.markDefs.getD []).map MarkDef.key
      enumFlatMap (validateChild opts markDefKeys n path) 0
        (n.children.getD []) ++
      enumFlatMap (validateMarkDef n path) 0 (n.markDefs.getD [])
     else [])

def ValidateWithOptions (doc : Document) (opts : ValidationOptions) :
    List ValidationError :=
  enumFlatMap (validateNode opts) 0 doc

/-- Go `Validate` delegates to `ValidateWithOptions` with the zero-value
options struct. -/
def Validate (doc : Document) : List ValidationError :=
  ValidateWithOptions doc {}

--
-- Traversal / transform layer.
--

/-- Go `Walk`: visits top-level nodes in order; stops early on fn error.
The callback's error type is caller-chosen (Go `error`). -/
def Walk {ε : Type} (doc : Document) (fn : Node → Except ε Unit) :
    Except ε Unit :=
  match doc with
  | [] => .ok ()
  | n :: rest =>
    match fn n with
    | .error e => .error e
    | .ok _ => Walk rest fn

mutual

/-- Go `deepCopyAny` (the `json.RawMessage` / `[]byte` cases of the Go
switch copy byte buffers; byte slices do not occur among decoded JSON
values and have no distinct value-level content here). -/
def deepCopyAny : JValue → JValue
  | .null => .null
  | .bool b => .bool b
  | .num s => .num s
  | .str s => .str s
  | .arr xs => .arr (deepCopyList xs)
  | .obj fs => .obj (deepCopyMap fs)

def deepCopyList : List JValue → List JValue
  | [] => []
  | x :: xs => deepCopyAny x :: deepCopyList xs

def deepCopyMap : List (String × JValue) → List (String × JValue)
  | [] => []
  | (k, v) :: fs => (k, deepCopyAny v) :: deepCopyMap fs

end

/-- Go `cloneSpans`: per-span, the `Text` pointer and `Marks` backing array
are re-allocated (value-identical) and `Raw` is deep-copied. -/
def cloneSpans (l : List Span) : List Span :=
  l.map (fun s =>
    { s with text := s.text, marks := s.marks, raw := deepCopyMap s.raw })

/-- Go `cloneMarkDefs`. -/
def cloneMarkDefs (l : List MarkDef) : List MarkDef :=
  l.map (fun md => { md with raw := deepCopyMap md.raw })

/-- Go `(*Node).Clone`: copy the struct, re-point the scalar pointer
fields, and deep-copy children, markDefs and Raw. -/
def Node.Clone (n : Node) : Node :=
  { n with
    style := n.style
    listItem := n.listItem
    level := n.level
    children := n.children.map cloneSpans
    markDefs := n.markDefs.map cloneMarkDefs
    raw := deepCopyMap n.raw }

/-- Go `Filter`: appends `*doc[i].Clone()` for each node satisfying the
predicate. -/
def Filter (doc : Document) (pred : Node → Bool) : Document :=
  List.foldl
    (fun result n => if pred n then result ++ [n.Clone] else result)
    ([] : List Node) doc

--
-- Basic lemmas about the association-list map operations.
--

theorem nodupKeys_iff : ∀ ks : List String, nodupKeys ks = true ↔ ks.Nodup := by
  intro ks
  induction ks with
  | nil => simp [nodupKeys]
  | cons k ks ih =>
    simp [nodupKeys, ih]

theorem lookupField_eq_none : ∀ m (k : String),
    lookupField m k = none ↔ k ∉ keysOf m := by
  intro m k
  induction m with
  | nil => simp [lookupField, keysOf]
  | cons e rest ih =>
    obtain ⟨k2, v⟩ := e
    by_cases h : k2 = k
    · subst h; simp [lookupField, keysOf]
    · simp [lookupField, h, keysOf, ih, Ne.symm h]

theorem lookupField_append_of_not_mem {m : List (String × JValue)}
    {k : String} (h : k ∉ keysOf m) (l : List (String × JValue)) :
    lookupField (m ++ l) k = lookupField l k := by
  induction m with
  | nil => rfl
  | cons e rest ih =>
    obtain ⟨k2, v⟩ := e
    have hk2 : k2 ≠ k := by
      intro he; exact h (by simp [keysOf, he])
    have hrest : k ∉ keysOf rest := by
      intro he; exact h (by simp [keysOf] at he ⊢; exact Or.inr he)
    simp [lookupField, hk2, ih hrest]

theorem lookupField_cons_self (k : String) (v : JValue)
    (l : List (String × JValue)) : lookupField ((k, v) :: l) k = some v := by
  simp [lookupField]

theorem keysOf_append (m l : List (String × JValue)) :
    keysOf (m ++ l) = keysOf m ++ keysOf l := by
  simp [keysOf]

theorem mapSet_of_not_mem : ∀ (m : List (String × JValue)) {k : String}
    (v : JValue), k ∉ keysOf m → mapSet m k v = m ++ [(k, v)] := by
  intro m
  induction m with
  | nil => intro k v _; rfl
  | cons e rest ih =>
    intro k v h
    obtain ⟨k2, w⟩ := e
    have hk2 : k2 ≠ k := by
      intro he; exact h (by simp [keysOf, he])
    have hrest : k ∉ keysOf rest := by
      intro he; exact h (by simp [keysOf] at he ⊢; exact Or.inr he)
    simp [mapSet, hk2, ih v hrest]

--
-- Decimal integer print/parse round-trip.
--

theorem digitToNat?_decChar {d : Nat} (hd : d < 10) :
    digitToNat? (decChar d) = some d := by
  interval_cases d <;> decide

theorem decChar_ne_neg {d : Nat} (hd : d < 10) : decChar d ≠ '-' := by
  interval_cases d <;> decide

theorem decChar_ne_plus {d : Nat} (hd : d < 10) : decChar d ≠ '+' := by
  interval_cases d <;> decide

theorem parseDigitsAux_decChars : ∀ (M : List Nat) (a : Nat),
    (∀ d ∈ M, d < 10) →
    parseDigitsAux a (M.map decChar) =
      some (M.foldl (fun x d => x * 10 + d) a) := by
  intro M
  induction M with
  | nil => intro a _; rfl
  | cons d ds ih =>
    intro a h
    have hd : d < 10 := h d (by simp)
    simp [parseDigitsAux, digitToNat?_decChar hd]
    exact ih _ (fun x hx => h x (by simp [hx]))

theorem foldr_eq_ofDigits : ∀ L : List Nat,
    List.foldr (fun d acc => acc * 10 + d) 0 L = Nat.ofDigits 10 L := by
  intro L
  induction L with
  | nil => simp [Nat.ofDigits]
  | cons d ds ih => simp [Nat.ofDigits_cons, ih]; ring

theorem parseDigits_digitsRev (n : Nat) :
    parseDigits (((Nat.digits 10 n).reverse).map decChar) = some n := by
  have hlt : ∀ d ∈ (Nat.digits 10 n).reverse, d < 10 := by
    intro d hd
    exact Nat.digits_lt_base (by norm_num) (List.mem_reverse.mp hd)
  rw [parseDigits, parseDigitsAux_decChars _ _ hlt]
  congr 1
  rw [List.foldl_reverse, foldr_eq_ofDigits, Nat.ofDigits_digits]

/-- For `n ≠ 0`, the decimal string is the digit characters of `n`,
most-significant first. -/
theorem natToDecString_data (n : Nat) (h0 : n ≠ 0) :
    (natToDecString n).data = ((Nat.digits 10 n).reverse).map decChar := by
  simp [natToDecString, h0]

theorem parseDigits_natToDecString (n : Nat) :
    parseDigits (natToDecString n).data = some n := by
  by_cases h0 : n = 0
  · subst h0; decide
  · rw [natToDecString_data n h0]
    exact parseDigits_digitsRev n

theorem natToDecString_head_digit (n : Nat) :
    ∃ m ms, (natToDecString n).data = decChar m :: ms ∧ m < 10 := by
  by_cases h0 : n = 0
  · exact ⟨0, [], by subst h0; decide, by norm_num⟩
  · have hne : Nat.digits 10 n ≠ [] := Nat.digits_ne_nil_iff_ne_zero.mpr h0
    have hrevne : (Nat.digits 10 n).reverse ≠ [] := by simpa using hne
    obtain ⟨m, ms, hrev⟩ := List.exists_cons_of_ne_nil hrevne
    refine ⟨m, ms.map decChar, ?_, ?_⟩
    · rw [natToDecString_data n h0, hrev]; rfl
    · refine Nat.digits_lt_base (by norm_num)
        (show m ∈ Nat.digits 10 n from List.mem_reverse.mp ?_)
      simp [hrev]

theorem parseDecInt_natToDecString (n : Nat) :
    parseDecInt (natToDecString n) = some (n : Int) := by
  obtain ⟨m, ms, hdata, hm⟩ := natToDecString_head_digit n
  have hparse := parseDigits_natToDecString n
  rw [parseDecInt, hdata]
  rw [hdata] at hparse
  simp [decChar_ne_neg hm, decChar_ne_plus hm, hparse]

theorem parseDecInt_intToDecString (i : Int) :
    parseDecInt (intToDecString i) = some i := by
  cases i with
  | ofNat n => exact parseDecInt_natToDecString n
  | negSucc m =>
    obtain ⟨d, ds, hdata, hd⟩ := natToDecString_head_digit (m + 1)
    have hne : (natToDecString (m + 1)).data ≠ [] := by simp [hdata]
    have hparse := parseDigits_natToDecString (m + 1)
    have hcons : ("-" ++ natToDecString (m + 1)).data =
        '-' :: (natToDecString (m + 1)).data := by
      simp
    rw [intToDecString, parseDecInt, hcons]
    simp [hne, hparse, Int.negSucc_eq]

--
-- Invariants established by a successful decode.  They record the
-- mutual-exclusion discipline between the typed slots and the raw store,
-- and the shapes a known field may have when it was routed to raw; these
-- are exactly what is needed for the decode/encode round trip.
--

/-- Shapes a raw entry of a decoded `Span` can have. -/
def SpanRawOk : String × JValue → Prop
  | (k, v) =>
    k ≠ "_type" ∧ (k = "text" → v.isStr = false) ∧ (k = "marks" → v = .null)

/-- Shapes a raw entry of a decoded `Node` can have. -/
def NodeRawOk : String × JValue → Prop
  | (k, v) =>
    k ≠ "_type" ∧ (k = "_key" → v.isStr = false) ∧
    (k = "style" → v.isStr = false) ∧ (k = "children" → v = .null) ∧
    (k = "markDefs" → v = .null) ∧ (k = "listItem" → v.isStr = false) ∧
    (k = "level" → v.isNum = false)

/-- Shapes a raw entry of a decoded `MarkDef` can have. -/
def MarkDefRawOk : String × JValue → Prop
  | (k, v) => k ≠ "_type" ∧ (k = "_key" → v.isStr = false)

structure SpanInv (s : Span) : Prop where
  type_ne : s.type ≠ ""
  nodup : (keysOf s.raw).Nodup
  rawOk : ∀ e ∈ s.raw, SpanRawOk e
  text_excl : s.text.isSome → "text" ∉ keysOf s.raw
  marks_excl : s.marks.isSome → "marks" ∉ keysOf s.raw

structure MarkDefInv (md : MarkDef) : Prop where
  type_ne : md.type ≠ ""
  nodup : (keysOf md.raw).Nodup
  rawOk : ∀ e ∈ md.raw, MarkDefRawOk e
  key_excl : md.key ≠ "" → "_key" ∉ keysOf md.raw
  key_head : "_key" ∉ keysOf md.raw.tail

structure NodeInv (n : Node) : Prop where
  type_ne : n.type ≠ ""
  nodup : (keysOf n.raw).Nodup
  rawOk : ∀ e ∈ n.raw, NodeRawOk e
  key_excl : n.key ≠ "" → "_key" ∉ keysOf n.raw
  style_excl : n.style.isSome → "style" ∉ keysOf n.raw
  children_excl : n.children.isSome → "children" ∉ keysOf n.raw
  markDefs_excl : n.markDefs.isSome → "markDefs" ∉ keysOf n.raw
  listItem_excl : n.listItem.isSome → "listItem" ∉ keysOf n.raw
  level_excl : n.level.isSome → "level" ∉ keysOf n.raw
  children_inv : ∀ s ∈ n.children.getD [], SpanInv s
  markDefs_inv : ∀ md ∈ n.markDefs.getD [], MarkDefInv md

theorem not_mem_keys_of_rawOk {P : String × JValue → Prop}
    {raw : List (String × JValue)} (h : ∀ e ∈ raw, P e)
    (hne : ∀ e, P e → e.1 ≠ "_type") : "_type" ∉ keysOf raw := by
  intro hmem
  simp [keysOf] at hmem
  obtain ⟨v, hv⟩ := hmem
  exact hne _ (h _ hv) rfl

--
-- Span: field-loop lemmas.
--

/-- A raw-shaped entry is routed back into the raw store by the span field
loop. -/
theorem parseSpanField_rawOk {path : String} {s : Span} {k : String}
    {v : JValue} (h : SpanRawOk (k, v)) (hmem : k ∉ keysOf s.raw) :
    parseSpanField path s (k, v) = .ok { s with raw := s.raw ++ [(k, v)] } := by
  obtain ⟨h1, h2, h3⟩ := h
  rw [← mapSet_of_not_mem s.raw v hmem]
  by_cases hkt : k = "text"
  · subst hkt
    have := h2 rfl
    cases v <;> simp_all [parseSpanField, JValue.isStr]
  · by_cases hkm : k = "marks"
    · subst hkm
      rw [h3 rfl]
      simp [parseSpanField, h1]
    · simp [parseSpanField, h1, hkt, hkm]

theorem asStringList_map_str : ∀ ms : List String,
    asStringList (ms.map JValue.str) = some ms := by
  intro ms
  induction ms with
  | nil => rfl
  | cons m rest ih => simp [asStringList, ih]

theorem parseSpanFields_append {path : String} {s s2 : Span}
    {l1 : List (String × JValue)} (l2 : List (String × JValue))
    (h : parseSpanFields path s l1 = .ok s2) :
    parseSpanFields path s (l1 ++ l2) = parseSpanFields path s2 l2 := by
  induction l1 generalizing s with
  | nil => simp [parseSpanFields] at h; subst h; rfl
  | cons e rest ih =>
    rw [List.cons_append, parseSpanFields]
    rw [parseSpanFields] at h
    cases he : parseSpanField path s e with
    | error err => rw [he] at h; exact absurd h (by simp)
    | ok s3 => rw [he] at h; exact ih h

theorem keysOf_cons (k : String) (v : JValue) (l : List (String × JValue)) :
    keysOf ((k, v) :: l) = k :: keysOf l := rfl

theorem parseSpanFields_cons_ok {path : String} {s s2 : Span}
    {e : String × JValue} (rest : List (String × JValue))
    (h : parseSpanField path s e = .ok s2) :
    parseSpanFields path s (e :: rest) = parseSpanFields path s2 rest := by
  rw [parseSpanFields, h]

theorem parseSpanFields_rawOnly : ∀ (raws : List (String × JValue)) (s : Span)
    (path : String), (∀ e ∈ raws, SpanRawOk e) →
    (keysOf raws).Nodup →
    (∀ k ∈ keysOf raws, k ∉ keysOf s.raw) →
    parseSpanFields path s raws = .ok { s with raw := s.raw ++ raws } := by
  intro raws
  induction raws with
  | nil => intro s path _ _ _; simp [parseSpanFields]
  | cons e rest ih =>
    intro s path hok hnd hdisj
    obtain ⟨k, v⟩ := e
    rw [keysOf_cons] at hnd hdisj
    have hmem : k ∉ keysOf s.raw := hdisj k (by simp)
    have hk_rest : k ∉ keysOf rest := (List.nodup_cons.mp hnd).1
    have hnd' : (keysOf rest).Nodup := (List.nodup_cons.mp hnd).2
    rw [parseSpanFields_cons_ok rest
      (parseSpanField_rawOk (hok _ (by simp)) hmem)]
    have hstep := ih { s with raw := s.raw ++ [(k, v)] } path
      (fun e he => hok e (by simp [he])) hnd'
      (fun k2 h2 => by
        rw [keysOf_append]
        intro hbad
        rcases List.mem_append.mp hbad with hl | hr
        · exact hdisj k2 (List.mem_cons_of_mem _ h2) hl
        · have heq : k2 = k := by simpa [keysOf] using hr
          subst heq
          exact hk_rest h2)
    rw [hstep]
    simp

theorem parseSpanFields_cons_error {path : String} {s : Span}
    {e : String × JValue} {err : PTError} (rest : List (String × JValue))
    (h : parseSpanField path s e = .error err) :
    parseSpanFields path s (e :: rest) = .error err := by
  rw [parseSpanFields, h]

theorem spanInv_extend_raw {s : Span} {k : String} {v : JValue}
    (hinv : SpanInv s) (hok : SpanRawOk (k, v)) (hk_raw : k ∉ keysOf s.raw)
    (htext : s.text.isSome → "text" ≠ k)
    (hmarks : s.marks.isSome → "marks" ≠ k) :
    SpanInv { s with raw := s.raw ++ [(k, v)] } := by
  refine ⟨hinv.type_ne, ?_, ?_, ?_, ?_⟩
  · rw [keysOf_append]
    simp [List.nodup_append, keysOf]
    refine ⟨by simpa [keysOf] using hinv.nodup, ?_⟩
    intro x hx
    exact hk_raw (List.mem_map.mpr ⟨(k, x), hx, rfl⟩)
  · intro e he
    rcases List.mem_append.mp he with hl | hr
    · exact hinv.rawOk e hl
    · have : e = (k, v) := by simpa using hr
      subst this; exact hok
  · intro hsome
    rw [keysOf_append]
    intro hbad
    rcases List.mem_append.mp hbad with hl | hr
    · exact hinv.text_excl hsome hl
    · exact htext hsome (by simpa [keysOf] using hr)
  · intro hsome
    rw [keysOf_append]
    intro hbad
    rcases List.mem_append.mp hbad with hl | hr
    · exact hinv.marks_excl hsome hl
    · exact hmarks hsome (by simpa [keysOf] using hr)

theorem parseSpanFields_inv : ∀ (entries : List (String × JValue)) (s : Span)
    (path : String) (out : Span),
    (keysOf entries).Nodup →
    (∀ k ∈ keysOf entries, k ∉ keysOf s.raw) →
    (s.text.isSome → "text" ∉ keysOf entries) →
    (s.marks.isSome → "marks" ∉ keysOf entries) →
    SpanInv s →
    parseSpanFields path s entries = .ok out → SpanInv out := by
  intro entries
  induction entries with
  | nil =>
    intro s path out _ _ _ _ hinv h
    simp [parseSpanFields] at h
    subst h; exact hinv
  | cons e rest ih =>
    intro s path out hnd hdisj htext hmarks hinv h
    obtain ⟨k, v⟩ := e
    rw [keysOf_cons] at hnd hdisj htext hmarks
    have hk_raw : k ∉ keysOf s.raw := hdisj k (by simp)
    have hk_rest : k ∉ keysOf rest := (List.nodup_cons.mp hnd).1
    have hnd' : (keysOf rest).Nodup := (List.nodup_cons.mp hnd).2
    have hdisj' : ∀ k2 ∈ keysOf rest, k2 ∉ keysOf s.raw :=
      fun k2 h2 => hdisj k2 (List.mem_cons_of_mem _ h2)
    have htext' : s.text.isSome → "text" ∉ keysOf rest :=
      fun hs hm => htext hs (List.mem_cons_of_mem _ hm)
    have hmarks' : s.marks.isSome → "marks" ∉ keysOf rest :=
      fun hs hm => hmarks hs (List.mem_cons_of_mem _ hm)
    -- a raw-routed entry: re-establish everything and recurse
    have rawStep : SpanRawOk (k, v) →
        parseSpanFields path { s with raw := s.raw ++ [(k, v)] } rest = .ok out →
        SpanInv out := by
      intro hok h2
      refine ih _ path out hnd' ?_ ?_ ?_
        (spanInv_extend_raw hinv hok hk_raw
          (fun hs hm => htext hs (by simp [hm]))
          (fun hs hm => hmarks hs (by simp [hm]))) h2
      · intro k2 h2m
        rw [keysOf_append]
        intro hbad
        rcases List.mem_append.mp hbad with hl | hr
        · exact hdisj' k2 h2m hl
        · have heq : k2 = k := by simpa [keysOf] using hr
          subst heq; exact hk_rest h2m
      · exact fun hs => htext' hs
      · exact fun hs => hmarks' hs
    by_cases hk1 : k = "_type"
    · subst hk1
      have hfield : parseSpanField path s ("_type", v) = .ok s := by
        simp [parseSpanField]
      rw [parseSpanFields_cons_ok rest hfield] at h
      exact ih s path out hnd' hdisj' htext' hmarks' hinv h
    · by_cases hk2 : k = "text"
      · subst hk2
        cases v with
        | str t =>
          have hfield : parseSpanField path s ("text", .str t) =
              .ok { s with text := some t } := by
            simp [parseSpanField]
          rw [parseSpanFields_cons_ok rest hfield] at h
          refine ih { s with text := some t } path out hnd' hdisj'
            (fun _ => hk_rest) hmarks'
            ⟨hinv.type_ne, hinv.nodup, hinv.rawOk, fun _ => hk_raw,
             hinv.marks_excl⟩ h
        | null =>
          have hfield : parseSpanField path s ("text", .null) =
              .ok { s with raw := mapSet s.raw "text" .null } := by
            simp [parseSpanField]
          rw [mapSet_of_not_mem s.raw _ hk_raw] at hfield
          rw [parseSpanFields_cons_ok rest hfield] at h
          exact rawStep ⟨by simp, fun _ => rfl, fun hc => by simp at hc⟩ h
        | bool b =>
          have hfield : parseSpanField path s ("text", .bool b) =
              .ok { s with raw := mapSet s.raw "text" (.bool b) } := by
            simp [parseSpanField]
          rw [mapSet_of_not_mem s.raw _ hk_raw] at hfield
          rw [parseSpanFields_cons_ok rest hfield] at h
          exact rawStep ⟨by simp, fun _ => rfl, fun hc => by simp at hc⟩ h
        | num x =>
          have hfield : parseSpanField path s ("text", .num x) =
              .ok { s with raw := mapSet s.raw "text" (.num x) } := by
            simp [parseSpanField]
          rw [mapSet_of_not_mem s.raw _ hk_raw] at hfield
          rw [parseSpanFields_cons_ok rest hfield] at h
          exact rawStep ⟨by simp, fun _ => rfl, fun hc => by simp at hc⟩ h
        | arr xs =>
          have hfield : parseSpanField path s ("text", .arr xs) =
              .ok { s with raw := mapSet s.raw "text" (.arr xs) } := by
            simp [parseSpanField]
          rw [mapSet_of_not_mem s.raw _ hk_raw] at hfield
          rw [parseSpanFields_cons_ok rest hfield] at h
          exact rawStep ⟨by simp, fun _ => rfl, fun hc => by simp at hc⟩ h
        | obj fs =>
          have hfield : parseSpanField path s ("text", .obj fs) =
              .ok { s with raw := mapSet s.raw "text" (.obj fs) } := by
            simp [parseSpanField]
          rw [mapSet_of_not_mem s.raw _ hk_raw] at hfield
          rw [parseSpanFields_cons_ok rest hfield] at h
          exact rawStep ⟨by simp, fun _ => rfl, fun hc => by simp at hc⟩ h
      · by_cases hk3 : k = "marks"
        · subst hk3
          cases v with
          | null =>
            have hfield : parseSpanField path s ("marks", .null) =
                .ok { s with raw := mapSet s.raw "marks" .null } := by
              simp [parseSpanField]
            rw [mapSet_of_not_mem s.raw _ hk_raw] at hfield
            rw [parseSpanFields_cons_ok rest hfield] at h
            exact rawStep ⟨by simp, fun hc => by simp at hc, fun _ => rfl⟩ h
          | arr a =>
            cases has : asStringList a with
            | some ms =>
              have hfield : parseSpanField path s ("marks", .arr a) =
                  .ok { s with marks := some ms } := by
                simp [parseSpanField, has]
              rw [parseSpanFields_cons_ok rest hfield] at h
              refine ih { s with marks := some ms } path out hnd' hdisj'
                htext' (fun _ => hk_rest)
                ⟨hinv.type_ne, hinv.nodup, hinv.rawOk, hinv.text_excl,
                 fun _ => hk_raw⟩ h
            | none =>
              have hfield : parseSpanField path s ("marks", .arr a) =
                  .error ⟨"span", path ++ ".marks", .invalidMarks⟩ := by
                simp [parseSpanField, has]
              rw [parseSpanFields_cons_error rest hfield] at h
              exact absurd h (by simp)
          | str t =>
            have hfield : parseSpanField path s ("marks", .str t) =
                .error ⟨"span", path ++ ".marks", .invalidMarks⟩ := by
              simp [parseSpanField]
            rw [parseSpanFields_cons_error rest hfield] at h
            exact absurd h (by simp)
          | bool b =>
            have hfield : parseSpanField path s ("marks", .bool b) =
                .error ⟨"span", path ++ ".marks", .invalidMarks⟩ := by
              simp [parseSpanField]
            rw [parseSpanFields_cons_error rest hfield] at h
            exact absurd h (by simp)
          | num x =>
            have hfield : parseSpanField path s ("marks", .num x) =
                .error ⟨"span", path ++ ".marks", .invalidMarks⟩ := by
              simp [parseSpanField]
            rw [parseSpanFields_cons_error rest hfield] at h
            exact absurd h (by simp)
          | obj fs =>
            have hfield : parseSpanField path s ("marks", .obj fs) =
                .error ⟨"span", path ++ ".marks", .invalidMarks⟩ := by
              simp [parseSpanField]
            rw [parseSpanFields_cons_error rest hfield] at h
            exact absurd h (by simp)
        · have hok : SpanRawOk (k, v) :=
            ⟨hk1, fun hc => absurd hc hk2, fun hc => absurd hc hk3⟩
          rw [parseSpanFields_cons_ok rest (parseSpanField_rawOk hok hk_raw)]
            at h
          exact rawStep hok h

/-- A successful `parseSpan` on a well-formed JSON value establishes the
span invariant. -/
theorem parseSpan_inv {v : JValue} {path : String} {s : Span}
    (hwf : v.wf = true) (h : parseSpan v path = .ok s) : SpanInv s := by
  cases v with
  | null => simp [parseSpan, decodeObjectUseNumber] at h
  | bool b => simp [parseSpan, decodeObjectUseNumber] at h
  | num x => simp [parseSpan, decodeObjectUseNumber] at h
  | str t => simp [parseSpan, decodeObjectUseNumber] at h
  | arr xs => simp [parseSpan, decodeObjectUseNumber] at h
  | obj fields =>
    have hnd : (keysOf fields).Nodup := by
      rw [← nodupKeys_iff]
      exact (Bool.and_eq_true_iff.mp (by simpa [JValue.wf] using hwf)).1
    simp only [parseSpan, decodeObjectUseNumber] at h
    split at h
    · exact absurd h (by simp)
    · split at h
      · split at h
        · exact absurd h (by simp)
        · rename_i ts hts
          exact parseSpanFields_inv fields _ path s hnd
            (by simp [keysOf]) (by simp) (by simp)
            ⟨by simpa using hts, by simp [keysOf], by simp, by simp, by simp⟩ h
      · exact absurd h (by simp)

/-- The typed entries appended by `Span.MarshalJSON` after the raw ones. -/
def spanTypedEntries (s : Span) : List (String × JValue) :=
  [("_type", .str s.type)] ++
  (match s.text with
   | none => []
   | some t => [("text", .str t)]) ++
  (match s.marks with
   | none => []
   | some ms => [("marks", .arr (ms.map JValue.str))])

theorem encodeSpan_eq (s : Span) (h : SpanInv s) :
    encodeSpan s = .obj (s.raw ++ spanTypedEntries s) := by
  have htype : "_type" ∉ keysOf s.raw :=
    not_mem_keys_of_rawOk h.rawOk (fun e he => he.1)
  have htext := h.text_excl
  have hmarks := h.marks_excl
  obtain ⟨ty, tx, mks, raw0⟩ := s
  simp only at htype htext hmarks
  have e1 : mapSet raw0 "_type" (JValue.str ty) =
      raw0 ++ [("_type", JValue.str ty)] := mapSet_of_not_mem raw0 _ htype
  cases tx with
  | none =>
    cases mks with
    | none => simp [encodeSpan, spanTypedEntries, e1]
    | some ms =>
      have hm : "marks" ∉ keysOf (raw0 ++ [("_type", JValue.str ty)]) := by
        rw [keysOf_append]
        intro hbad
        rcases List.mem_append.mp hbad with hl | hr
        · exact hmarks (by simp) hl
        · simp [keysOf] at hr
      have e2 : mapSet (raw0 ++ [("_type", JValue.str ty)]) "marks"
          (JValue.arr (ms.map JValue.str)) =
          raw0 ++ [("_type", JValue.str ty),
            ("marks", JValue.arr (ms.map JValue.str))] := by
        rw [mapSet_of_not_mem _ _ hm]
        simp
      simp [encodeSpan, spanTypedEntries, e1, e2]
  | some t =>
    have ht : "text" ∉ keysOf (raw0 ++ [("_type", JValue.str ty)]) := by
      rw [keysOf_append]
      intro hbad
      rcases List.mem_append.mp hbad with hl | hr
      · exact htext (by simp) hl
      · simp [keysOf] at hr
    have e2 : mapSet (raw0 ++ [("_type", JValue.str ty)]) "text"
        (JValue.str t) =
        raw0 ++ [("_type", JValue.str ty), ("text", JValue.str t)] := by
      rw [mapSet_of_not_mem _ _ ht]
      simp
    cases mks with
    | none => simp [encodeSpan, spanTypedEntries, e1, e2]
    | some ms =>
      have hm : "marks" ∉ keysOf ((raw0 ++ [("_type", JValue.str ty)]) ++
          [("text", JValue.str t)]) := by
        rw [keysOf_append, keysOf_append]
        intro hbad
        rcases List.mem_append.mp hbad with hl | hr
        · rcases List.mem_append.mp hl with hll | hlr
          · exact hmarks (by simp) hll
          · simp [keysOf] at hlr
        · simp [keysOf] at hr
      have e3 : mapSet (raw0 ++ [("_type", JValue.str ty),
          ("text", JValue.str t)]) "marks"
          (JValue.arr (ms.map JValue.str)) =
          raw0 ++ [("_type", JValue.str ty), ("text", JValue.str t),
            ("marks", JValue.arr (ms.map JValue.str))] := by
        rw [show raw0 ++ [("_type", JValue.str ty), ("text", JValue.str t)] =
          (raw0 ++ [("_type", JValue.str ty)]) ++ [("text", JValue.str t)]
          by simp]
        rw [mapSet_of_not_mem _ _ hm]
        simp
      simp [encodeSpan, spanTypedEntries, e1, e2, e3]

/-- Re-parsing an encoded span that satisfies the invariant reproduces the
span exactly. -/
theorem parseSpan_encodeSpan (s : Span) (h : SpanInv s) (path : String) :
    parseSpan (encodeSpan s) path = .ok s := by
  rw [encodeSpan_eq s h]
  have htype : "_type" ∉ keysOf s.raw :=
    not_mem_keys_of_rawOk h.rawOk (fun e he => he.1)
  have htne := h.type_ne
  have hraw := parseSpanFields_rawOnly s.raw
    { type := s.type, raw := [] } path h.rawOk h.nodup (by simp [keysOf])
  clear h
  simp only [parseSpan, decodeObjectUseNumber]
  rw [lookupField_append_of_not_mem htype]
  obtain ⟨ty, tx, mks, raw0⟩ := s
  have htype0 : "_type" ∉ keysOf raw0 := htype
  have htne0 : ty ≠ "" := htne
  have hraw0 : parseSpanFields path { type := ty, raw := [] } raw0 =
      .ok { type := ty, raw := raw0 } := by simpa using hraw
  clear htype htne hraw
  have hcons : spanTypedEntries ⟨ty, tx, mks, raw0⟩ =
      ("_type", JValue.str ty) ::
      ((match tx with
        | none => []
        | some t => [("text", JValue.str t)]) ++
       (match mks with
        | none => []
        | some ms => [("marks", JValue.arr (ms.map JValue.str))])) := by
    simp [spanTypedEntries]
  simp only [hcons, lookupField_cons_self]
  rw [if_neg (by simpa using htne0), ← hcons]
  rw [parseSpanFields_append (spanTypedEntries ⟨ty, tx, mks, raw0⟩) hraw0]
  cases tx with
  | none =>
    cases mks with
    | none => simp [spanTypedEntries, parseSpanFields, parseSpanField]
    | some ms =>
      simp [spanTypedEntries, parseSpanFields, parseSpanField,
        asStringList_map_str]
  | some t =>
    cases mks with
    | none => simp [spanTypedEntries, parseSpanFields, parseSpanField]
    | some ms =>
      simp [spanTypedEntries, parseSpanFields, parseSpanField,
        asStringList_map_str]

/-- Element-wise invariant for a decoded children array. -/
theorem parseSpanArrayElems_inv : ∀ (xs : List JValue) (i : Nat)
    (path : String) (out : List Span), wfList xs = true →
    parseSpanArrayElems path i xs = .ok out → ∀ s ∈ out, SpanInv s := by
  intro xs
  induction xs with
  | nil =>
    intro i path out _ h s hs
    simp [parseSpanArrayElems] at h
    subst h; simp at hs
  | cons x rest ih =>
    intro i path out hwf h s hs
    rw [parseSpanArrayElems] at h
    cases hx : parseSpan x (path ++ "[" ++ toString i ++ "]") with
    | error err => rw [hx] at h; simp at h
    | ok s1 =>
      rw [hx] at h
      cases hrest : parseSpanArrayElems path (i + 1) rest with
      | error err => rw [hrest] at h; simp at h
      | ok ss =>
        rw [hrest] at h
        simp at h
        subst h
        have hwf1 : x.wf = true := (Bool.and_eq_true_iff.mp (by simpa [wfList] using hwf)).1
        have hwf2 : wfList rest = true := (Bool.and_eq_true_iff.mp (by simpa [wfList] using hwf)).2
        rcases List.mem_cons.mp hs with h1 | h2
        · subst h1; exact parseSpan_inv hwf1 hx
        · exact ih (i + 1) path ss hwf2 hrest s h2

/-- Re-parsing an array of encoded invariant-satisfying spans reproduces
the list exactly (at any starting index). -/
theorem parseSpanArrayElems_encode : ∀ (cs : List Span) (i : Nat)
    (path : String), (∀ s ∈ cs, SpanInv s) →
    parseSpanArrayElems path i (cs.map encodeSpan) = .ok cs := by
  intro cs
  induction cs with
  | nil => intro i path _; rfl
  | cons c rest ih =>
    intro i path hinv
    rw [List.map_cons, parseSpanArrayElems,
      parseSpan_encodeSpan c (hinv c (by simp)) _,
      ih (i + 1) path (fun s hs => hinv s (by simp [hs]))]

--
-- MarkDef: field-loop lemmas.
--

/-- The entries the `parseMarkDef` field loop routes to raw. -/
def mdRawEntries (entries : List (String × JValue)) :
    List (String × JValue) :=
  entries.filter (fun e => !(e.1 == "_type" || e.1 == "_key"))

theorem mdLoop_eq : ∀ (entries : List (String × JValue)) (md : MarkDef),
    (keysOf entries).Nodup →
    (∀ e ∈ entries, (e.1 == "_type" || e.1 == "_key") = false →
      e.1 ∉ keysOf md.raw) →
    List.foldl
      (fun md e =>
        if e.1 == "_type" || e.1 == "_key" then md
        else { md with raw := mapSet md.raw e.1 e.2 })
      md entries
    = { md with raw := md.raw ++ mdRawEntries entries } := by
  intro entries
  induction entries with
  | nil => intro md _ _; simp [mdRawEntries]
  | cons e rest ih =>
    intro md hnd hdisj
    obtain ⟨k, v⟩ := e
    rw [keysOf_cons] at hnd
    have hk_rest : k ∉ keysOf rest := (List.nodup_cons.mp hnd).1
    have hnd' : (keysOf rest).Nodup := (List.nodup_cons.mp hnd).2
    by_cases hskip : (k == "_type" || k == "_key") = true
    · rw [List.foldl_cons, if_pos hskip]
      rw [ih md hnd' (fun e he hne => hdisj e (List.mem_cons_of_mem _ he) hne)]
      have hor : k = "_type" ∨ k = "_key" := by simpa using hskip
      have : mdRawEntries ((k, v) :: rest) = mdRawEntries rest := by
        rcases hor with hko | hko <;> simp [mdRawEntries, hko]
      rw [this]
    · have hskip' : (k == "_type" || k == "_key") = false := by
        simpa using hskip
      have hk_raw : k ∉ keysOf md.raw := hdisj (k, v) (by simp) hskip'
      rw [List.foldl_cons, if_neg hskip,
        mapSet_of_not_mem md.raw v hk_raw]
      rw [ih { md with raw := md.raw ++ [(k, v)] } hnd'
        (fun e he hne => by
          rw [keysOf_append]
          intro hbad
          rcases List.mem_append.mp hbad with hl | hr
          · exact hdisj e (List.mem_cons_of_mem _ he) hne hl
          · have heq : e.1 = k := by simpa [keysOf] using hr
            exact hk_rest (heq ▸ List.mem_map.mpr ⟨e, he, rfl⟩))]
      have hne : ¬(k = "_type" ∨ k = "_key") := by simpa using hskip'
      have : mdRawEntries ((k, v) :: rest) = (k, v) :: mdRawEntries rest := by
        simp [mdRawEntries, (not_or.mp hne).1, (not_or.mp hne).2]
      rw [this]
      simp

theorem mdRawEntries_key_ne : ∀ {entries : List (String × JValue)}
    {e : String × JValue}, e ∈ mdRawEntries entries →
    e.1 ≠ "_type" ∧ e.1 ≠ "_key" := by
  intro entries e he
  have := (List.mem_filter.mp he).2
  constructor
  · intro hc; rw [hc] at this; simp at this
  · intro hc; rw [hc] at this; simp at this

theorem mdRawEntries_sublist (entries : List (String × JValue)) :
    (keysOf (mdRawEntries entries)).Sublist (keysOf entries) :=
  (List.filter_sublist entries).map Prod.fst

theorem mdRawEntries_no_key (fields : List (String × JValue)) :
    "_key" ∉ keysOf (mdRawEntries fields) := by
  intro hbad
  obtain ⟨e, he, heq⟩ := List.mem_map.mp hbad
  exact (mdRawEntries_key_ne he).2 heq

theorem markDefInv_core1 (fields : List (String × JValue)) (ts key : String)
    (hts : ts ≠ "") (hnd : (keysOf fields).Nodup) :
    MarkDefInv { key := key, type := ts, raw := mdRawEntries fields } := by
  refine ⟨hts, ?_, ?_, fun _ => mdRawEntries_no_key fields, ?_⟩
  · exact List.Nodup.sublist (mdRawEntries_sublist fields) hnd
  · intro e he
    obtain ⟨k, v⟩ := e
    exact ⟨(mdRawEntries_key_ne he).1,
      fun hc => absurd hc (mdRawEntries_key_ne he).2⟩
  · intro hbad
    obtain ⟨e, he, heq⟩ := List.mem_map.mp hbad
    exact (mdRawEntries_key_ne (List.mem_of_mem_tail he)).2 heq

theorem markDefInv_core2 (fields : List (String × JValue)) (ts : String)
    (x : JValue) (hts : ts ≠ "") (hx : x.isStr = false)
    (hnd : (keysOf fields).Nodup) :
    MarkDefInv { key := "",
                 type := ts,
                 raw := ("_key", x) :: mdRawEntries fields } := by
  refine ⟨hts, ?_, ?_, fun hc => absurd rfl hc, ?_⟩
  · rw [keysOf_cons]
    exact List.nodup_cons.mpr ⟨mdRawEntries_no_key fields,
      List.Nodup.sublist (mdRawEntries_sublist fields) hnd⟩
  · intro e he
    rcases List.mem_cons.mp he with h1 | h2
    · subst h1
      exact ⟨by simp, fun _ => hx⟩
    · obtain ⟨k, v⟩ := e
      exact ⟨(mdRawEntries_key_ne h2).1,
        fun hc => absurd hc (mdRawEntries_key_ne h2).2⟩
  · exact mdRawEntries_no_key fields

/-- A successful `parseMarkDef` on a well-formed JSON value establishes
the mark-definition invariant. -/
theorem parseMarkDef_inv {v : JValue} {path : String} {md : MarkDef}
    (hwf : v.wf = true) (h : parseMarkDef v path = .ok md) : MarkDefInv md := by
  cases v with
  | null => simp [parseMarkDef, decodeObjectUseNumber] at h
  | bool b => simp [parseMarkDef, decodeObjectUseNumber] at h
  | num x => simp [parseMarkDef, decodeObjectUseNumber] at h
  | str t => simp [parseMarkDef, decodeObjectUseNumber] at h
  | arr xs => simp [parseMarkDef, decodeObjectUseNumber] at h
  | obj fields =>
    have hnd : (keysOf fields).Nodup := by
      rw [← nodupKeys_iff]
      exact (Bool.and_eq_true_iff.mp (by simpa [JValue.wf] using hwf)).1
    simp only [parseMarkDef, decodeObjectUseNumber] at h
    split at h
    · exact absurd h (by simp)
    · split at h
      · split at h
        · exact absurd h (by simp)
        · rename_i ts heq hts
          have hts' : ts ≠ "" := by simpa using hts
          simp only [Except.ok.injEq] at h
          have hdisj1 : ∀ (key : String), ∀ e ∈ fields,
              (e.1 == "_type" || e.1 == "_key") = false →
              e.1 ∉ keysOf (({ key := key, type := ts,
                               raw := [] } : MarkDef).raw) := by
            intro key e _ _
            simp [keysOf]
          have hdisj2 : ∀ (x : JValue), ∀ e ∈ fields,
              (e.1 == "_type" || e.1 == "_key") = false →
              e.1 ∉ keysOf (({ key := "",
                               type := ts,
                               raw := [("_key", x)] } : MarkDef).raw) := by
            intro x e _ hne
            simp [keysOf]
            intro hc
            rw [hc] at hne
            simp at hne
          cases hk : lookupField fields "_key" with
          | none =>
            rw [hk] at h
            simp only [mdKeyInit] at h
            rw [mdLoop_eq fields _ hnd (hdisj1 "")] at h
            rw [← h]
            exact markDefInv_core1 fields ts "" hts' hnd
          | some x =>
            rw [hk] at h
            cases x with
            | null =>
              simp only [mdKeyInit, mapSet] at h
              rw [mdLoop_eq fields _ hnd (hdisj2 .null)] at h
              rw [← h]
              exact markDefInv_core2 fields ts .null hts' rfl hnd
            | str ks =>
              simp only [mdKeyInit] at h
              rw [mdLoop_eq fields _ hnd (hdisj1 ks)] at h
              rw [← h]
              exact markDefInv_core1 fields ts ks hts' hnd
            | bool b =>
              simp only [mdKeyInit, mapSet] at h
              rw [mdLoop_eq fields _ hnd (hdisj2 (.bool b))] at h
              rw [← h]
              exact markDefInv_core2 fields ts (.bool b) hts' rfl hnd
            | num s =>
              simp only [mdKeyInit, mapSet] at h
              rw [mdLoop_eq fields _ hnd (hdisj2 (.num s))] at h
              rw [← h]
              exact markDefInv_core2 fields ts (.num s) hts' rfl hnd
            | arr xs =>
              simp only [mdKeyInit, mapSet] at h
              rw [mdLoop_eq fields _ hnd (hdisj2 (.arr xs))] at h
              rw [← h]
              exact markDefInv_core2 fields ts (.arr xs) hts' rfl hnd
            | obj fs =>
              simp only [mdKeyInit, mapSet] at h
              rw [mdLoop_eq fields _ hnd (hdisj2 (.obj fs))] at h
              rw [← h]
              exact markDefInv_core2 fields ts (.obj fs) hts' rfl hnd
      · exact absurd h (by simp)

theorem mdKeyInit_nonstr (ts : String) (x : JValue) (hx : x.isStr = false) :
    mdKeyInit ts (some x) =
      { key := "", type := ts, raw := [("_key", x)] } := by
  cases x with
  | null => simp [mdKeyInit, mapSet]
  | bool b => simp [mdKeyInit, mapSet]
  | num s => simp [mdKeyInit, mapSet]
  | str t => simp [JValue.isStr] at hx
  | arr xs => simp [mdKeyInit, mapSet]
  | obj fs => simp [mdKeyInit, mapSet]

theorem mdRawEntries_append (a b : List (String × JValue)) :
    mdRawEntries (a ++ b) = mdRawEntries a ++ mdRawEntries b := by
  simp [mdRawEntries]

theorem mdRawEntries_eq_self {l : List (String × JValue)}
    (h : ∀ e ∈ l, e.1 ≠ "_type" ∧ e.1 ≠ "_key") : mdRawEntries l = l := by
  rw [mdRawEntries, List.filter_eq_self]
  intro e he
  simp [(h e he).1, (h e he).2]

/-- The typed entries appended by `MarkDef.MarshalJSON` after the raw
ones. -/
def mdTypedEntries (md : MarkDef) : List (String × JValue) :=
  [("_type", .str md.type)] ++
  (if md.key == "" then [] else [("_key", .str md.key)])

theorem encodeMarkDef_eq (md : MarkDef) (h : MarkDefInv md) :
    encodeMarkDef md = .obj (md.raw ++ mdTypedEntries md) := by
  have htype : "_type" ∉ keysOf md.raw :=
    not_mem_keys_of_rawOk h.rawOk (fun e he => he.1)
  have e1 : mapSet md.raw "_type" (JValue.str md.type) =
      md.raw ++ [("_type", JValue.str md.type)] :=
    mapSet_of_not_mem md.raw _ htype
  by_cases hkey : md.key = ""
  · simp [encodeMarkDef, mdTypedEntries, hkey, e1]
  · have hk2 : "_key" ∉ keysOf (md.raw ++ [("_type", JValue.str md.type)]) := by
      rw [keysOf_append]
      intro hbad
      rcases List.mem_append.mp hbad with hl | hr
      · exact h.key_excl hkey hl
      · simp [keysOf] at hr
    have e2 : mapSet (md.raw ++ [("_type", JValue.str md.type)]) "_key"
        (JValue.str md.key) =
        md.raw ++ [("_type", JValue.str md.type),
          ("_key", JValue.str md.key)] := by
      rw [mapSet_of_not_mem _ _ hk2]
      simp
    simp [encodeMarkDef, mdTypedEntries, hkey, e1, e2]

/-- Raw entries of an invariant-satisfying mark definition survive the
field-loop filter untouched: none of them is named `_type`, and a `_key`
one can only sit at the head. -/
theorem parseMarkDef_encodeMarkDef (md : MarkDef) (h : MarkDefInv md)
    (path : String) : parseMarkDef (encodeMarkDef md) path = .ok md := by
  rw [encodeMarkDef_eq md h]
  have htype : "_type" ∉ keysOf md.raw :=
    not_mem_keys_of_rawOk h.rawOk (fun e he => he.1)
  simp only [parseMarkDef, decodeObjectUseNumber]
  rw [lookupField_append_of_not_mem htype]
  have hcons : mdTypedEntries md = ("_type", JValue.str md.type) ::
      (if md.key == "" then [] else [("_key", JValue.str md.key)]) := by
    simp [mdTypedEntries]
  simp only [hcons, lookupField_cons_self]
  rw [if_neg (by simpa using h.type_ne), ← hcons]
  by_cases hkey : md.key = ""
  · have hTy : mdTypedEntries md = [("_type", JValue.str md.type)] := by
      simp [mdTypedEntries, hkey]
    rw [hTy]
    by_cases hkmem : "_key" ∈ keysOf md.raw
    · -- the raw `_key` entry sits at the head of raw
      cases hraw : md.raw with
      | nil => rw [hraw] at hkmem; simp [keysOf] at hkmem
      | cons e0 rest =>
        obtain ⟨k0, v0⟩ := e0
        have hkh : "_key" ∉ keysOf rest := by
          have := h.key_head
          rw [hraw] at this
          simpa using this
        have hk0 : k0 = "_key" := by
          by_cases hc : k0 = "_key"
          · exact hc
          · exfalso
            rw [hraw, keysOf_cons] at hkmem
            rcases List.mem_cons.mp hkmem with h1 | h2
            · exact hc h1.symm
            · exact hkh h2
        subst hk0
        have hv0 : v0.isStr = false := by
          have := h.rawOk ("_key", v0) (by rw [hraw]; simp)
          exact this.2 rfl
        have hrest : ∀ e ∈ rest, e.1 ≠ "_type" ∧ e.1 ≠ "_key" := by
          intro e he
          refine ⟨(h.rawOk e (by rw [hraw]; simp [he])).1, ?_⟩
          intro hc
          exact hkh (hc ▸ List.mem_map.mpr ⟨e, he, rfl⟩)
        have hndraw : ("_key" :: keysOf rest).Nodup := by
          have := h.nodup
          rw [hraw, keysOf_cons] at this
          exact this
        have htyraw : "_type" ∉ keysOf rest := by
          have := htype
          rw [hraw, keysOf_cons] at this
          exact fun hc => this (List.mem_cons_of_mem _ hc)
        simp only [List.cons_append]
        have hlk : lookupField (("_key", v0) ::
            (rest ++ [("_type", JValue.str md.type)])) "_key" = some v0 := by
          simp [lookupField]
        rw [hlk, mdKeyInit_nonstr md.type v0 hv0]
        have hnd2 : (keysOf (("_key", v0) ::
            (rest ++ [("_type", JValue.str md.type)]))).Nodup := by
          rw [keysOf_cons, keysOf_append]
          refine List.nodup_cons.mpr ⟨?_, ?_⟩
          · intro hbad
            rcases List.mem_append.mp hbad with hl | hr
            · exact hkh hl
            · simp [keysOf] at hr
          · refine List.Nodup.append ((List.nodup_cons.mp hndraw).2)
              (by simp [keysOf]) ?_
            intro a ha hbad
            have : a = "_type" := by simpa [keysOf] using hbad
            subst this
            exact htyraw ha
        rw [mdLoop_eq _ _ hnd2 (by
          intro e _ hne
          simp [keysOf]
          intro hc
          rw [hc] at hne
          simp at hne)]
        have hfil : mdRawEntries (("_key", v0) ::
            (rest ++ [("_type", JValue.str md.type)])) = rest := by
          have h1 : mdRawEntries (("_key", v0) ::
              (rest ++ [("_type", JValue.str md.type)])) =
              mdRawEntries (rest ++ [("_type", JValue.str md.type)]) := by
            simp [mdRawEntries]
          rw [h1, mdRawEntries_append, mdRawEntries_eq_self hrest]
          have h2 : mdRawEntries [("_type", JValue.str md.type)] = [] := by
            simp [mdRawEntries]
          rw [h2, List.append_nil]
        rw [hfil]
        have hback : ("_key", v0) :: rest = md.raw := hraw.symm
        obtain ⟨mk, mt, mraw⟩ := md
        simp only at hraw hkey ⊢
        simp [hraw, hkey]
    · -- no `_key` anywhere: zero-value key, raw reproduced verbatim
      have hlk : lookupField (md.raw ++ [("_type", JValue.str md.type)])
          "_key" = none := by
        rw [lookupField_append_of_not_mem hkmem]
        simp [lookupField]
      rw [hlk]
      simp only [mdKeyInit]
      have hnd2 : (keysOf (md.raw ++
          [("_type", JValue.str md.type)])).Nodup := by
        rw [keysOf_append]
        refine List.Nodup.append h.nodup (by simp [keysOf]) ?_
        intro a ha hbad
        have : a = "_type" := by simpa [keysOf] using hbad
        subst this
        exact htype ha
      rw [mdLoop_eq _ _ hnd2 (by intro e _ _; simp [keysOf])]
      have hrawKeep : ∀ e ∈ md.raw, e.1 ≠ "_type" ∧ e.1 ≠ "_key" := by
        intro e he
        refine ⟨(h.rawOk e he).1, ?_⟩
        intro hc
        exact hkmem (hc ▸ List.mem_map.mpr ⟨e, he, rfl⟩)
      rw [mdRawEntries_append, mdRawEntries_eq_self hrawKeep]
      have hfilty : mdRawEntries [("_type", JValue.str md.type)] = [] := by
        simp [mdRawEntries]
      rw [hfilty]
      obtain ⟨mk, mt, mraw⟩ := md
      simp only at hkey ⊢
      simp [hkey]
  · -- nonempty key: `_key` is absent from raw and re-read from the typed
    -- entry
    have hTy : mdTypedEntries md = [("_type", JValue.str md.type),
        ("_key", JValue.str md.key)] := by
      simp [mdTypedEntries, hkey]
    rw [hTy]
    have hkraw : "_key" ∉ keysOf md.raw := h.key_excl hkey
    have hlk : lookupField (md.raw ++ [("_type", JValue.str md.type),
        ("_key", JValue.str md.key)]) "_key" = some (JValue.str md.key) := by
      rw [lookupField_append_of_not_mem hkraw]
      simp [lookupField]
    rw [hlk]
    simp only [mdKeyInit]
    have hnd2 : (keysOf (md.raw ++ [("_type", JValue.str md.type),
        ("_key", JValue.str md.key)])).Nodup := by
      rw [keysOf_append]
      refine List.Nodup.append h.nodup (by simp [keysOf]) ?_
      intro a ha hbad
      have : a = "_type" ∨ a = "_key" := by simpa [keysOf] using hbad
      rcases this with hc | hc
      · subst hc; exact htype ha
      · subst hc; exact hkraw ha
    rw [mdLoop_eq _ _ hnd2 (by intro e _ _; simp [keysOf])]
    have hrawKeep : ∀ e ∈ md.raw, e.1 ≠ "_type" ∧ e.1 ≠ "_key" := by
      intro e he
      refine ⟨(h.rawOk e he).1, ?_⟩
      intro hc
      exact hkraw (hc ▸ List.mem_map.mpr ⟨e, he, rfl⟩)
    rw [mdRawEntries_append, mdRawEntries_eq_self hrawKeep]
    have hfilty : mdRawEntries [("_type", JValue.str md.type),
        ("_key", JValue.str md.key)] = [] := by
      simp [mdRawEntries]
    rw [hfilty]
    obtain ⟨mk, mt, mraw⟩ := md
    simp

theorem parseMarkDefArrayElems_inv : ∀ (xs : List JValue) (i : Nat)
    (path : String) (out : List MarkDef), wfList xs = true →
    parseMarkDefArrayElems path i xs = .ok out → ∀ md ∈ out, MarkDefInv md := by
  intro xs
  induction xs with
  | nil =>
    intro i path out _ h md hmd
    simp [parseMarkDefArrayElems] at h
    subst h; simp at hmd
  | cons x rest ih =>
    intro i path out hwf h md hmd
    rw [parseMarkDefArrayElems] at h
    cases hx : parseMarkDef x (path ++ "[" ++ toString i ++ "]") with
    | error err => rw [hx] at h; simp at h
    | ok md1 =>
      rw [hx] at h
      cases hrest : parseMarkDefArrayElems path (i + 1) rest with
      | error err => rw [hrest] at h; simp at h
      | ok mds =>
        rw [hrest] at h
        simp at h
        subst h
        have hwf1 : x.wf = true :=
          (Bool.and_eq_true_iff.mp (by simpa [wfList] using hwf)).1
        have hwf2 : wfList rest = true :=
          (Bool.and_eq_true_iff.mp (by simpa [wfList] using hwf)).2
        rcases List.mem_cons.mp hmd with h1 | h2
        · subst h1; exact parseMarkDef_inv hwf1 hx
        · exact ih (i + 1) path mds hwf2 hrest md h2

theorem parseMarkDefArrayElems_encode : ∀ (mds : List MarkDef) (i : Nat)
    (path : String), (∀ md ∈ mds, MarkDefInv md) →
    parseMarkDefArrayElems path i (mds.map encodeMarkDef) = .ok mds := by
  intro mds
  induction mds with
  | nil => intro i path _; rfl
  | cons md rest ih =>
    intro i path hinv
    rw [List.map_cons, parseMarkDefArrayElems,
      parseMarkDef_encodeMarkDef md (hinv md (by simp)) _,
      ih (i + 1) path (fun m hm => hinv m (by simp [hm]))]

--
-- Node: field-loop lemmas.
--

theorem nodeRawOk_key {v : JValue} (hv : v.isStr = false) :
    NodeRawOk ("_key", v) :=
  ⟨by simp, fun _ => hv, fun hc => by simp at hc, fun hc => by simp at hc,
   fun hc => by simp at hc, fun hc => by simp at hc, fun hc => by simp at hc⟩

theorem nodeRawOk_style {v : JValue} (hv : v.isStr = false) :
    NodeRawOk ("style", v) :=
  ⟨by simp, fun hc => by simp at hc, fun _ => hv, fun hc => by simp at hc,
   fun hc => by simp at hc, fun hc => by simp at hc, fun hc => by simp at hc⟩

theorem nodeRawOk_children : NodeRawOk ("children", .null) :=
  ⟨by simp, fun hc => by simp at hc, fun hc => by simp at hc, fun _ => rfl,
   fun hc => by simp at hc, fun hc => by simp at hc, fun hc => by simp at hc⟩

theorem nodeRawOk_markDefs : NodeRawOk ("markDefs", .null) :=
  ⟨by simp, fun hc => by simp at hc, fun hc => by simp at hc,
   fun hc => by simp at hc, fun _ => rfl, fun hc => by simp at hc,
   fun hc => by simp at hc⟩

theorem nodeRawOk_listItem {v : JValue} (hv : v.isStr = false) :
    NodeRawOk ("listItem", v) :=
  ⟨by simp, fun hc => by simp at hc, fun hc => by simp at hc,
   fun hc => by simp at hc, fun hc => by simp at hc, fun _ => hv,
   fun hc => by simp at hc⟩

theorem nodeRawOk_level {v : JValue} (hv : v.isNum = false) :
    NodeRawOk ("level", v) :=
  ⟨by simp, fun hc => by simp at hc, fun hc => by simp at hc,
   fun hc => by simp at hc, fun hc => by simp at hc, fun hc => by simp at hc,
   fun _ => hv⟩

theorem nodeRawOk_other {k : String} {v : JValue} (h1 : k ≠ "_type")
    (h2 : k ≠ "_key") (h3 : k ≠ "style") (h4 : k ≠ "children")
    (h5 : k ≠ "markDefs") (h6 : k ≠ "listItem") (h7 : k ≠ "level") :
    NodeRawOk (k, v) :=
  ⟨h1, fun hc => absurd hc h2, fun hc => absurd hc h3, fun hc => absurd hc h4,
   fun hc => absurd hc h5, fun hc => absurd hc h6, fun hc => absurd hc h7⟩

/-- A raw-shaped entry is routed back into the raw store by the node field
loop. -/
theorem parseNodeField_rawOk {path : String} {n : Node} {k : String}
    {v : JValue} (h : NodeRawOk (k, v)) (hmem : k ∉ keysOf n.raw) :
    parseNodeField path n (k, v) = .ok { n with raw := n.raw ++ [(k, v)] } := by
  obtain ⟨h1, h2, h3, h4, h5, h6, h7⟩ := h
  rw [← mapSet_of_not_mem n.raw v hmem]
  by_cases hk2 : k = "_key"
  · subst hk2
    have := h2 rfl
    cases v <;> simp_all [parseNodeField, JValue.isStr]
  · by_cases hk3 : k = "style"
    · subst hk3
      have := h3 rfl
      cases v <;> simp_all [parseNodeField, JValue.isStr]
    · by_cases hk4 : k = "children"
      · subst hk4
        rw [h4 rfl]
        simp [parseNodeField, JValue.isNull]
      · by_cases hk5 : k = "markDefs"
        · subst hk5
          rw [h5 rfl]
          simp [parseNodeField, JValue.isNull]
        · by_cases hk6 : k = "listItem"
          · subst hk6
            have := h6 rfl
            cases v <;> simp_all [parseNodeField, JValue.isStr]
          · by_cases hk7 : k = "level"
            · subst hk7
              have := h7 rfl
              cases v <;> simp_all [parseNodeField, JValue.isNum]
            · simp [parseNodeField, h1, hk2, hk3, hk4, hk5, hk6, hk7]

theorem parseNodeFields_cons_ok {path : String} {n n2 : Node}
    {e : String × JValue} (rest : List (String × JValue))
    (h : parseNodeField path n e = .ok n2) :
    parseNodeFields path n (e :: rest) = parseNodeFields path n2 rest := by
  rw [parseNodeFields, h]

theorem parseNodeFields_cons_error {path : String} {n : Node}
    {e : String × JValue} {err : PTError} (rest : List (String × JValue))
    (h : parseNodeField path n e = .error err) :
    parseNodeFields path n (e :: rest) = .error err := by
  rw [parseNodeFields, h]

theorem parseNodeFields_append {path : String} {n n2 : Node}
    {l1 : List (String × JValue)} (l2 : List (String × JValue))
    (h : parseNodeFields path n l1 = .ok n2) :
    parseNodeFields path n (l1 ++ l2) = parseNodeFields path n2 l2 := by
  induction l1 generalizing n with
  | nil => simp [parseNodeFields] at h; subst h; rfl
  | cons e rest ih =>
    rw [List.cons_append, parseNodeFields]
    rw [parseNodeFields] at h
    cases he : parseNodeField path n e with
    | error err => rw [he] at h; exact absurd h (by simp)
    | ok n3 => rw [he] at h; exact ih h

theorem parseNodeFields_rawOnly : ∀ (raws : List (String × JValue)) (n : Node)
    (path : String), (∀ e ∈ raws, NodeRawOk e) →
    (keysOf raws).Nodup →
    (∀ k ∈ keysOf raws, k ∉ keysOf n.raw) →
    parseNodeFields path n raws = .ok { n with raw := n.raw ++ raws } := by
  intro raws
  induction raws with
  | nil => intro n path _ _ _; simp [parseNodeFields]
  | cons e rest ih =>
    intro n path hok hnd hdisj
    obtain ⟨k, v⟩ := e
    rw [keysOf_cons] at hnd hdisj
    have hmem : k ∉ keysOf n.raw := hdisj k (by simp)
    have hk_rest : k ∉ keysOf rest := (List.nodup_cons.mp hnd).1
    have hnd' : (keysOf rest).Nodup := (List.nodup_cons.mp hnd).2
    rw [parseNodeFields_cons_ok rest
      (parseNodeField_rawOk (hok _ (by simp)) hmem)]
    have hstep := ih { n with raw := n.raw ++ [(k, v)] } path
      (fun e he => hok e (by simp [he])) hnd'
      (fun k2 h2 => by
        rw [keysOf_append]
        intro hbad
        rcases List.mem_append.mp hbad with hl | hr
        · exact hdisj k2 (List.mem_cons_of_mem _ h2) hl
        · have heq : k2 = k := by simpa [keysOf] using hr
          subst heq
          exact hk_rest h2)
    rw [hstep]
    simp

theorem isNull_eq_true_iff {v : JValue} : v.isNull = true ↔ v = .null := by
  cases v <;> simp [JValue.isNull]

theorem parseSpanArray_ok {v : JValue} {path : String} {cs : List Span}
    (h : parseSpanArray v path = .ok cs) :
    ∃ xs, v = .arr xs ∧ parseSpanArrayElems path 0 xs = .ok cs := by
  cases v <;> simp [parseSpanArray] at h
  case arr xs => exact ⟨xs, rfl, h⟩

theorem parseMarkDefArray_ok {v : JValue} {path : String}
    {mds : List MarkDef} (h : parseMarkDefArray v path = .ok mds) :
    ∃ xs, v = .arr xs ∧ parseMarkDefArrayElems path 0 xs = .ok mds := by
  cases v <;> simp [parseMarkDefArray] at h
  case arr xs => exact ⟨xs, rfl, h⟩

theorem nodeInv_extend_raw {n : Node} {k : String} {v : JValue}
    (hinv : NodeInv n) (hok : NodeRawOk (k, v)) (hk_raw : k ∉ keysOf n.raw)
    (hkey : n.key ≠ "" → "_key" ≠ k)
    (hstyle : n.style.isSome → "style" ≠ k)
    (hchildren : n.children.isSome → "children" ≠ k)
    (hmarkDefs : n.markDefs.isSome → "markDefs" ≠ k)
    (hlistItem : n.listItem.isSome → "listItem" ≠ k)
    (hlevel : n.level.isSome → "level" ≠ k) :
    NodeInv { n with raw := n.raw ++ [(k, v)] } := by
  have hext : ∀ (x : String), x ∉ keysOf n.raw → x ≠ k →
      x ∉ keysOf (n.raw ++ [(k, v)]) := by
    intro x hx hxk
    rw [keysOf_append]
    intro hbad
    rcases List.mem_append.mp hbad with hl | hr
    · exact hx hl
    · exact hxk (by simpa [keysOf] using hr)
  refine ⟨hinv.type_ne, ?_, ?_, ?_, ?_, ?_, ?_, ?_, ?_,
    hinv.children_inv, hinv.markDefs_inv⟩
  · rw [keysOf_append]
    simp [List.nodup_append, keysOf]
    refine ⟨by simpa [keysOf] using hinv.nodup, ?_⟩
    intro x hx
    exact hk_raw (List.mem_map.mpr ⟨(k, x), hx, rfl⟩)
  · intro e he
    rcases List.mem_append.mp he with hl | hr
    · exact hinv.rawOk e hl
    · have : e = (k, v) := by simpa using hr
      subst this
      exact hok
  · exact fun hs => hext _ (hinv.key_excl hs) (hkey hs)
  · exact fun hs => hext _ (hinv.style_excl hs) (hstyle hs)
  · exact fun hs => hext _ (hinv.children_excl hs) (hchildren hs)
  · exact fun hs => hext _ (hinv.markDefs_excl hs) (hmarkDefs hs)
  · exact fun hs => hext _ (hinv.listItem_excl hs) (hlistItem hs)
  · exact fun hs => hext _ (hinv.level_excl hs) (hlevel hs)

theorem parseNodeFields_inv : ∀ (entries : List (String × JValue)) (n : Node)
    (path : String) (out : Node),
    (keysOf entries).Nodup →
    (∀ k ∈ keysOf entries, k ∉ keysOf n.raw) →
    (n.key ≠ "" → "_key" ∉ keysOf entries) →
    (n.style.isSome → "style" ∉ keysOf entries) →
    (n.children.isSome → "children" ∉ keysOf entries) →
    (n.markDefs.isSome → "markDefs" ∉ keysOf entries) →
    (n.listItem.isSome → "listItem" ∉ keysOf entries) →
    (n.level.isSome → "level" ∉ keysOf entries) →
    wfFields entries = true →
    NodeInv n →
    parseNodeFields path n entries = .ok out → NodeInv out := by
  intro entries
  induction entries with
  | nil =>
    intro n path out _ _ _ _ _ _ _ _ _ hinv h
    simp [parseNodeFields] at h
    subst h
    exact hinv
  | cons e rest ih =>
    intro n path out hnd hdisj hkeyp hstylep hchildp hmdp hlip hlevp hwfe
      hinv h
    obtain ⟨k, v⟩ := e
    rw [keysOf_cons] at hnd hdisj hkeyp hstylep hchildp hmdp hlip hlevp
    have hk_raw : k ∉ keysOf n.raw := hdisj k (by simp)
    have hk_rest : k ∉ keysOf rest := (List.nodup_cons.mp hnd).1
    have hnd' : (keysOf rest).Nodup := (List.nodup_cons.mp hnd).2
    have hdisj' : ∀ k2 ∈ keysOf rest, k2 ∉ keysOf n.raw :=
      fun k2 h2 => hdisj k2 (List.mem_cons_of_mem _ h2)
    have hkeyp' : n.key ≠ "" → "_key" ∉ keysOf rest :=
      fun hs hm => hkeyp hs (List.mem_cons_of_mem _ hm)
    have hstylep' : n.style.isSome → "style" ∉ keysOf rest :=
      fun hs hm => hstylep hs (List.mem_cons_of_mem _ hm)
    have hchildp' : n.children.isSome → "children" ∉ keysOf rest :=
      fun hs hm => hchildp hs (List.mem_cons_of_mem _ hm)
    have hmdp' : n.markDefs.isSome → "markDefs" ∉ keysOf rest :=
      fun hs hm => hmdp hs (List.mem_cons_of_mem _ hm)
    have hlip' : n.listItem.isSome → "listItem" ∉ keysOf rest :=
      fun hs hm => hlip hs (List.mem_cons_of_mem _ hm)
    have hlevp' : n.level.isSome → "level" ∉ keysOf rest :=
      fun hs hm => hlevp hs (List.mem_cons_of_mem _ hm)
    have hwf1 : v.wf = true :=
      (Bool.and_eq_true_iff.mp (by simpa [wfFields] using hwfe)).1
    have hwfe' : wfFields rest = true :=
      (Bool.and_eq_true_iff.mp (by simpa [wfFields] using hwfe)).2
    have rawStep : NodeRawOk (k, v) →
        parseNodeFields path { n with raw := n.raw ++ [(k, v)] } rest =
          .ok out →
        NodeInv out := by
      intro hok h2
      refine ih { n with raw := n.raw ++ [(k, v)] } path out hnd' ?_
        hkeyp' hstylep' hchildp' hmdp' hlip' hlevp' hwfe'
        (nodeInv_extend_raw hinv hok hk_raw
          (fun hs hm => hkeyp hs (by simp [hm]))
          (fun hs hm => hstylep hs (by simp [hm]))
          (fun hs hm => hchildp hs (by simp [hm]))
          (fun hs hm => hmdp hs (by simp [hm]))
          (fun hs hm => hlip hs (by simp [hm]))
          (fun hs hm => hlevp hs (by simp [hm]))) h2
      intro k2 h2m
      rw [keysOf_append]
      intro hbad
      rcases List.mem_append.mp hbad with hl | hr
      · exact hdisj' k2 h2m hl
      · have heq : k2 = k := by simpa [keysOf] using hr
        subst heq
        exact hk_rest h2m
    by_cases hk1 : k = "_type"
    · subst hk1
      have hfield : parseNodeField path n ("_type", v) = .ok n := by
        simp [parseNodeField]
      rw [parseNodeFields_cons_ok rest hfield] at h
      exact ih n path out hnd' hdisj' hkeyp' hstylep' hchildp' hmdp' hlip'
        hlevp' hwfe' hinv h
    · by_cases hk2 : k = "_key"
      · subst hk2
        cases v with
        | str s =>
          have hfield : parseNodeField path n ("_key", .str s) =
              .ok { n with key := s } := by
            simp [parseNodeField]
          rw [parseNodeFields_cons_ok rest hfield] at h
          refine ih { n with key := s } path out hnd' hdisj'
            (fun _ => hk_rest) hstylep' hchildp' hmdp' hlip' hlevp' hwfe'
            ⟨hinv.type_ne, hinv.nodup, hinv.rawOk, fun _ => hk_raw,
             hinv.style_excl, hinv.children_excl, hinv.markDefs_excl,
             hinv.listItem_excl, hinv.level_excl, hinv.children_inv,
             hinv.markDefs_inv⟩ h
        | null =>
          rw [parseNodeFields_cons_ok rest
            (parseNodeField_rawOk (nodeRawOk_key (by rfl)) hk_raw)] at h
          exact rawStep (nodeRawOk_key (by rfl)) h
        | bool b =>
          rw [parseNodeFields_cons_ok rest
            (parseNodeField_rawOk (nodeRawOk_key (by rfl)) hk_raw)] at h
          exact rawStep (nodeRawOk_key (by rfl)) h
        | num x =>
          rw [parseNodeFields_cons_ok rest
            (parseNodeField_rawOk (nodeRawOk_key (by rfl)) hk_raw)] at h
          exact rawStep (nodeRawOk_key (by rfl)) h
        | arr xs =>
          rw [parseNodeFields_cons_ok rest
            (parseNodeField_rawOk (nodeRawOk_key (by rfl)) hk_raw)] at h
          exact rawStep (nodeRawOk_key (by rfl)) h
        | obj fs =>
          rw [parseNodeFields_cons_ok rest
            (parseNodeField_rawOk (nodeRawOk_key (by rfl)) hk_raw)] at h
          exact rawStep (nodeRawOk_key (by rfl)) h
      · by_cases hk3 : k = "style"
        · subst hk3
          cases v with
          | str s =>
            have hfield : parseNodeField path n ("style", .str s) =
                .ok { n with style := some s } := by
              simp [parseNodeField]
            rw [parseNodeFields_cons_ok rest hfield] at h
            refine ih { n with style := some s } path out hnd' hdisj'
              hkeyp' (fun _ => hk_rest) hchildp' hmdp' hlip' hlevp' hwfe'
              ⟨hinv.type_ne, hinv.nodup, hinv.rawOk, hinv.key_excl,
               fun _ => hk_raw, hinv.children_excl, hinv.markDefs_excl,
               hinv.listItem_excl, hinv.level_excl, hinv.children_inv,
               hinv.markDefs_inv⟩ h
          | null =>
            rw [parseNodeFields_cons_ok rest
              (parseNodeField_rawOk (nodeRawOk_style (by rfl)) hk_raw)] at h
            exact rawStep (nodeRawOk_style (by rfl)) h
          | bool b =>
            rw [parseNodeFields_cons_ok rest
              (parseNodeField_rawOk (nodeRawOk_style (by rfl)) hk_raw)] at h
            exact rawStep (nodeRawOk_style (by rfl)) h
          | num x =>
            rw [parseNodeFields_cons_ok rest
              (parseNodeField_rawOk (nodeRawOk_style (by rfl)) hk_raw)] at h
            exact rawStep (nodeRawOk_style (by rfl)) h
          | arr xs =>
            rw [parseNodeFields_cons_ok rest
              (parseNodeField_rawOk (nodeRawOk_style (by rfl)) hk_raw)] at h
            exact rawStep (nodeRawOk_style (by rfl)) h
          | obj fs =>
            rw [parseNodeFields_cons_ok rest
              (parseNodeField_rawOk (nodeRawOk_style (by rfl)) hk_raw)] at h
            exact rawStep (nodeRawOk_style (by rfl)) h
        · by_cases hk4 : k = "children"
          · subst hk4
            by_cases hnull : v.isNull = true
            · have hveq : v = .null := isNull_eq_true_iff.mp hnull
              subst hveq
              rw [parseNodeFields_cons_ok rest
                (parseNodeField_rawOk nodeRawOk_children hk_raw)] at h
              exact rawStep nodeRawOk_children h
            · have hnull' : v.isNull = false := by simpa using hnull
              have hfieldeq : parseNodeField path n ("children", v) =
                  (parseSpanArray v (path ++ ".children")).map
                    (fun cs => { n with children := some cs }) := by
                simp [parseNodeField, hnull']
              cases hres : parseSpanArray v (path ++ ".children") with
              | error err =>
                rw [parseNodeFields_cons_error rest
                  (by rw [hfieldeq, hres]; rfl)] at h
                exact absurd h (by simp)
              | ok cs =>
                have hfield : parseNodeField path n ("children", v) =
                    .ok { n with children := some cs } := by
                  rw [hfieldeq, hres]
                  rfl
                rw [parseNodeFields_cons_ok rest hfield] at h
                obtain ⟨xs, hveq, helems⟩ := parseSpanArray_ok hres
                subst hveq
                have hwfxs : wfList xs = true := by
                  simpa [JValue.wf] using hwf1
                refine ih { n with children := some cs } path out hnd' hdisj'
                  hkeyp' hstylep' (fun _ => hk_rest) hmdp' hlip' hlevp' hwfe'
                  ⟨hinv.type_ne, hinv.nodup, hinv.rawOk, hinv.key_excl,
                   hinv.style_excl, fun _ => hk_raw, hinv.markDefs_excl,
                   hinv.listItem_excl, hinv.level_excl, ?_,
                   hinv.markDefs_inv⟩ h
                intro s hs
                exact parseSpanArrayElems_inv xs 0 _ cs hwfxs helems s hs
          · by_cases hk5 : k = "markDefs"
            · subst hk5
              by_cases hnull : v.isNull = true
              · have hveq : v = .null := isNull_eq_true_iff.mp hnull
                subst hveq
                rw [parseNodeFields_cons_ok rest
                  (parseNodeField_rawOk nodeRawOk_markDefs hk_raw)] at h
                exact rawStep nodeRawOk_markDefs h
              · have hnull' : v.isNull = false := by simpa using hnull
                have hfieldeq : parseNodeField path n ("markDefs", v) =
                    (parseMarkDefArray v (path ++ ".markDefs")).map
                      (fun mds => { n with markDefs := some mds }) := by
                  simp [parseNodeField, hnull']
                cases hres : parseMarkDefArray v (path ++ ".markDefs") with
                | error err =>
                  rw [parseNodeFields_cons_error rest
                    (by rw [hfieldeq, hres]; rfl)] at h
                  exact absurd h (by simp)
                | ok mds =>
                  have hfield : parseNodeField path n ("markDefs", v) =
                      .ok { n with markDefs := some mds } := by
                    rw [hfieldeq, hres]
                    rfl
                  rw [parseNodeFields_cons_ok rest hfield] at h
                  obtain ⟨xs, hveq, helems⟩ := parseMarkDefArray_ok hres
                  subst hveq
                  have hwfxs : wfList xs = true := by
                    simpa [JValue.wf] using hwf1
                  refine ih { n with markDefs := some mds } path out hnd'
                    hdisj' hkeyp' hstylep' hchildp' (fun _ => hk_rest) hlip'
                    hlevp' hwfe'
                    ⟨hinv.type_ne, hinv.nodup, hinv.rawOk, hinv.key_excl,
                     hinv.style_excl, hinv.children_excl, fun _ => hk_raw,
                     hinv.listItem_excl, hinv.level_excl, hinv.children_inv,
                     ?_⟩ h
                  intro md hmd
                  exact parseMarkDefArrayElems_inv xs 0 _ mds hwfxs helems
                    md hmd
            · by_cases hk6 : k = "listItem"
              · subst hk6
                cases v with
                | str s =>
                  have hfield : parseNodeField path n ("listItem", .str s) =
                      .ok { n with listItem := some s } := by
                    simp [parseNodeField]
                  rw [parseNodeFields_cons_ok rest hfield] at h
                  refine ih { n with listItem := some s } path out hnd'
                    hdisj' hkeyp' hstylep' hchildp' hmdp' (fun _ => hk_rest)
                    hlevp' hwfe'
                    ⟨hinv.type_ne, hinv.nodup, hinv.rawOk, hinv.key_excl,
                     hinv.style_excl, hinv.children_excl, hinv.markDefs_excl,
                     fun _ => hk_raw, hinv.level_excl, hinv.children_inv,
                     hinv.markDefs_inv⟩ h
                | null =>
                  rw [parseNodeFields_cons_ok rest
                    (parseNodeField_rawOk (nodeRawOk_listItem (by rfl)) hk_raw)]
                    at h
                  exact rawStep (nodeRawOk_listItem (by rfl)) h
                | bool b =>
                  rw [parseNodeFields_cons_ok rest
                    (parseNodeField_rawOk (nodeRawOk_listItem (by rfl)) hk_raw)]
                    at h
                  exact rawStep (nodeRawOk_listItem (by rfl)) h
                | num x =>
                  rw [parseNodeFields_cons_ok rest
                    (parseNodeField_rawOk (nodeRawOk_listItem (by rfl)) hk_raw)]
                    at h
                  exact rawStep (nodeRawOk_listItem (by rfl)) h
                | arr xs =>
                  rw [parseNodeFields_cons_ok rest
                    (parseNodeField_rawOk (nodeRawOk_listItem (by rfl)) hk_raw)]
                    at h
                  exact rawStep (nodeRawOk_listItem (by rfl)) h
                | obj fs =>
                  rw [parseNodeFields_cons_ok rest
                    (parseNodeField_rawOk (nodeRawOk_listItem (by rfl)) hk_raw)]
                    at h
                  exact rawStep (nodeRawOk_listItem (by rfl)) h
              · by_cases hk7 : k = "level"
                · subst hk7
                  cases v with
                  | num s =>
                    cases hp : parseDecInt s with
                    | some i =>
                      have hfield : parseNodeField path n ("level", .num s) =
                          .ok { n with level := some i } := by
                        simp [parseNodeField, hp]
                      rw [parseNodeFields_cons_ok rest hfield] at h
                      refine ih { n with level := some i } path out hnd'
                        hdisj' hkeyp' hstylep' hchildp' hmdp' hlip'
                        (fun _ => hk_rest) hwfe'
                        ⟨hinv.type_ne, hinv.nodup, hinv.rawOk, hinv.key_excl,
                         hinv.style_excl, hinv.children_excl,
                         hinv.markDefs_excl, hinv.listItem_excl,
                         fun _ => hk_raw, hinv.children_inv,
                         hinv.markDefs_inv⟩ h
                    | none =>
                      have hfield : parseNodeField path n ("level", .num s) =
                          .error ⟨"node", path ++ ".level",
                            .invalidNumber⟩ := by
                        simp [parseNodeField, hp]
                      rw [parseNodeFields_cons_error rest hfield] at h
                      exact absurd h (by simp)
                  | null =>
                    rw [parseNodeFields_cons_ok rest
                      (parseNodeField_rawOk (nodeRawOk_level (by rfl)) hk_raw)]
                      at h
                    exact rawStep (nodeRawOk_level (by rfl)) h
                  | bool b =>
                    rw [parseNodeFields_cons_ok rest
                      (parseNodeField_rawOk (nodeRawOk_level (by rfl)) hk_raw)]
                      at h
                    exact rawStep (nodeRawOk_level (by rfl)) h
                  | str t =>
                    rw [parseNodeFields_cons_ok rest
                      (parseNodeField_rawOk (nodeRawOk_level (by rfl)) hk_raw)]
                      at h
                    exact rawStep (nodeRawOk_level (by rfl)) h
                  | arr xs =>
                    rw [parseNodeFields_cons_ok rest
                      (parseNodeField_rawOk (nodeRawOk_level (by rfl)) hk_raw)]
                      at h
                    exact rawStep (nodeRawOk_level (by rfl)) h
                  | obj fs =>
                    rw [parseNodeFields_cons_ok rest
                      (parseNodeField_rawOk (nodeRawOk_level (by rfl)) hk_raw)]
                      at h
                    exact rawStep (nodeRawOk_level (by rfl)) h
                · have hok : NodeRawOk (k, v) :=
                    nodeRawOk_other hk1 hk2 hk3 hk4 hk5 hk6 hk7
                  rw [parseNodeFields_cons_ok rest
                    (parseNodeField_rawOk hok hk_raw)] at h
                  exact rawStep hok h

/-- A successful `parseNode` on a well-formed JSON value establishes the
node invariant. -/
theorem parseNode_inv {v : JValue} {path : String} {n : Node}
    (hwf : v.wf = true) (h : parseNode v path = .ok n) : NodeInv n := by
  cases v with
  | null => simp [parseNode, decodeObjectUseNumber] at h
  | bool b => simp [parseNode, decodeObjectUseNumber] at h
  | num x => simp [parseNode, decodeObjectUseNumber] at h
  | str t => simp [parseNode, decodeObjectUseNumber] at h
  | arr xs => simp [parseNode, decodeObjectUseNumber] at h
  | obj fields =>
    have hnd : (keysOf fields).Nodup := by
      rw [← nodupKeys_iff]
      exact (Bool.and_eq_true_iff.mp (by simpa [JValue.wf] using hwf)).1
    have hwff : wfFields fields = true :=
      (Bool.and_eq_true_iff.mp (by simpa [JValue.wf] using hwf)).2
    simp only [parseNode, decodeObjectUseNumber] at h
    split at h
    · exact absurd h (by simp)
    · split at h
      · split at h
        · exact absurd h (by simp)
        · rename_i ts heq hts
          exact parseNodeFields_inv fields _ path n hnd
            (by simp [keysOf]) (by simp) (by simp) (by simp) (by simp)
            (by simp) (by simp) hwff
            ⟨by simpa using hts, by simp [keysOf], by simp, by simp,
             by simp, by simp, by simp, by simp, by simp, by simp, by simp⟩ h
      · exact absurd h (by simp)

--
-- Node: encode-side lemmas.
--

/-- The singleton entry an optional typed field contributes to the
marshaled object. -/
def optEntry (k : String) : Option JValue → List (String × JValue)
  | none => []
  | some v => [(k, v)]

theorem mapSetOpt_eq {m : List (String × JValue)} {k : String}
    (ov : Option JValue) (h : ∀ v, ov = some v → k ∉ keysOf m) :
    mapSetOpt m k ov = m ++ optEntry k ov := by
  cases ov with
  | none => simp [mapSetOpt, optEntry]
  | some v => simp [mapSetOpt, optEntry, mapSet_of_not_mem m v (h v rfl)]

theorem not_mem_keys_append_opt {x k : String} {m : List (String × JValue)}
    {ov : Option JValue} (h1 : x ∉ keysOf m) (h2 : x ≠ k) :
    x ∉ keysOf (m ++ optEntry k ov) := by
  rw [keysOf_append]
  intro hbad
  rcases List.mem_append.mp hbad with hl | hr
  · exact h1 hl
  · cases ov with
    | none => simp [optEntry, keysOf] at hr
    | some v => exact h2 (by simpa [optEntry, keysOf] using hr)

theorem not_mem_keys_append_single {x : String} {m : List (String × JValue)}
    {k : String} {v : JValue} (h1 : x ∉ keysOf m) (h2 : x ≠ k) :
    x ∉ keysOf (m ++ [(k, v)]) := by
  rw [keysOf_append]
  intro hbad
  rcases List.mem_append.mp hbad with hl | hr
  · exact h1 hl
  · exact h2 (by simpa [keysOf] using hr)

theorem isSome_of_map_eq_some {α β : Type} {f : α → β} {o : Option α}
    {v : β} (h : o.map f = some v) : o.isSome = true := by
  cases o with
  | none => simp at h
  | some a => rfl

/-- The `_key` entry `Node.MarshalJSON` emits (nothing for the zero-value
key). -/
def nodeKeyEntry (n : Node) : List (String × JValue) :=
  optEntry "_key" (if n.key == "" then none else some (JValue.str n.key))

/-- The typed entries appended by `Node.MarshalJSON` after the raw ones. -/
def nodeTypedEntries (n : Node) : List (String × JValue) :=
  [("_type", JValue.str n.type)] ++ nodeKeyEntry n ++
  optEntry "style" (n.style.map JValue.str) ++
  optEntry "children"
    (n.children.map (fun cs => JValue.arr (cs.map encodeSpan))) ++
  optEntry "markDefs"
    (n.markDefs.map (fun mds => JValue.arr (mds.map encodeMarkDef))) ++
  optEntry "listItem" (n.listItem.map JValue.str) ++
  optEntry "level" (n.level.map (fun i => JValue.num (intToDecString i)))

theorem encodeNode_eq (n : Node) (h : NodeInv n) :
    encodeNode n = .obj (n.raw ++ nodeTypedEntries n) := by
  have htype : "_type" ∉ keysOf n.raw :=
    not_mem_keys_of_rawOk h.rawOk (fun e he => he.1)
  have e1 : mapSet n.raw "_type" (JValue.str n.type) =
      n.raw ++ [("_type", JValue.str n.type)] :=
    mapSet_of_not_mem n.raw _ htype
  have e2 : (if n.key == "" then n.raw ++ [("_type", JValue.str n.type)]
      else mapSet (n.raw ++ [("_type", JValue.str n.type)]) "_key"
        (JValue.str n.key)) =
      (n.raw ++ [("_type", JValue.str n.type)]) ++ nodeKeyEntry n := by
    by_cases hkey : n.key = ""
    · simp [hkey, nodeKeyEntry, optEntry]
    · rw [if_neg (by simpa using hkey),
        mapSet_of_not_mem _ _
          (not_mem_keys_append_single (h.key_excl hkey) (by simp))]
      simp [nodeKeyEntry, optEntry, hkey]
  have e3 : mapSetOpt ((n.raw ++ [("_type", JValue.str n.type)]) ++
      nodeKeyEntry n) "style" (n.style.map JValue.str) =
      ((n.raw ++ [("_type", JValue.str n.type)]) ++ nodeKeyEntry n) ++
        optEntry "style" (n.style.map JValue.str) := by
    refine mapSetOpt_eq _ (fun v hv => ?_)
    exact not_mem_keys_append_opt
      (not_mem_keys_append_single (h.style_excl (isSome_of_map_eq_some hv))
        (by simp))
      (by simp)
  have e4 : mapSetOpt (((n.raw ++ [("_type", JValue.str n.type)]) ++
      nodeKeyEntry n) ++ optEntry "style" (n.style.map JValue.str))
      "children" (n.children.map (fun cs => JValue.arr (cs.map encodeSpan))) =
      (((n.raw ++ [("_type", JValue.str n.type)]) ++ nodeKeyEntry n) ++
        optEntry "style" (n.style.map JValue.str)) ++
        optEntry "children"
          (n.children.map (fun cs => JValue.arr (cs.map encodeSpan))) := by
    refine mapSetOpt_eq _ (fun v hv => ?_)
    exact not_mem_keys_append_opt (not_mem_keys_append_opt
      (not_mem_keys_append_single
        (h.children_excl (isSome_of_map_eq_some hv)) (by simp))
      (by simp)) (by simp)
  have e5 : mapSetOpt ((((n.raw ++ [("_type", JValue.str n.type)]) ++
      nodeKeyEntry n) ++ optEntry "style" (n.style.map JValue.str)) ++
      optEntry "children"
        (n.children.map (fun cs => JValue.arr (cs.map encodeSpan))))
      "markDefs"
      (n.markDefs.map (fun mds => JValue.arr (mds.map encodeMarkDef))) =
      ((((n.raw ++ [("_type", JValue.str n.type)]) ++ nodeKeyEntry n) ++
        optEntry "style" (n.style.map JValue.str)) ++
        optEntry "children"
          (n.children.map (fun cs => JValue.arr (cs.map encodeSpan)))) ++
        optEntry "markDefs"
          (n.markDefs.map (fun mds => JValue.arr (mds.map encodeMarkDef))) := by
    refine mapSetOpt_eq _ (fun v hv => ?_)
    exact not_mem_keys_append_opt (not_mem_keys_append_opt
      (not_mem_keys_append_opt
        (not_mem_keys_append_single
          (h.markDefs_excl (isSome_of_map_eq_some hv)) (by simp))
        (by simp)) (by simp)) (by simp)
  have e6 : mapSetOpt (((((n.raw ++ [("_type", JValue.str n.type)]) ++
      nodeKeyEntry n) ++ optEntry "style" (n.style.map JValue.str)) ++
      optEntry "children"
        (n.children.map (fun cs => JValue.arr (cs.map encodeSpan)))) ++
      optEntry "markDefs"
        (n.markDefs.map (fun mds => JValue.arr (mds.map encodeMarkDef))))
      "listItem" (n.listItem.map JValue.str) =
      (((((n.raw ++ [("_type", JValue.str n.type)]) ++ nodeKeyEntry n) ++
        optEntry "style" (n.style.map JValue.str)) ++
        optEntry "children"
          (n.children.map (fun cs => JValue.arr (cs.map encodeSpan)))) ++
        optEntry "markDefs"
          (n.markDefs.map (fun mds => JValue.arr (mds.map encodeMarkDef)))) ++
        optEntry "listItem" (n.listItem.map JValue.str) := by
    refine mapSetOpt_eq _ (fun v hv => ?_)
    exact not_mem_keys_append_opt (not_mem_keys_append_opt
      (not_mem_keys_append_opt (not_mem_keys_append_opt
        (not_mem_keys_append_single
          (h.listItem_excl (isSome_of_map_eq_some hv)) (by simp))
        (by simp)) (by simp)) (by simp)) (by simp)
  have e7 : mapSetOpt ((((((n.raw ++ [("_type", JValue.str n.type)]) ++
      nodeKeyEntry n) ++ optEntry "style" (n.style.map JValue.str)) ++
      optEntry "children"
        (n.children.map (fun cs => JValue.arr (cs.map encodeSpan)))) ++
      optEntry "markDefs"
        (n.markDefs.map (fun mds => JValue.arr (mds.map encodeMarkDef)))) ++
      optEntry "listItem" (n.listItem.map JValue.str))
      "level" (n.level.map (fun i => JValue.num (intToDecString i))) =
      ((((((n.raw ++ [("_type", JValue.str n.type)]) ++ nodeKeyEntry n) ++
        optEntry "style" (n.style.map JValue.str)) ++
        optEntry "children"
          (n.children.map (fun cs => JValue.arr (cs.map encodeSpan)))) ++
        optEntry "markDefs"
          (n.markDefs.map (fun mds => JValue.arr (mds.map encodeMarkDef)))) ++
        optEntry "listItem" (n.listItem.map JValue.str)) ++
        optEntry "level" (n.level.map (fun i => JValue.num (intToDecString i))) := by
    refine mapSetOpt_eq _ (fun v hv => ?_)
    exact not_mem_keys_append_opt (not_mem_keys_append_opt
      (not_mem_keys_append_opt (not_mem_keys_append_opt
        (not_mem_keys_append_opt (not_mem_keys_append_single
          (h.level_excl (isSome_of_map_eq_some hv)) (by simp))
        (by simp)) (by simp)) (by simp)) (by simp)) (by simp)
  simp only [encodeNode, e1, e2, e3, e4, e5, e6, e7]
  simp [nodeTypedEntries, List.append_assoc]

theorem pnf_skip_type (path : String) (a : Node) (v : JValue)
    (rest : List (String × JValue)) :
    parseNodeFields path a (("_type", v) :: rest) =
      parseNodeFields path a rest := by
  exact parseNodeFields_cons_ok rest (by simp [parseNodeField])

theorem pnf_keyEntry (path : String) (a : Node) (key : String)
    (ha : a.key = "") (rest : List (String × JValue)) :
    parseNodeFields path a
      (optEntry "_key" (if key == "" then none else some (JValue.str key)) ++
        rest) =
      parseNodeFields path { a with key := key } rest := by
  by_cases hk : key = ""
  · subst hk
    have hrec : { a with key := "" } = a := by rw [← ha]
    simp [optEntry, hrec]
  · rw [if_neg (by simpa using hk)]
    rw [show optEntry "_key" (some (JValue.str key)) =
      [("_key", JValue.str key)] from rfl, List.cons_append,
      List.nil_append]
    exact parseNodeFields_cons_ok rest (by simp [parseNodeField])

theorem pnf_styleEntry (path : String) (a : Node) (ov : Option String)
    (ha : a.style = none) (rest : List (String × JValue)) :
    parseNodeFields path a (optEntry "style" (ov.map JValue.str) ++ rest) =
      parseNodeFields path { a with style := ov } rest := by
  cases ov with
  | none =>
    have hrec : { a with style := (none : Option String) } = a := by
      rw [← ha]
    simp [optEntry, hrec]
  | some s =>
    rw [show (some s).map JValue.str = some (JValue.str s) from rfl]
    rw [show optEntry "style" (some (JValue.str s)) =
      [("style", JValue.str s)] from rfl, List.cons_append, List.nil_append]
    exact parseNodeFields_cons_ok rest (by simp [parseNodeField])

theorem pnf_childrenEntry (path : String) (a : Node)
    (ov : Option (List Span)) (ha : a.children = none)
    (hinv : ∀ cs, ov = some cs → ∀ s ∈ cs, SpanInv s)
    (rest : List (String × JValue)) :
    parseNodeFields path a
      (optEntry "children"
        (ov.map (fun cs => JValue.arr (cs.map encodeSpan))) ++ rest) =
      parseNodeFields path { a with children := ov } rest := by
  cases ov with
  | none =>
    have hrec : { a with children := (none : Option (List Span)) } = a := by
      rw [← ha]
    simp [optEntry, hrec]
  | some cs =>
    rw [show (some cs).map (fun cs => JValue.arr (cs.map encodeSpan)) =
      some (JValue.arr (cs.map encodeSpan)) from rfl]
    rw [show optEntry "children" (some (JValue.arr (cs.map encodeSpan))) =
      [("children", JValue.arr (cs.map encodeSpan))] from rfl,
      List.cons_append, List.nil_append]
    refine parseNodeFields_cons_ok rest ?_
    have harr : parseSpanArray (JValue.arr (cs.map encodeSpan))
        (path ++ ".children") = .ok cs := by
      rw [parseSpanArray]
      exact parseSpanArrayElems_encode cs 0 _ (hinv cs rfl)
    simp [parseNodeField, JValue.isNull, harr, Except.map]

theorem pnf_markDefsEntry (path : String) (a : Node)
    (ov : Option (List MarkDef)) (ha : a.markDefs = none)
    (hinv : ∀ mds, ov = some mds → ∀ md ∈ mds, MarkDefInv md)
    (rest : List (String × JValue)) :
    parseNodeFields path a
      (optEntry "markDefs"
        (ov.map (fun mds => JValue.arr (mds.map encodeMarkDef))) ++ rest) =
      parseNodeFields path { a with markDefs := ov } rest := by
  cases ov with
  | none =>
    have hrec : { a with markDefs := (none : Option (List MarkDef)) } = a := by
      rw [← ha]
    simp [optEntry, hrec]
  | some mds =>
    rw [show (some mds).map (fun mds => JValue.arr (mds.map encodeMarkDef)) =
      some (JValue.arr (mds.map encodeMarkDef)) from rfl]
    rw [show optEntry "markDefs" (some (JValue.arr (mds.map encodeMarkDef))) =
      [("markDefs", JValue.arr (mds.map encodeMarkDef))] from rfl,
      List.cons_append, List.nil_append]
    refine parseNodeFields_cons_ok rest ?_
    have harr : parseMarkDefArray (JValue.arr (mds.map encodeMarkDef))
        (path ++ ".markDefs") = .ok mds := by
      rw [parseMarkDefArray]
      exact parseMarkDefArrayElems_encode mds 0 _ (hinv mds rfl)
    simp [parseNodeField, JValue.isNull, harr, Except.map]

theorem pnf_listItemEntry (path : String) (a : Node) (ov : Option String)
    (ha : a.listItem = none) (rest : List (String × JValue)) :
    parseNodeFields path a (optEntry "listItem" (ov.map JValue.str) ++ rest) =
      parseNodeFields path { a with listItem := ov } rest := by
  cases ov with
  | none =>
    have hrec : { a with listItem := (none : Option String) } = a := by
      rw [← ha]
    simp [optEntry, hrec]
  | some s =>
    rw [show (some s).map JValue.str = some (JValue.str s) from rfl]
    rw [show optEntry "listItem" (some (JValue.str s)) =
      [("listItem", JValue.str s)] from rfl, List.cons_append,
      List.nil_append]
    exact parseNodeFields_cons_ok rest (by simp [parseNodeField])

theorem pnf_levelEntry (path : String) (a : Node) (ov : Option Int)
    (ha : a.level = none) (rest : List (String × JValue)) :
    parseNodeFields path a
      (optEntry "level" (ov.map (fun i => JValue.num (intToDecString i))) ++
        rest) =
      parseNodeFields path { a with level := ov } rest := by
  cases ov with
  | none =>
    have hrec : { a with level := (none : Option Int) } = a := by
      rw [← ha]
    simp [optEntry, hrec]
  | some i =>
    rw [show (some i).map (fun i => JValue.num (intToDecString i)) =
      some (JValue.num (intToDecString i)) from rfl]
    rw [show optEntry "level" (some (JValue.num (intToDecString i))) =
      [("level", JValue.num (intToDecString i))] from rfl,
      List.cons_append, List.nil_append]
    exact parseNodeFields_cons_ok rest
      (by simp [parseNodeField, parseDecInt_intToDecString i])

/-- Re-parsing an encoded node that satisfies the invariant reproduces the
node exactly. -/
theorem parseNode_encodeNode (n : Node) (h : NodeInv n) (path : String) :
    parseNode (encodeNode n) path = .ok n := by
  rw [encodeNode_eq n h]
  have htype : "_type" ∉ keysOf n.raw :=
    not_mem_keys_of_rawOk h.rawOk (fun e he => he.1)
  have htne := h.type_ne
  have hraw := parseNodeFields_rawOnly n.raw
    { type := n.type, raw := [] } path h.rawOk h.nodup (by simp [keysOf])
  simp only [List.nil_append] at hraw
  have hchInv : ∀ cs, n.children = some cs → ∀ s ∈ cs, SpanInv s := by
    intro cs hcs s hs
    have := h.children_inv s
    rw [hcs] at this
    exact this hs
  have hmdInv : ∀ mds, n.markDefs = some mds → ∀ md ∈ mds, MarkDefInv md := by
    intro mds hmds md hmd
    have := h.markDefs_inv md
    rw [hmds] at this
    exact this hmd
  clear h
  simp only [parseNode, decodeObjectUseNumber]
  rw [lookupField_append_of_not_mem htype]
  have hcons : nodeTypedEntries n = ("_type", JValue.str n.type) ::
      (optEntry "_key"
        (if n.key == "" then none else some (JValue.str n.key)) ++
       (optEntry "style" (n.style.map JValue.str) ++
        (optEntry "children"
          (n.children.map (fun cs => JValue.arr (cs.map encodeSpan))) ++
         (optEntry "markDefs"
           (n.markDefs.map (fun mds => JValue.arr (mds.map encodeMarkDef))) ++
          (optEntry "listItem" (n.listItem.map JValue.str) ++
           (optEntry "level"
             (n.level.map (fun i => JValue.num (intToDecString i))) ++
            [])))))) := by
    simp [nodeTypedEntries, nodeKeyEntry, List.append_assoc]
  simp only [hcons, lookupField_cons_self]
  rw [if_neg (by simpa using htne), ← hcons]
  rw [parseNodeFields_append (nodeTypedEntries n) hraw]
  rw [hcons]
  rw [pnf_skip_type]
  rw [pnf_keyEntry path _ n.key rfl]
  rw [pnf_styleEntry path _ n.style rfl]
  rw [pnf_childrenEntry path _ n.children rfl hchInv]
  rw [pnf_markDefsEntry path _ n.markDefs rfl hmdInv]
  rw [pnf_listItemEntry path _ n.listItem rfl]
  rw [pnf_levelEntry path _ n.level rfl]
  rfl

--
-- Document level.
--

theorem decodeElems_inv : ∀ (xs : List JValue) (i : Nat) (D : List Node),
    wfList xs = true → decodeElems i xs = .ok D → ∀ n ∈ D, NodeInv n := by
  intro xs
  induction xs with
  | nil =>
    intro i D _ h n hn
    simp [decodeElems] at h
    subst h
    simp at hn
  | cons x rest ih =>
    intro i D hwf h n hn
    rw [decodeElems] at h
    cases hx : parseNode x ("[" ++ toString i ++ "]") with
    | error err => rw [hx] at h; simp at h
    | ok n1 =>
      rw [hx] at h
      cases hrest : decodeElems (i + 1) rest with
      | error err => rw [hrest] at h; simp at h
      | ok ns =>
        rw [hrest] at h
        simp at h
        subst h
        have hwf1 : x.wf = true :=
          (Bool.and_eq_true_iff.mp (by simpa [wfList] using hwf)).1
        have hwf2 : wfList rest = true :=
          (Bool.and_eq_true_iff.mp (by simpa [wfList] using hwf)).2
        rcases List.mem_cons.mp hn with h1 | h2
        · subst h1
          exact parseNode_inv hwf1 hx
        · exact ih (i + 1) ns hwf2 hrest n h2

theorem decodeElems_encode : ∀ (D : List Node) (i : Nat),
    (∀ n ∈ D, NodeInv n) →
    decodeElems i (D.map encodeNode) = .ok D := by
  intro D
  induction D with
  | nil => intro i _; rfl
  | cons n rest ih =>
    intro i hinv
    rw [List.map_cons, decodeElems,
      parseNode_encodeNode n (hinv n (by simp)) _,
      ih (i + 1) (fun m hm => hinv m (by simp [hm]))]

--
-- Claims.
--

/-- C1: the claimed round-trip law holds for every NON-empty decoded
document — for every Document D obtained from a successful decode of a
well-formed JSON value (every value delivered by Go's JSON decoder is
well formed, since Go objects are maps with unique keys), decoding the
value produced by encoding D succeeds and yields D with full structural
equality: unknown raw fields survive, an explicit null stored in raw
stays distinct from an absent field, and an element decoded from an
empty-string `_key` round-trips.  But the claim also covers the empty
document, and there the code diverges: decoding `[]` succeeds with the
empty (nil) document, encoding that document emits JSON `null` (Go
marshals a nil slice as `null`), and re-decoding `null` fails with kind
UnexpectedToken — so the program does not satisfy the claimed law. -/
theorem C1_roundtrip_empty_divergence :
    (∀ (j : JValue) (D : Document), j.wf = true → Decode j = .ok D → D ≠ [] →
      Decode (Encode D) = .ok D) ∧
    Decode (.arr []) = .ok ([] : Document) ∧
    Encode ([] : Document) = .null ∧
    Decode (Encode ([] : Document)) = .error ⟨"decode", "", .unexpectedToken⟩ := by
  refine ⟨?_, by rfl, by rfl, by rfl⟩
  intro j D hwf hD hne
  cases j with
  | null => simp [Decode] at hD
  | bool b => simp [Decode] at hD
  | num s => simp [Decode] at hD
  | str s => simp [Decode] at hD
  | obj fs => simp [Decode] at hD
  | arr xs =>
    have hxs : decodeElems 0 xs = .ok D := by simpa [Decode] using hD
    have hinv : ∀ n ∈ D, NodeInv n :=
      decodeElems_inv xs 0 D (by simpa [JValue.wf] using hwf) hxs
    cases D with
    | nil => exact absurd rfl hne
    | cons n rest =>
      have hE : Encode (n :: rest) = .arr ((n :: rest).map encodeNode) := rfl
      rw [hE]
      simp only [Decode]
      exact decodeElems_encode (n :: rest) 0 hinv

/-- A JSON input exercising every round-trip feature: typed key, style,
span with marks and an unknown field, two mark definitions (one with a
null `_key` preserved in raw), an integer level, an unknown object field
and an explicit null on an unknown name. -/
def rtInput : JValue := .arr [.obj
  [("_type", .str "block"), ("_key", .str "kk"), ("style", .str "normal"),
   ("children", .arr [.obj
     [("_type", .str "span"), ("text", .str "hi"),
      ("marks", .arr [.str "a"]), ("custom", .num "1.25")]]),
   ("markDefs", .arr
     [.obj [("_type", .str "link"), ("_key", .str "a"),
            ("href", .str "u")],
      .obj [("_type", .str "x"), ("_key", .null),
            ("z", .bool false)]]),
   ("level", .num "3"),
   ("extra", .obj [("deep", .arr [.null])]),
   ("style2", .null)]]

/-- The document `rtInput` decodes to. -/
def rtDoc : Document :=
  [{ type := "block",
     key := "kk",
     style := some "normal",
     children := some
       [{ type := "span",
          text := some "hi",
          marks := some ["a"],
          raw := [("custom", JValue.num "1.25")] }],
     markDefs := some
       [{ key := "a", type := "link", raw := [("href", JValue.str "u")] },
        { key := "", type := "x",
          raw := [("_key", JValue.null), ("z", JValue.bool false)] }],
     listItem := none,
     level := some 3,
     raw := [("extra", JValue.obj [("deep", JValue.arr [JValue.null])]),
             ("style2", JValue.null)] }]

/-- Witness for C1 at a concrete (non-empty) input. -/
theorem C1_roundtrip_witness :
    Decode (Encode rtDoc) = .ok rtDoc :=
  C1_roundtrip_empty_divergence.1 rtInput rtDoc (by rfl) (by rfl) (by simp [rtDoc])

/-- C2 counterexample: the claim says a present-but-wrong-shape value for
every known field other than a span's `marks` and a numeric `level` is
copied into raw with the decode succeeding, naming non-array `children`
values explicitly — but the code hard-fails such a decode with kind
`ExpectedArray`. -/
theorem C2_counterexample :
    Decode (.arr [.obj [("_type", .str "block"), ("children", .str "nope")]]) =
      .error ⟨"node", "[0].children", .expectedArray⟩ := by
  rfl

/-- C2 (amended): wrong-shape values for the string-typed fields (`_key`,
`style`, `listItem`), for a span's `text`, and for a non-number `level`
value are copied into raw and the parse succeeds; the hard failures are a
span `marks` value that is not an array or contains a non-string element
(InvalidMarks), a `level` number that does not parse as an integer
(InvalidNumber), and additionally a present non-null `children` or
`markDefs` value that is not an array (ExpectedArray). -/
theorem C2_wrong_shape_routing :
    (∀ v : JValue, v ≠ .null → v.isStr = false →
      parseNode (.obj [("_type", .str "block"), ("_key", v)]) "[0]" =
        .ok { type := "block", raw := [("_key", v)] }) ∧
    (∀ v : JValue, v ≠ .null → v.isStr = false →
      parseNode (.obj [("_type", .str "block"), ("style", v)]) "[0]" =
        .ok { type := "block", raw := [("style", v)] }) ∧
    (∀ v : JValue, v ≠ .null → v.isStr = false →
      parseNode (.obj [("_type", .str "block"), ("listItem", v)]) "[0]" =
        .ok { type := "block", raw := [("listItem", v)] }) ∧
    (∀ v : JValue, v ≠ .null → v.isStr = false →
      parseSpan (.obj [("_type", .str "span"), ("text", v)]) "p" =
        .ok { type := "span", raw := [("text", v)] }) ∧
    (∀ v : JValue, v ≠ .null → v.isNum = false →
      parseNode (.obj [("_type", .str "block"), ("level", v)]) "[0]" =
        .ok { type := "block", raw := [("level", v)] }) ∧
    (∀ v : JValue, v ≠ .null → (∀ xs, v ≠ .arr xs) →
      parseSpan (.obj [("_type", .str "span"), ("marks", v)]) "p" =
        .error ⟨"span", "p.marks", .invalidMarks⟩) ∧
    (∀ xs : List JValue, asStringList xs = none →
      parseSpan (.obj [("_type", .str "span"), ("marks", .arr xs)]) "p" =
        .error ⟨"span", "p.marks", .invalidMarks⟩) ∧
    (∀ s : String, parseDecInt s = none →
      parseNode (.obj [("_type", .str "block"), ("level", .num s)]) "[0]" =
        .error ⟨"node", "[0].level", .invalidNumber⟩) ∧
    (∀ v : JValue, v ≠ .null → (∀ xs, v ≠ .arr xs) →
      parseNode (.obj [("_type", .str "block"), ("children", v)]) "[0]" =
        .error ⟨"node", "[0].children", .expectedArray⟩) ∧
    (∀ v : JValue, v ≠ .null → (∀ xs, v ≠ .arr xs) →
      parseNode (.obj [("_type", .str "block"), ("markDefs", v)]) "[0]" =
        .error ⟨"node", "[0].markDefs", .expectedArray⟩) := by
  refine ⟨?_, ?_, ?_, ?_, ?_, ?_, ?_, ?_, ?_, ?_⟩
  · intro v hnull hstr
    cases v <;> first
      | exact absurd rfl hnull
      | rfl
      | simp [JValue.isStr] at hstr
  · intro v hnull hstr
    cases v <;> first
      | exact absurd rfl hnull
      | rfl
      | simp [JValue.isStr] at hstr
  · intro v hnull hstr
    cases v <;> first
      | exact absurd rfl hnull
      | rfl
      | simp [JValue.isStr] at hstr
  · intro v hnull hstr
    cases v <;> first
      | exact absurd rfl hnull
      | rfl
      | simp [JValue.isStr] at hstr
  · intro v hnull hnum
    cases v <;> first
      | exact absurd rfl hnull
      | rfl
      | simp [JValue.isNum] at hnum
  · intro v hnull harr
    cases v <;> first
      | exact absurd rfl hnull
      | exact absurd rfl (harr _)
      | rfl
  · intro xs hxs
    simp [parseSpan, decodeObjectUseNumber, lookupField, parseSpanFields,
      parseSpanField, hxs]
  · intro s hs
    simp [parseNode, decodeObjectUseNumber, lookupField, parseNodeFields,
      parseNodeField, hs]
  · intro v hnull harr
    cases v <;> first
      | exact absurd rfl hnull
      | exact absurd rfl (harr _)
      | rfl
  · intro v hnull harr
    cases v <;> first
      | exact absurd rfl hnull
      | exact absurd rfl (harr _)
      | rfl

/-- Witness for C2 at concrete inputs (the spec's own examples among
them). -/
theorem C2_wrong_shape_witness :
    parseNode (.obj [("_type", .str "block"), ("style", .num "2")]) "[0]" =
      .ok { type := "block", raw := [("style", JValue.num "2")] } ∧
    parseSpan (.obj [("_type", .str "span"), ("marks", .str "not-array")])
      "p" = .error ⟨"span", "p.marks", .invalidMarks⟩ ∧
    parseSpan (.obj [("_type", .str "span"), ("marks", .arr [.num "123"])])
      "p" = .error ⟨"span", "p.marks", .invalidMarks⟩ ∧
    parseNode (.obj [("_type", .str "block"), ("level", .num "1.5")]) "[0]" =
      .error ⟨"node", "[0].level", .invalidNumber⟩ ∧
    parseNode (.obj [("_type", .str "block"), ("children", .str "x")]) "[0]" =
      .error ⟨"node", "[0].children", .expectedArray⟩ :=
  ⟨C2_wrong_shape_routing.2.1 (.num "2") (fun h => JValue.noConfusion h) rfl,
   C2_wrong_shape_routing.2.2.2.2.2.1 (.str "not-array")
     (fun h => JValue.noConfusion h) (fun xs h => JValue.noConfusion h),
   C2_wrong_shape_routing.2.2.2.2.2.2.1 [.num "123"] rfl,
   C2_wrong_shape_routing.2.2.2.2.2.2.2.1 "1.5" (by rfl),
   C2_wrong_shape_routing.2.2.2.2.2.2.2.2.1 (.str "x")
     (fun h => JValue.noConfusion h) (fun xs h => JValue.noConfusion h)⟩

/-- The spec's explicit-null example input. -/
def c3Input : JValue := .arr [.obj
  [("_type", .str "block"), ("style", .null), ("children", .null),
   ("markDefs", .null)]]

/-- The node the explicit-null example decodes to. -/
def c3Node : Node :=
  { type := "block",
    raw := [("style", JValue.null), ("children", JValue.null),
            ("markDefs", JValue.null)] }

/-- C3: decoding the explicit-null document succeeds with all three nulls
verbatim in raw and the typed slots unset; and in general the field
classifiers of all three entity kinds route an explicitly-null value of
any field name (other than the `_type` discriminator, whose null is a
decode failure) into raw, never touching a typed slot. -/
theorem C3_explicit_null_preservation :
    (Decode c3Input = .ok [c3Node] ∧
     c3Node.style = none ∧ c3Node.children = none ∧ c3Node.markDefs = none ∧
     lookupField c3Node.raw "style" = some .null ∧
     lookupField c3Node.raw "children" = some .null ∧
     lookupField c3Node.raw "markDefs" = some .null) ∧
    (∀ (path : String) (n : Node) (k : String), k ≠ "_type" →
      parseNodeField path n (k, .null) =
        .ok { n with raw := mapSet n.raw k .null }) ∧
    (∀ (path : String) (s : Span) (k : String), k ≠ "_type" →
      parseSpanField path s (k, .null) =
        .ok { s with raw := mapSet s.raw k .null }) ∧
    (∀ ts : String, mdKeyInit ts (some .null) =
      { type := ts, key := "", raw := [("_key", JValue.null)] }) ∧
    (∀ (ts path k : String), ts ≠ "" → k ≠ "_type" → k ≠ "_key" →
      parseMarkDef (.obj [("_type", .str ts), (k, .null)]) path =
        .ok { type := ts, raw := [(k, JValue.null)] }) := by
  refine ⟨⟨by rfl, rfl, rfl, rfl, by rfl, by rfl, by rfl⟩, ?_, ?_, ?_, ?_⟩
  · intro path n k hk
    by_cases h2 : k = "_key"
    · subst h2; simp [parseNodeField]
    · by_cases h3 : k = "style"
      · subst h3; simp [parseNodeField]
      · by_cases h4 : k = "children"
        · subst h4; simp [parseNodeField, JValue.isNull]
        · by_cases h5 : k = "markDefs"
          · subst h5; simp [parseNodeField, JValue.isNull]
          · by_cases h6 : k = "listItem"
            · subst h6; simp [parseNodeField]
            · by_cases h7 : k = "level"
              · subst h7; simp [parseNodeField]
              · simp [parseNodeField, hk, h2, h3, h4, h5, h6, h7]
  · intro path s k hk
    by_cases h2 : k = "text"
    · subst h2; simp [parseSpanField]
    · by_cases h3 : k = "marks"
      · subst h3; simp [parseSpanField]
      · simp [parseSpanField, hk, h2, h3]
  · intro ts
    simp [mdKeyInit, mapSet]
  · intro ts path k hts hk1 hk2
    simp [parseMarkDef, decodeObjectUseNumber, lookupField, mdKeyInit,
      mapSet, hts, hk1, hk2]

/-- Witness for C3's general routing parts at concrete inputs. -/
theorem C3_null_routing_witness :
    parseNodeField "p" { type := "block" } ("style", .null) =
      .ok { type := "block", raw := [("style", JValue.null)] } ∧
    parseSpanField "p" { type := "span" } ("text", .null) =
      .ok { type := "span", raw := [("text", JValue.null)] } ∧
    parseMarkDef (.obj [("_type", .str "link"), ("href", .null)]) "p" =
      .ok { type := "link", raw := [("href", JValue.null)] } :=
  ⟨C3_explicit_null_preservation.2.1 "p" { type := "block" } "style"
     (by decide),
   C3_explicit_null_preservation.2.2.1 "p" { type := "span" } "text"
     (by decide),
   C3_explicit_null_preservation.2.2.2.2 "link" "p" "href" (by decide)
     (by decide) (by decide)⟩

/-- A block whose single span child has present-but-zero-length text. -/
def c4Node : Node :=
  { type := "block", children := some [{ type := "span", text := some "" }] }

/-- A block whose single span child has absent text. -/
def c4AbsentNode : Node :=
  { type := "block", children := some [{ type := "span" }] }

/-- C4 counterexample: the claim says that under default options a
present-but-empty span text yields no diagnostic (every option defaulting
to its most permissive setting) — but the zero-value default
`allowEmptyText = false` is the strict setting, so the default validation
flags the empty text. -/
theorem C4_counterexample :
    ValidateWithOptions [c4Node] {} =
      [⟨"[0].children[0]", "span has empty text", c4Node⟩] := by
  rfl

/-- C4 (amended): `requireKeys` and `checkMarkDefRefs` default to false,
their permissive settings, but `allowEmptyText` also defaults to false,
which is its strict setting: under default options a span with
present-but-zero-length text IS flagged, and only the non-default
`allowEmptyText = true` accepts it (absent text is flagged either way). -/
theorem C4_default_options_empty_text :
    ({} : ValidationOptions) =
      { requireKeys := false, checkMarkDefRefs := false,
        allowEmptyText := false } ∧
    ValidateWithOptions [c4Node] {} =
      [⟨"[0].children[0]", "span has empty text", c4Node⟩] ∧
    ValidateWithOptions [c4Node]
      { requireKeys := false, checkMarkDefRefs := false,
        allowEmptyText := true } = [] ∧
    ValidateWithOptions [c4AbsentNode] { allowEmptyText := true } =
      [⟨"[0].children[0]", "span missing text", c4AbsentNode⟩] := by
  exact ⟨rfl, rfl, rfl, rfl⟩

/-- The two-problem document of the accumulation scenario: a node with an
empty discriminator, then a block whose span child has absent text. -/
def c5Doc : Document :=
  [{ type := "" },
   { type := "block", children := some [{ type := "span" }] }]

/-- C5: validation accumulates diagnostics over the whole document — for
the two-problem document it returns exactly the two expected diagnostics,
in document order, and does not stop at the first.  (`Validate` and
`ValidateWithOptions` are total functions of the document, so they never
raise.) -/
theorem C5_validation_accumulation :
    Validate c5Doc =
      [⟨"[0]", "missing _type", { type := "" }⟩,
       ⟨"[1].children[0]", "span missing text",
        { type := "block", children := some [{ type := "span" }] }⟩] ∧
    (Validate c5Doc).length = 2 := by
  exact ⟨rfl, rfl⟩

/-- Block with an empty markDefs and a span referencing mark "link1". -/
def c6Unresolved : Node :=
  { type := "block",
    children := some
      [{ type := "span", text := some "Hi", marks := some ["link1"] }],
    markDefs := some [] }

/-- The same block with a markDef whose key resolves the reference. -/
def c6Resolved : Node :=
  { type := "block",
    children := some
      [{ type := "span", text := some "Hi", marks := some ["link1"] }],
    markDefs := some [{ key := "link1", type := "link" }] }

/-- C6: with `checkMarkDefRefs = true`, the unresolved document yields
exactly one diagnostic naming the mark "link1", and the resolved document
yields none. -/
theorem C6_markdef_reference_check :
    ValidateWithOptions [c6Unresolved] { checkMarkDefRefs := true } =
      [⟨"[0].children[0]",
        "mark \x27link1\x27 not found in markDefs", c6Unresolved⟩] ∧
    ValidateWithOptions [c6Resolved] { checkMarkDefRefs := true } = [] := by
  exact ⟨rfl, rfl⟩

/-- C7: Walk visits top-level nodes in document order and aborts on the
first callback error, propagating it verbatim: for a 3-node document whose
callback succeeds on the first node and errors on the second, the result
is exactly that error, and it does not depend on the callback's behavior
on the third node (the third node is never visited). -/
theorem C7_walk_early_exit {ε : Type} (a b c : Node)
    (f : Node → Except ε Unit) (e : ε)
    (ha : f a = .ok ()) (hb : f b = .error e) :
    Walk [a, b, c] f = .error e ∧
    (∀ g : Node → Except ε Unit, g a = f a → g b = f b →
      Walk [a, b, c] g = Walk [a, b, c] f) := by
  constructor
  · simp [Walk, ha, hb]
  · intro g hga hgb
    simp [Walk, hga, hgb, ha, hb]

/-- Witness for C7 at a concrete document and callback. -/
theorem C7_walk_witness :
    Walk [{ type := "a" }, { type := "b" }, { type := "c" }]
      (fun n => if n.type == "b" then Except.error 7 else Except.ok ()) =
      Except.error 7 :=
  (C7_walk_early_exit { type := "a" } { type := "b" } { type := "c" }
    (fun n => if n.type == "b" then Except.error 7 else Except.ok ())
    7 (by rfl) (by rfl)).1

/-- C9: `Validate` returns exactly the same diagnostic sequence as
`ValidateWithOptions` with the zero-value options (all three flags
false) — it is defined as that call, so the lists agree in length, order,
paths and messages. -/
theorem C9_validate_is_default_options (doc : Document) :
    Validate doc = ValidateWithOptions doc
      { requireKeys := false, checkMarkDefRefs := false,
        allowEmptyText := false } := rfl

theorem mapSet_lookup_ne : ∀ (m : List (String × JValue)) (k2 : String)
    (v : JValue) (k : String), k2 ≠ k →
    lookupField (mapSet m k2 v) k = lookupField m k := by
  intro m k2 v k hne
  induction m with
  | nil => simp [mapSet, lookupField, fun h => hne h]
  | cons e rest ih =>
    obtain ⟨k3, w⟩ := e
    by_cases h3 : k3 = k2
    · subst h3
      have : k3 ≠ k := hne
      simp [mapSet, lookupField, this]
    · by_cases h4 : k3 = k
      · subst h4
        simp [mapSet, lookupField, h3]
      · simp [mapSet, lookupField, h3, h4, ih]

theorem mapSetOpt_lookup_ne (m : List (String × JValue)) (k2 : String)
    (ov : Option JValue) (k : String) (hne : k2 ≠ k) :
    lookupField (mapSetOpt m k2 ov) k = lookupField m k := by
  cases ov with
  | none => rfl
  | some v => exact mapSet_lookup_ne m k2 v k hne

/-- The field list of an encoded entity (encoders always produce an
object). -/
def objFields : JValue → List (String × JValue)
  | .obj fs => fs
  | _ => []

/-- C10: when the typed key is the zero value and raw carries no `_key`
entry, `Node.MarshalJSON` and `MarkDef.MarshalJSON` emit no `_key` member
at all; an incoming `"_key": ""` is stored in the typed slot by the node
field loop (so it leaves no raw entry behind), and hence does not survive
an encode, as the concrete decode/encode pair shows. -/
theorem C10_empty_key_omitted :
    (∀ n : Node, n.key = "" → lookupField n.raw "_key" = none →
      lookupField (objFields (encodeNode n)) "_key" = none) ∧
    (∀ md : MarkDef, md.key = "" → lookupField md.raw "_key" = none →
      lookupField (objFields (encodeMarkDef md)) "_key" = none) ∧
    (∀ (path : String) (n : Node),
      parseNodeField path n ("_key", .str "") = .ok { n with key := "" }) ∧
    (Decode (.arr [.obj [("_type", .str "block"), ("_key", .str "")]]) =
      .ok [{ type := "block" }] ∧
     Encode [({ type := "block" } : Node)] =
      .arr [.obj [("_type", .str "block")]]) := by
  refine ⟨?_, ?_, ?_, by rfl, by rfl⟩
  · intro n hkey hraw
    have hif : (if n.key == "" then mapSet n.raw "_type" (JValue.str n.type)
        else mapSet (mapSet n.raw "_type" (JValue.str n.type)) "_key"
          (JValue.str n.key)) =
        mapSet n.raw "_type" (JValue.str n.type) := by
      simp [hkey]
    simp only [encodeNode, hif, objFields]
    rw [mapSetOpt_lookup_ne _ _ _ _ (by decide),
      mapSetOpt_lookup_ne _ _ _ _ (by decide),
      mapSetOpt_lookup_ne _ _ _ _ (by decide),
      mapSetOpt_lookup_ne _ _ _ _ (by decide),
      mapSetOpt_lookup_ne _ _ _ _ (by decide),
      mapSet_lookup_ne _ _ _ _ (by decide)]
    exact hraw
  · intro md hkey hraw
    have hif : (if md.key == "" then mapSet md.raw "_type" (JValue.str md.type)
        else mapSet (mapSet md.raw "_type" (JValue.str md.type)) "_key"
          (JValue.str md.key)) =
        mapSet md.raw "_type" (JValue.str md.type) := by
      simp [hkey]
    simp only [encodeMarkDef, hif, objFields]
    rw [mapSet_lookup_ne _ _ _ _ (by decide)]
    exact hraw
  · intro path n
    simp [parseNodeField]

/-- Witness for C10 at concrete entities. -/
theorem C10_empty_key_witness :
    lookupField (objFields (encodeNode
      { type := "block", raw := [("x", JValue.null)] })) "_key" = none ∧
    lookupField (objFields (encodeMarkDef
      { type := "link", raw := [("href", JValue.str "u")] })) "_key" =
      none :=
  ⟨C10_empty_key_omitted.1 { type := "block", raw := [("x", JValue.null)] }
     rfl rfl,
   C10_empty_key_omitted.2.1
     { type := "link", raw := [("href", JValue.str "u")] } rfl rfl⟩

--
-- Clone at the value level: the deep copy reproduces the value exactly.
--

theorem deepCopyAny_eq (v : JValue) : deepCopyAny v = v := by
  refine deepCopyAny.induct (fun v => deepCopyAny v = v)
    (fun fs => deepCopyMap fs = fs) (fun xs => deepCopyList xs = xs)
    ?_ ?_ ?_ ?_ ?_ ?_ ?_ ?_ ?_ ?_ v
  all_goals intros
  all_goals simp_all [deepCopyAny, deepCopyList, deepCopyMap]

theorem deepCopyMap_eq (fs : List (String × JValue)) : deepCopyMap fs = fs := by
  induction fs with
  | nil => rfl
  | cons e rest ih =>
    obtain ⟨k, v⟩ := e
    simp [deepCopyMap, deepCopyAny_eq, ih]

theorem cloneSpans_eq (l : List Span) : cloneSpans l = l := by
  simp [cloneSpans, deepCopyMap_eq]

theorem cloneMarkDefs_eq (l : List MarkDef) : cloneMarkDefs l = l := by
  simp [cloneMarkDefs, deepCopyMap_eq]

theorem clone_eq (n : Node) : n.Clone = n := by
  have h1 : Option.map cloneSpans n.children = n.children := by
    cases n.children <;> simp [cloneSpans_eq]
  have h2 : Option.map cloneMarkDefs n.markDefs = n.markDefs := by
    cases n.markDefs <;> simp [cloneMarkDefs_eq]
  simp [Node.Clone, deepCopyMap_eq, h1, h2]

theorem filter_foldl_eq : ∀ (doc acc : List Node) (pred : Node → Bool),
    List.foldl
      (fun result n => if pred n then result ++ [n.Clone] else result)
      acc doc = acc ++ (doc.filter pred).map Node.Clone := by
  intro doc
  induction doc with
  | nil => intro acc pred; simp
  | cons n rest ih =>
    intro acc pred
    by_cases hp : pred n
    · simp [List.foldl_cons, hp, ih, List.filter_cons]
    · simp [List.foldl_cons, hp, ih, List.filter_cons]

theorem Filter_eq (doc : Document) (pred : Node → Bool) :
    Filter doc pred = (doc.filter pred).map Node.Clone := by
  rw [Filter, filter_foldl_eq]
  simp

--
-- Heap model of Clone and Filter.  The pure model above erases Go's
-- pointer structure; to verify the aliasing/mutation-independence claim
-- we re-express the same functions over an explicit store.  Mutable Go
-- structures (string/int pointer cells, slice backing arrays, maps)
-- become heap cells addressed by `Nat` locations; strings, booleans and
-- `json.Number`s are immutable Go values and stay inline.
--

/-- A Go `any` JSON value with reference semantics: arrays and objects
are references into the heap. -/
inductive RVal where
  | null
  | bool (b : Bool)
  | num (s : String)
  | str (s : String)
  | arrRef (l : Nat)
  | mapRef (l : Nat)
deriving Repr, DecidableEq

/-- A `Span` struct value: `Text` is a `*string` cell, `Marks` a
`[]string` backing array, `Raw` a map reference (a nil map is `none`). -/
structure RSpan where
  type : String
  text : Option Nat := none
  marks : Option Nat := none
  raw : Option Nat := none
deriving Repr, DecidableEq

/-- A `MarkDef` struct value. -/
structure RMarkDef where
  key : String := ""
  type : String
  raw : Option Nat := none
deriving Repr, DecidableEq

/-- A `Node` struct value with its pointer/slice/map fields as heap
locations. -/
structure RNode where
  type : String
  key : String := ""
  style : Option Nat := none
  children : Option Nat := none
  markDefs : Option Nat := none
  listItem : Option Nat := none
  level : Option Nat := none
  raw : Option Nat := none
deriving Repr, DecidableEq

/-- Contents of one heap cell. -/
inductive Cell where
  | strCell (s : String)
  | intCell (i : Int)
  | strArr (xs : List String)
  | anyArr (xs : List RVal)
  | jmap (m : List (String × RVal))
  | spanArr (xs : List RSpan)
  | mdArr (xs : List RMarkDef)
deriving Repr

structure Heap where
  next : Nat
  mem : Nat → Option Cell

def Heap.upd (H : Heap) (l : Nat) (c : Cell) : Heap :=
  ⟨H.next, fun l2 => if l2 = l then some c else H.mem l2⟩

def Heap.alloc (H : Heap) (c : Cell) : Nat × Heap :=
  (H.next, ⟨H.next + 1, fun l2 => if l2 = H.next then some c else H.mem l2⟩)

def valLocs : RVal → List Nat
  | .arrRef l => [l]
  | .mapRef l => [l]
  | _ => []

def spanOwnLocs (s : RSpan) : List Nat :=
  s.text.toList ++ s.marks.toList ++ s.raw.toList

def mdOwnLocs (md : RMarkDef) : List Nat := md.raw.toList

def nodeOwnLocs (n : RNode) : List Nat :=
  n.style.toList ++ n.children.toList ++ n.markDefs.toList ++
  n.listItem.toList ++ n.level.toList ++ n.raw.toList

def cellLocs : Cell → List Nat
  | .strCell _ => []
  | .intCell _ => []
  | .strArr _ => []
  | .anyArr xs => (xs.map valLocs).flatten
  | .jmap m => (m.map (fun e => valLocs e.2)).flatten
  | .spanArr xs => (xs.map spanOwnLocs).flatten
  | .mdArr xs => (xs.map mdOwnLocs).flatten

/-- Location `l2` is reachable from location `l` by following cells. -/
inductive Reach (H : Heap) : Nat → Nat → Prop where
  | refl (l : Nat) : Reach H l l
  | step {l l2 l3 : Nat} {c : Cell} (hc : H.mem l = some c)
      (hmem : l2 ∈ cellLocs c) (htail : Reach H l2 l3) : Reach H l l3

def nodeReach (H : Heap) (n : RNode) (l : Nat) : Prop :=
  ∃ l0 ∈ nodeOwnLocs n, Reach H l0 l

def docReach (H : Heap) (doc : List RNode) (l : Nat) : Prop :=
  ∃ n ∈ doc, nodeReach H n l

/-- Well-formed heap: every allocated cell sits below `next` and points
only below `next`. -/
def Heap.wf (H : Heap) : Prop :=
  ∀ l c, H.mem l = some c →
    l < H.next ∧ ∀ l2 ∈ cellLocs c, l2 < H.next

def nodeValid (H : Heap) (n : RNode) : Prop :=
  ∀ l ∈ nodeOwnLocs n, l < H.next

def docValid (H : Heap) (doc : List RNode) : Prop :=
  ∀ n ∈ doc, nodeValid H n

/-- Heap-threading map over a list (the shape of every Go copy loop). -/
def copyListWith {α : Type} (g : Heap → α → Option (α × Heap)) :
    Heap → List α → Option (List α × Heap)
  | H, [] => some ([], H)
  | H, x :: xs =>
    match g H x with
    | some (y, H2) =>
      match copyListWith g H2 xs with
      | some (ys, H3) => some (y :: ys, H3)
      | none => none
    | none => none

/-- Heap-level `deepCopyAny`, fuel-bounded.  Decoded values contain only
maps, arrays, strings, bools, nulls and numbers, so the
`json.RawMessage`/`[]byte` arms of the Go switch are unreachable here;
primitives are returned as-is, maps and arrays get fresh cells. -/
def deepCopyRValH : Nat → Heap → RVal → Option (RVal × Heap)
  | 0, _, _ => none
  | fuel+1, H, v =>
    match v with
    | .mapRef l =>
      match H.mem l with
      | some (.jmap m) =>
        match copyListWith
            (fun H2 e => (deepCopyRValH fuel H2 e.2).map
              (fun r => ((e.1, r.1), r.2))) H m with
        | some (m2, H2) =>
          match H2.alloc (.jmap m2) with
          | (l2, H3) => some (.mapRef l2, H3)
        | none => none
      | _ => none
    | .arrRef l =>
      match H.mem l with
      | some (.anyArr xs) =>
        match copyListWith (fun H2 a => deepCopyRValH fuel H2 a) H xs with
        | some (ys, H2) =>
          match H2.alloc (.anyArr ys) with
          | (l2, H3) => some (.arrRef l2, H3)
        | none => none
      | _ => none
    | x => some (x, H)

/-- Go `s := *p; out = &s` on a `*string` field: fresh cell with the same
contents (`none` models a nil pointer and stays `none`). -/
def cloneStrPtr (H : Heap) : Option Nat → Option (Option Nat × Heap)
  | none => some (none, H)
  | some l =>
    match H.mem l with
    | some (.strCell s) =>
      match H.alloc (.strCell s) with
      | (l2, H2) => some (some l2, H2)
    | _ => none

/-- Same for a `*int` field. -/
def cloneIntPtr (H : Heap) : Option Nat → Option (Option Nat × Heap)
  | none => some (none, H)
  | some l =>
    match H.mem l with
    | some (.intCell i) =>
      match H.alloc (.intCell i) with
      | (l2, H2) => some (some l2, H2)
    | _ => none

/-- Go `append([]string(nil), marks...)`: a fresh backing array with the
same strings; a nil slice stays nil. -/
def cloneStrSlice (H : Heap) : Option Nat → Option (Option Nat × Heap)
  | none => some (none, H)
  | some l =>
    match H.mem l with
    | some (.strArr xs) =>
      match H.alloc (.strArr xs) with
      | (l2, H2) => some (some l2, H2)
    | _ => none

/-- Heap-level `deepCopyMap`: nil map stays nil, otherwise a fresh map
cell whose values are deep copies. -/
def cloneRawMapH (fuel : Nat) (H : Heap) : Option Nat → Option (Option Nat × Heap)
  | none => some (none, H)
  | some l =>
    match H.mem l with
    | some (.jmap m) =>
      match copyListWith
          (fun H2 e => (deepCopyRValH fuel H2 e.2).map
            (fun r => ((e.1, r.1), r.2))) H m with
      | some (m2, H2) =>
        match H2.alloc (.jmap m2) with
        | (l2, H3) => some (some l2, H3)
      | none => none
    | _ => none

/-- Per-element body of Go `cloneSpans`: copy the struct, refresh the
`Text` cell, the `Marks` backing array and the `Raw` map. -/
def cloneRSpanH (fuel : Nat) (H : Heap) (s : RSpan) : Option (RSpan × Heap) :=
  match cloneStrPtr H s.text with
  | some (t2, H2) =>
    match cloneStrSlice H2 s.marks with
    | some (m2, H3) =>
      match cloneRawMapH fuel H3 s.raw with
      | some (r2, H4) => some ({ s with text := t2, marks := m2, raw := r2 }, H4)
      | none => none
    | none => none
  | none => none

/-- Heap-level `cloneSpans`: nil slice stays nil, otherwise a fresh
backing array of cloned spans. -/
def cloneSpansH (fuel : Nat) (H : Heap) : Option Nat → Option (Option Nat × Heap)
  | none => some (none, H)
  | some l =>
    match H.mem l with
    | some (.spanArr xs) =>
      match copyListWith (cloneRSpanH fuel) H xs with
      | some (ys, H2) =>
        match H2.alloc (.spanArr ys) with
        | (l2, H3) => some (some l2, H3)
      | none => none
    | _ => none

/-- Per-element body of Go `cloneMarkDefs`: struct copy plus a deep copy
of `Raw` (Key and Type are immutable Go strings and stay inline). -/
def cloneRMarkDefH (fuel : Nat) (H : Heap) (md : RMarkDef) : Option (RMarkDef × Heap) :=
  match cloneRawMapH fuel H md.raw with
  | some (r2, H2) => some ({ md with raw := r2 }, H2)
  | none => none

/-- Heap-level `cloneMarkDefs`. -/
def cloneMarkDefsH (fuel : Nat) (H : Heap) : Option Nat → Option (Option Nat × Heap)
  | none => some (none, H)
  | some l =>
    match H.mem l with
    | some (.mdArr xs) =>
      match copyListWith (cloneRMarkDefH fuel) H xs with
      | some (ys, H2) =>
        match H2.alloc (.mdArr ys) with
        | (l2, H3) => some (some l2, H3)
      | none => none
    | _ => none

/-- Heap-level `Node.Clone`: struct copy (`out := *n`) followed by fresh
cells for Style/ListItem/Level, cloned Children/MarkDefs, deep-copied
Raw. -/
def cloneRNodeH (fuel : Nat) (H : Heap) (n : RNode) : Option (RNode × Heap) :=
  match cloneStrPtr H n.style with
  | some (st2, H2) =>
    match cloneStrPtr H2 n.listItem with
    | some (li2, H3) =>
      match cloneIntPtr H3 n.level with
      | some (lv2, H4) =>
        match cloneSpansH fuel H4 n.children with
        | some (ch2, H5) =>
          match cloneMarkDefsH fuel H5 n.markDefs with
          | some (md2, H6) =>
            match cloneRawMapH fuel H6 n.raw with
            | some (r2, H7) =>
              some ({ n with style := st2, listItem := li2, level := lv2,
                             children := ch2, markDefs := md2, raw := r2 }, H7)
            | none => none
          | none => none
        | none => none
      | none => none
    | none => none
  | none => none

/-- Heap-level `Filter`: appends a clone of each node satisfying the
predicate, in document order. -/
def FilterR (fuel : Nat) (pred : RNode → Bool) : Heap → List RNode → Option (List RNode × Heap)
  | H, [] => some ([], H)
  | H, n :: rest =>
    if pred n then
      match cloneRNodeH fuel H n with
      | some (n2, H2) =>
        match FilterR fuel pred H2 rest with
        | some (ns, H3) => some (n2 :: ns, H3)
        | none => none
      | none => none
    else FilterR fuel pred H rest

/-- Option-valued map over a list, used by the realization observer. -/
def mapOptM {α β : Type} (f : α → Option β) : List α → Option (List β)
  | [] => some []
  | x :: xs =>
    match f x, mapOptM f xs with
    | some y, some ys => some (y :: ys)
    | _, _ => none

/-- Read a reference-semantics value back into a pure `JValue` (the
observer for every field at every nesting depth). -/
def realizeVal : Nat → Heap → RVal → Option JValue
  | 0, _, _ => none
  | fuel+1, H, v =>
    match v with
    | .null => some .null
    | .bool b => some (.bool b)
    | .num s => some (.num s)
    | .str s => some (.str s)
    | .arrRef l =>
      match H.mem l with
      | some (.anyArr xs) => (mapOptM (fun a => realizeVal fuel H a) xs).map JValue.arr
      | _ => none
    | .mapRef l =>
      match H.mem l with
      | some (.jmap m) =>
        (mapOptM (fun e => (realizeVal fuel H e.2).map (fun jv => (e.1, jv))) m).map JValue.obj
      | _ => none

def realizeStrPtr (H : Heap) : Option Nat → Option (Option String)
  | none => some none
  | some l =>
    match H.mem l with
    | some (.strCell s) => some (some s)
    | _ => none

def realizeIntPtr (H : Heap) : Option Nat → Option (Option Int)
  | none => some none
  | some l =>
    match H.mem l with
    | some (.intCell i) => some (some i)
    | _ => none

def realizeStrSlice (H : Heap) : Option Nat → Option (Option (List String))
  | none => some none
  | some l =>
    match H.mem l with
    | some (.strArr xs) => some (some xs)
    | _ => none

/-- Read a `Raw` map back as an entry list (a nil map reads as the empty
list, matching the pure model). -/
def realizeRaw (fuel : Nat) (H : Heap) : Option Nat → Option (List (String × JValue))
  | none => some []
  | some l =>
    match H.mem l with
    | some (.jmap m) => mapOptM (fun e => (realizeVal fuel H e.2).map (fun jv => (e.1, jv))) m
    | _ => none

def realizeSpanH (fuel : Nat) (H : Heap) (s : RSpan) : Option Span :=
  match realizeStrPtr H s.text, realizeStrSlice H s.marks, realizeRaw fuel H s.raw with
  | some t, some m, some r => some { type := s.type, text := t, marks := m, raw := r }
  | _, _, _ => none

def realizeMarkDefH (fuel : Nat) (H : Heap) (md : RMarkDef) : Option MarkDef :=
  match realizeRaw fuel H md.raw with
  | some r => some { key := md.key, type := md.type, raw := r }
  | none => none

def realizeSpansOpt (fuel : Nat) (H : Heap) : Option Nat → Option (Option (List Span))
  | none => some none
  | some l =>
    match H.mem l with
    | some (.spanArr xs) => (mapOptM (realizeSpanH fuel H) xs).map some
    | _ => none

def realizeMarkDefsOpt (fuel : Nat) (H : Heap) : Option Nat → Option (Option (List MarkDef))
  | none => some none
  | some l =>
    match H.mem l with
    | some (.mdArr xs) => (mapOptM (realizeMarkDefH fuel H) xs).map some
    | _ => none

def realizeNodeH (fuel : Nat) (H : Heap) (n : RNode) : Option Node :=
  match realizeStrPtr H n.style, realizeStrPtr H n.listItem, realizeIntPtr H n.level with
  | some st, some li, some lv =>
    match realizeSpansOpt fuel H n.children, realizeMarkDefsOpt fuel H n.markDefs,
          realizeRaw fuel H n.raw with
    | some ch, some md, some r =>
      some { type := n.type, key := n.key, style := st, children := ch,
             markDefs := md, listItem := li, level := lv, raw := r }
    | _, _, _ => none
  | _, _, _ => none

def realizeDocH (fuel : Nat) (H : Heap) (doc : List RNode) : Option (List Node) :=
  mapOptM (realizeNodeH fuel H) doc

--
-- Heap-extension discipline of the copy functions: copying never touches
-- a cell below the original allocation frontier, and every cell it
-- allocates refers only to other freshly allocated cells.
--

/-- `H2` extends `H0`: the frontier only grew, old cells are untouched,
and every cell at or above the old frontier lies below the new frontier
and refers only to locations at or above the old frontier. -/
def Ext (H0 H2 : Heap) : Prop :=
  H0.next ≤ H2.next ∧
  (∀ l, l < H0.next → H2.mem l = H0.mem l) ∧
  (∀ l c, H0.next ≤ l → H2.mem l = some c →
    l < H2.next ∧ ∀ l2 ∈ cellLocs c, H0.next ≤ l2 ∧ l2 < H2.next)

/-- Postcondition of one copy step from `H` to `H2` over baseline `H0`:
the extension invariant holds, the frontier is monotone across the step,
and the freshly produced locations `out` sit in the new region. -/
def CopySpec (H0 H H2 : Heap) (out : List Nat) : Prop :=
  Ext H0 H2 ∧ H.next ≤ H2.next ∧ ∀ l ∈ out, H0.next ≤ l ∧ l < H2.next

theorem Ext_refl (H0 : Heap) (hcap : ∀ l c, H0.mem l = some c → l < H0.next) :
    Ext H0 H0 := by
  refine ⟨le_refl _, fun l _ => rfl, fun l c hl hc => absurd (hcap l c hc) (by omega)⟩

theorem alloc_spec (H0 H : Heap) (c : Cell) (hext : Ext H0 H)
    (hc : ∀ l2 ∈ cellLocs c, H0.next ≤ l2 ∧ l2 < H.next) :
    Ext H0 (H.alloc c).2 ∧ H0.next ≤ (H.alloc c).1 ∧
      (H.alloc c).1 < (H.alloc c).2.next ∧ H.next ≤ (H.alloc c).2.next := by
  obtain ⟨hle, hagree, hfresh⟩ := hext
  refine ⟨⟨by simp [Heap.alloc]; omega, ?_, ?_⟩, by simp [Heap.alloc]; omega,
    by simp [Heap.alloc], by simp [Heap.alloc]⟩
  · intro l hl
    simp only [Heap.alloc]
    rw [if_neg (by omega)]
    exact hagree l hl
  · intro l c2 hl hmem
    simp only [Heap.alloc] at hmem
    by_cases heq : l = H.next
    · rw [if_pos heq] at hmem
      cases hmem
      simp only [Heap.alloc]
      exact ⟨by omega, fun l2 h2 => ⟨(hc l2 h2).1, by have := (hc l2 h2).2; omega⟩⟩
    · rw [if_neg heq] at hmem
      obtain ⟨h1, h2⟩ := hfresh l c2 hl hmem
      simp only [Heap.alloc]
      exact ⟨by omega, fun l2 hl2 => ⟨(h2 l2 hl2).1, by have := (h2 l2 hl2).2; omega⟩⟩

theorem copyListWith_spec {α : Type} (H0 : Heap) (inL outL : α → List Nat)
    (g : Heap → α → Option (α × Heap))
    (hg : ∀ H x y H2, Ext H0 H → (∀ l ∈ inL x, l < H0.next) →
      g H x = some (y, H2) → CopySpec H0 H H2 (outL y)) :
    ∀ (xs : List α) (H : Heap) (ys : List α) (H2 : Heap), Ext H0 H →
      (∀ x ∈ xs, ∀ l ∈ inL x, l < H0.next) →
      copyListWith g H xs = some (ys, H2) →
      CopySpec H0 H H2 ((ys.map outL).flatten)
  | [], H, ys, H2, hext, _, hcopy => by
    simp only [copyListWith] at hcopy
    cases hcopy
    exact ⟨hext, le_refl _, by simp⟩
  | x :: xs, H, ys, H2, hext, hin, hcopy => by
    simp only [copyListWith] at hcopy
    split at hcopy
    · rename_i y Hm hgx
      split at hcopy
      · rename_i ys2 H3 hrec
        have hpq : ys = y :: ys2 ∧ H2 = H3 := by
          injection hcopy with h
          exact ⟨(congrArg Prod.fst h).symm, (congrArg Prod.snd h).symm⟩
        obtain ⟨rfl, rfl⟩ := hpq
        obtain ⟨hext1, hmono1, hout1⟩ :=
          hg H x y Hm hext (hin x (by simp)) hgx
        obtain ⟨hext2, hmono2, hout2⟩ :=
          copyListWith_spec H0 inL outL g hg xs Hm ys2 H2 hext1
            (fun a ha => hin a (by simp [ha])) hrec
        refine ⟨hext2, le_trans hmono1 hmono2, ?_⟩
        intro l hl
        simp only [List.map_cons, List.flatten_cons, List.mem_append] at hl
        rcases hl with hl | hl
        · exact ⟨(hout1 l hl).1, by have := (hout1 l hl).2; omega⟩
        · exact hout2 l hl
      · cases hcopy
    · cases hcopy

theorem deepCopyRValH_spec (H0 : Heap) (hwf0 : Heap.wf H0) :
    ∀ (fuel : Nat) (H : Heap) (v r : RVal) (H2 : Heap), Ext H0 H →
      (∀ l ∈ valLocs v, l < H0.next) →
      deepCopyRValH fuel H v = some (r, H2) → CopySpec H0 H H2 (valLocs r) := by
  intro fuel
  induction fuel with
  | zero =>
    intro H v r H2 _ _ h
    simp [deepCopyRValH] at h
  | succ f ih =>
    intro H v r H2 hext hin hcopy
    cases v with
    | null =>
      simp only [deepCopyRValH, Option.some.injEq, Prod.mk.injEq] at hcopy
      obtain ⟨rfl, rfl⟩ := hcopy
      exact ⟨hext, le_refl _, by simp [valLocs]⟩
    | bool b =>
      simp only [deepCopyRValH, Option.some.injEq, Prod.mk.injEq] at hcopy
      obtain ⟨rfl, rfl⟩ := hcopy
      exact ⟨hext, le_refl _, by simp [valLocs]⟩
    | num s =>
      simp only [deepCopyRValH, Option.some.injEq, Prod.mk.injEq] at hcopy
      obtain ⟨rfl, rfl⟩ := hcopy
      exact ⟨hext, le_refl _, by simp [valLocs]⟩
    | str s =>
      simp only [deepCopyRValH, Option.some.injEq, Prod.mk.injEq] at hcopy
      obtain ⟨rfl, rfl⟩ := hcopy
      exact ⟨hext, le_refl _, by simp [valLocs]⟩
    | arrRef l =>
      have hl : l < H0.next := hin l (by simp [valLocs])
      have hagree : H.mem l = H0.mem l := hext.2.1 l hl
      simp only [deepCopyRValH] at hcopy
      rw [hagree] at hcopy
      cases hmem : H0.mem l with
      | none => rw [hmem] at hcopy; cases hcopy
      | some c =>
        rw [hmem] at hcopy
        cases c with
        | anyArr xs =>
          simp only at hcopy
          split at hcopy
          · rename_i ys Hm hcl
            simp only [Option.some.injEq, Prod.mk.injEq] at hcopy
            obtain ⟨rfl, rfl⟩ := hcopy
            have hxs : ∀ a ∈ xs, ∀ l2 ∈ valLocs a, l2 < H0.next := by
              intro a ha l2 hl2
              exact (hwf0 l _ hmem).2 l2
                (by
                  simp only [cellLocs]
                  exact List.mem_flatten.mpr ⟨valLocs a, List.mem_map.mpr ⟨a, ha, rfl⟩, hl2⟩)
            obtain ⟨hext1, hmono1, hout1⟩ :=
              copyListWith_spec H0 valLocs valLocs _
                (fun H x y H2 he hi hc => ih H x y H2 he hi hc) xs H ys Hm hext hxs hcl
            obtain ⟨hext2, h2a, h2b, h2c⟩ :=
              alloc_spec H0 Hm (.anyArr ys) hext1 (by simpa [cellLocs] using hout1)
            refine ⟨hext2, le_trans hmono1 h2c, ?_⟩
            intro l2 hl2
            simp only [valLocs, List.mem_singleton] at hl2
            subst hl2
            exact ⟨h2a, h2b⟩
          · cases hcopy
        | strCell s => simp at hcopy
        | intCell i => simp at hcopy
        | strArr xs => simp at hcopy
        | jmap m => simp at hcopy
        | spanArr xs => simp at hcopy
        | mdArr xs => simp at hcopy
    | mapRef l =>
      have hl : l < H0.next := hin l (by simp [valLocs])
      have hagree : H.mem l = H0.mem l := hext.2.1 l hl
      simp only [deepCopyRValH] at hcopy
      rw [hagree] at hcopy
      cases hmem : H0.mem l with
      | none => rw [hmem] at hcopy; cases hcopy
      | some c =>
        rw [hmem] at hcopy
        cases c with
        | jmap m =>
          simp only at hcopy
          split at hcopy
          · rename_i m2 Hm hcl
            simp only [Option.some.injEq, Prod.mk.injEq] at hcopy
            obtain ⟨rfl, rfl⟩ := hcopy
            have hm : ∀ e ∈ m, ∀ l2 ∈ valLocs e.2, l2 < H0.next := by
              intro e he l2 hl2
              exact (hwf0 l _ hmem).2 l2
                (by
                  simp only [cellLocs]
                  exact List.mem_flatten.mpr
                    ⟨valLocs e.2, List.mem_map.mpr ⟨e, he, rfl⟩, hl2⟩)
            have hg : ∀ (H : Heap) (x y : String × RVal) (H2 : Heap),
                Ext H0 H → (∀ l2 ∈ valLocs x.2, l2 < H0.next) →
                (deepCopyRValH f H x.2).map
                  (fun r => ((x.1, r.1), r.2)) = some (y, H2) →
                CopySpec H0 H H2 (valLocs y.2) := by
              intro H x y H2 he hi hc
              cases hdc : deepCopyRValH f H x.2 with
              | none => rw [hdc] at hc; cases hc
              | some p =>
                rw [hdc] at hc
                simp only [Option.map_some', Option.some.injEq] at hc
                obtain ⟨rfl, rfl⟩ : y = (x.1, p.1) ∧ H2 = p.2 :=
                  ⟨(congrArg Prod.fst hc).symm, (congrArg Prod.snd hc).symm⟩
                exact ih H x.2 p.1 p.2 he hi (by rw [hdc])
            obtain ⟨hext1, hmono1, hout1⟩ :=
              copyListWith_spec H0 (fun e => valLocs e.2) (fun e => valLocs e.2) _
                hg m H m2 Hm hext hm hcl
            obtain ⟨hext2, h2a, h2b, h2c⟩ :=
              alloc_spec H0 Hm (.jmap m2) hext1 (by simpa [cellLocs] using hout1)
            refine ⟨hext2, le_trans hmono1 h2c, ?_⟩
            intro l2 hl2
            simp only [valLocs, List.mem_singleton] at hl2
            subst hl2
            exact ⟨h2a, h2b⟩
          · cases hcopy
        | strCell s => simp at hcopy
        | intCell i => simp at hcopy
        | strArr xs => simp at hcopy
        | anyArr xs => simp at hcopy
        | spanArr xs => simp at hcopy
        | mdArr xs => simp at hcopy

theorem cloneStrPtr_spec (H0 : Heap) :
    ∀ (H : Heap) (o o2 : Option Nat) (H2 : Heap), Ext H0 H →
      (∀ l ∈ o.toList, l < H0.next) →
      cloneStrPtr H o = some (o2, H2) → CopySpec H0 H H2 o2.toList := by
  intro H o o2 H2 hext hin hcopy
  cases o with
  | none =>
    simp only [cloneStrPtr, Option.some.injEq, Prod.mk.injEq] at hcopy
    obtain ⟨rfl, rfl⟩ := hcopy
    exact ⟨hext, le_refl _, by simp⟩
  | some l =>
    have hl : l < H0.next := hin l (by simp)
    have hagree : H.mem l = H0.mem l := hext.2.1 l hl
    simp only [cloneStrPtr] at hcopy
    rw [hagree] at hcopy
    cases hmem : H0.mem l with
    | none => rw [hmem] at hcopy; cases hcopy
    | some c =>
      rw [hmem] at hcopy
      cases c with
      | strCell s =>
        simp only [Option.some.injEq, Prod.mk.injEq] at hcopy
        obtain ⟨rfl, rfl⟩ := hcopy
        obtain ⟨hext2, h2a, h2b, _⟩ :=
          alloc_spec H0 H (.strCell s) hext (by simp [cellLocs])
        refine ⟨hext2, ?_, ?_⟩
        · simp [Heap.alloc]
        · intro l2 hl2
          simp only [Option.toList_some, List.mem_singleton] at hl2
          subst hl2
          exact ⟨h2a, h2b⟩
      | intCell i => simp at hcopy
      | strArr xs => simp at hcopy
      | anyArr xs => simp at hcopy
      | jmap m => simp at hcopy
      | spanArr xs => simp at hcopy
      | mdArr xs => simp at hcopy

theorem cloneIntPtr_spec (H0 : Heap) :
    ∀ (H : Heap) (o o2 : Option Nat) (H2 : Heap), Ext H0 H →
      (∀ l ∈ o.toList, l < H0.next) →
      cloneIntPtr H o = some (o2, H2) → CopySpec H0 H H2 o2.toList := by
  intro H o o2 H2 hext hin hcopy
  cases o with
  | none =>
    simp only [cloneIntPtr, Option.some.injEq, Prod.mk.injEq] at hcopy
    obtain ⟨rfl, rfl⟩ := hcopy
    exact ⟨hext, le_refl _, by simp⟩
  | some l =>
    have hl : l < H0.next := hin l (by simp)
    have hagree : H.mem l = H0.mem l := hext.2.1 l hl
    simp only [cloneIntPtr] at hcopy
    rw [hagree] at hcopy
    cases hmem : H0.mem l with
    | none => rw [hmem] at hcopy; cases hcopy
    | some c =>
      rw [hmem] at hcopy
      cases c with
      | intCell i =>
        simp only [Option.some.injEq, Prod.mk.injEq] at hcopy
        obtain ⟨rfl, rfl⟩ := hcopy
        obtain ⟨hext2, h2a, h2b, _⟩ :=
          alloc_spec H0 H (.intCell i) hext (by simp [cellLocs])
        refine ⟨hext2, ?_, ?_⟩
        · simp [Heap.alloc]
        · intro l2 hl2
          simp only [Option.toList_some, List.mem_singleton] at hl2
          subst hl2
          exact ⟨h2a, h2b⟩
      | strCell s => simp at hcopy
      | strArr xs => simp at hcopy
      | anyArr xs => simp at hcopy
      | jmap m => simp at hcopy
      | spanArr xs => simp at hcopy
      | mdArr xs => simp at hcopy

theorem cloneStrSlice_spec (H0 : Heap) :
    ∀ (H : Heap) (o o2 : Option Nat) (H2 : Heap), Ext H0 H →
      (∀ l ∈ o.toList, l < H0.next) →
      cloneStrSlice H o = some (o2, H2) → CopySpec H0 H H2 o2.toList := by
  intro H o o2 H2 hext hin hcopy
  cases o with
  | none =>
    simp only [cloneStrSlice, Option.some.injEq, Prod.mk.injEq] at hcopy
    obtain ⟨rfl, rfl⟩ := hcopy
    exact ⟨hext, le_refl _, by simp⟩
  | some l =>
    have hl : l < H0.next := hin l (by simp)
    have hagree : H.mem l = H0.mem l := hext.2.1 l hl
    simp only [cloneStrSlice] at hcopy
    rw [hagree] at hcopy
    cases hmem : H0.mem l with
    | none => rw [hmem] at hcopy; cases hcopy
    | some c =>
      rw [hmem] at hcopy
      cases c with
      | strArr xs =>
        simp only [Option.some.injEq, Prod.mk.injEq] at hcopy
        obtain ⟨rfl, rfl⟩ := hcopy
        obtain ⟨hext2, h2a, h2b, _⟩ :=
          alloc_spec H0 H (.strArr xs) hext (by simp [cellLocs])
        refine ⟨hext2, ?_, ?_⟩
        · simp [Heap.alloc]
        · intro l2 hl2
          simp only [Option.toList_some, List.mem_singleton] at hl2
          subst hl2
          exact ⟨h2a, h2b⟩
      | strCell s => simp at hcopy
      | intCell i => simp at hcopy
      | anyArr xs => simp at hcopy
      | jmap m => simp at hcopy
      | spanArr xs => simp at hcopy
      | mdArr xs => simp at hcopy

theorem copyEntry_spec (H0 : Heap) (hwf0 : Heap.wf H0) (fuel : Nat) :
    ∀ (H : Heap) (x y : String × RVal) (H2 : Heap), Ext H0 H →
      (∀ l2 ∈ valLocs x.2, l2 < H0.next) →
      (deepCopyRValH fuel H x.2).map (fun r => ((x.1, r.1), r.2)) = some (y, H2) →
      CopySpec H0 H H2 (valLocs y.2) := by
  intro H x y H2 he hi hc
  cases hdc : deepCopyRValH fuel H x.2 with
  | none => rw [hdc] at hc; cases hc
  | some p =>
    rw [hdc] at hc
    simp only [Option.map_some', Option.some.injEq] at hc
    obtain ⟨rfl, rfl⟩ : y = (x.1, p.1) ∧ H2 = p.2 :=
      ⟨(congrArg Prod.fst hc).symm, (congrArg Prod.snd hc).symm⟩
    exact deepCopyRValH_spec H0 hwf0 fuel H x.2 p.1 p.2 he hi (by rw [hdc])

theorem cloneRawMapH_spec (H0 : Heap) (hwf0 : Heap.wf H0) (fuel : Nat) :
    ∀ (H : Heap) (o o2 : Option Nat) (H2 : Heap), Ext H0 H →
      (∀ l ∈ o.toList, l < H0.next) →
      cloneRawMapH fuel H o = some (o2, H2) → CopySpec H0 H H2 o2.toList := by
  intro H o o2 H2 hext hin hcopy
  cases o with
  | none =>
    simp only [cloneRawMapH, Option.some.injEq, Prod.mk.injEq] at hcopy
    obtain ⟨rfl, rfl⟩ := hcopy
    exact ⟨hext, le_refl _, by simp⟩
  | some l =>
    have hl : l < H0.next := hin l (by simp)
    have hagree : H.mem l = H0.mem l := hext.2.1 l hl
    simp only [cloneRawMapH] at hcopy
    rw [hagree] at hcopy
    cases hmem : H0.mem l with
    | none => rw [hmem] at hcopy; cases hcopy
    | some c =>
      rw [hmem] at hcopy
      cases c with
      | jmap m =>
        simp only at hcopy
        split at hcopy
        · rename_i m2 Hm hcl
          simp only [Option.some.injEq, Prod.mk.injEq] at hcopy
          obtain ⟨rfl, rfl⟩ := hcopy
          have hm : ∀ e ∈ m, ∀ l2 ∈ valLocs e.2, l2 < H0.next := by
            intro e he l2 hl2
            exact (hwf0 l _ hmem).2 l2
              (by
                simp only [cellLocs]
                exact List.mem_flatten.mpr
                  ⟨valLocs e.2, List.mem_map.mpr ⟨e, he, rfl⟩, hl2⟩)
          obtain ⟨hext1, hmono1, hout1⟩ :=
            copyListWith_spec H0 (fun e => valLocs e.2) (fun e => valLocs e.2) _
              (copyEntry_spec H0 hwf0 fuel) m H m2 Hm hext hm hcl
          obtain ⟨hext2, h2a, h2b, h2c⟩ :=
            alloc_spec H0 Hm (.jmap m2) hext1 (by simpa [cellLocs] using hout1)
          refine ⟨hext2, le_trans hmono1 h2c, ?_⟩
          intro l2 hl2
          simp only [Option.toList_some, List.mem_singleton] at hl2
          subst hl2
          exact ⟨h2a, h2b⟩
        · cases hcopy
      | strCell s => simp at hcopy
      | intCell i => simp at hcopy
      | strArr xs => simp at hcopy
      | anyArr xs => simp at hcopy
      | spanArr xs => simp at hcopy
      | mdArr xs => simp at hcopy

theorem cloneRSpanH_spec (H0 : Heap) (hwf0 : Heap.wf H0) (fuel : Nat) :
    ∀ (H : Heap) (s s2 : RSpan) (H2 : Heap), Ext H0 H →
      (∀ l ∈ spanOwnLocs s, l < H0.next) →
      cloneRSpanH fuel H s = some (s2, H2) → CopySpec H0 H H2 (spanOwnLocs s2) := by
  intro H s s2 H2 hext hin hcopy
  simp only [cloneRSpanH] at hcopy
  split at hcopy
  · rename_i t2 Hb hstr
    split at hcopy
    · rename_i m2 Hc hsl
      split at hcopy
      · rename_i r2 Hd hraw
        simp only [Option.some.injEq, Prod.mk.injEq] at hcopy
        obtain ⟨rfl, rfl⟩ := hcopy
        obtain ⟨hext1, hm1, hout1⟩ :=
          cloneStrPtr_spec H0 H s.text t2 Hb hext
            (fun l hl => hin l (by simp only [spanOwnLocs, List.mem_append]; exact Or.inl (Or.inl hl))) hstr
        obtain ⟨hext2, hm2, hout2⟩ :=
          cloneStrSlice_spec H0 Hb s.marks m2 Hc hext1
            (fun l hl => hin l (by simp only [spanOwnLocs, List.mem_append]; exact Or.inl (Or.inr hl))) hsl
        obtain ⟨hext3, hm3, hout3⟩ :=
          cloneRawMapH_spec H0 hwf0 fuel Hc s.raw r2 Hd hext2
            (fun l hl => hin l (by simp only [spanOwnLocs, List.mem_append]; exact Or.inr hl)) hraw
        refine ⟨hext3, le_trans hm1 (le_trans hm2 hm3), ?_⟩
        intro l hl
        simp only [spanOwnLocs, List.mem_append] at hl
        rcases hl with (hl | hl) | hl
        · have := hout1 l hl
          exact ⟨this.1, by omega⟩
        · have := hout2 l hl
          exact ⟨this.1, by omega⟩
        · exact hout3 l hl
      · cases hcopy
    · cases hcopy
  · cases hcopy

theorem cloneSpansH_spec (H0 : Heap) (hwf0 : Heap.wf H0) (fuel : Nat) :
    ∀ (H : Heap) (o o2 : Option Nat) (H2 : Heap), Ext H0 H →
      (∀ l ∈ o.toList, l < H0.next) →
      cloneSpansH fuel H o = some (o2, H2) → CopySpec H0 H H2 o2.toList := by
  intro H o o2 H2 hext hin hcopy
  cases o with
  | none =>
    simp only [cloneSpansH, Option.some.injEq, Prod.mk.injEq] at hcopy
    obtain ⟨rfl, rfl⟩ := hcopy
    exact ⟨hext, le_refl _, by simp⟩
  | some l =>
    have hl : l < H0.next := hin l (by simp)
    have hagree : H.mem l = H0.mem l := hext.2.1 l hl
    simp only [cloneSpansH] at hcopy
    rw [hagree] at hcopy
    cases hmem : H0.mem l with
    | none => rw [hmem] at hcopy; cases hcopy
    | some c =>
      rw [hmem] at hcopy
      cases c with
      | spanArr xs =>
        simp only at hcopy
        split at hcopy
        · rename_i ys Hm hcl
          simp only [Option.some.injEq, Prod.mk.injEq] at hcopy
          obtain ⟨rfl, rfl⟩ := hcopy
          have hxs : ∀ a ∈ xs, ∀ l2 ∈ spanOwnLocs a, l2 < H0.next := by
            intro a ha l2 hl2
            exact (hwf0 l _ hmem).2 l2
              (by
                simp only [cellLocs]
                exact List.mem_flatten.mpr
                  ⟨spanOwnLocs a, List.mem_map.mpr ⟨a, ha, rfl⟩, hl2⟩)
          obtain ⟨hext1, hmono1, hout1⟩ :=
            copyListWith_spec H0 spanOwnLocs spanOwnLocs _
              (cloneRSpanH_spec H0 hwf0 fuel) xs H ys Hm hext hxs hcl
          obtain ⟨hext2, h2a, h2b, h2c⟩ :=
            alloc_spec H0 Hm (.spanArr ys) hext1 (by simpa [cellLocs] using hout1)
          refine ⟨hext2, le_trans hmono1 h2c, ?_⟩
          intro l2 hl2
          simp only [Option.toList_some, List.mem_singleton] at hl2
          subst hl2
          exact ⟨h2a, h2b⟩
        · cases hcopy
      | strCell s => simp at hcopy
      | intCell i => simp at hcopy
      | strArr xs => simp at hcopy
      | anyArr xs => simp at hcopy
      | jmap m => simp at hcopy
      | mdArr xs => simp at hcopy

theorem cloneRMarkDefH_spec (H0 : Heap) (hwf0 : Heap.wf H0) (fuel : Nat) :
    ∀ (H : Heap) (md md2 : RMarkDef) (H2 : Heap), Ext H0 H →
      (∀ l ∈ mdOwnLocs md, l < H0.next) →
      cloneRMarkDefH fuel H md = some (md2, H2) → CopySpec H0 H H2 (mdOwnLocs md2) := by
  intro H md md2 H2 hext hin hcopy
  simp only [cloneRMarkDefH] at hcopy
  split at hcopy
  · rename_i r2 Hb hraw
    simp only [Option.some.injEq, Prod.mk.injEq] at hcopy
    obtain ⟨rfl, rfl⟩ := hcopy
    obtain ⟨hext1, hm1, hout1⟩ :=
      cloneRawMapH_spec H0 hwf0 fuel H md.raw r2 Hb hext
        (fun l hl => hin l (by simpa [mdOwnLocs] using hl)) hraw
    exact ⟨hext1, hm1, fun l hl => hout1 l (by simpa [mdOwnLocs] using hl)⟩
  · cases hcopy

theorem cloneMarkDefsH_spec (H0 : Heap) (hwf0 : Heap.wf H0) (fuel : Nat) :
    ∀ (H : Heap) (o o2 : Option Nat) (H2 : Heap), Ext H0 H →
      (∀ l ∈ o.toList, l < H0.next) →
      cloneMarkDefsH fuel H o = some (o2, H2) → CopySpec H0 H H2 o2.toList := by
  intro H o o2 H2 hext hin hcopy
  cases o with
  | none =>
    simp only [cloneMarkDefsH, Option.some.injEq, Prod.mk.injEq] at hcopy
    obtain ⟨rfl, rfl⟩ := hcopy
    exact ⟨hext, le_refl _, by simp⟩
  | some l =>
    have hl : l < H0.next := hin l (by simp)
    have hagree : H.mem l = H0.mem l := hext.2.1 l hl
    simp only [cloneMarkDefsH] at hcopy
    rw [hagree] at hcopy
    cases hmem : H0.mem l with
    | none => rw [hmem] at hcopy; cases hcopy
    | some c =>
      rw [hmem] at hcopy
      cases c with
      | mdArr xs =>
        simp only at hcopy
        split at hcopy
        · rename_i ys Hm hcl
          simp only [Option.some.injEq, Prod.mk.injEq] at hcopy
          obtain ⟨rfl, rfl⟩ := hcopy
          have hxs : ∀ a ∈ xs, ∀ l2 ∈ mdOwnLocs a, l2 < H0.next := by
            intro a ha l2 hl2
            exact (hwf0 l _ hmem).2 l2
              (by
                simp only [cellLocs]
                exact List.mem_flatten.mpr
                  ⟨mdOwnLocs a, List.mem_map.mpr ⟨a, ha, rfl⟩, hl2⟩)
          obtain ⟨hext1, hmono1, hout1⟩ :=
            copyListWith_spec H0 mdOwnLocs mdOwnLocs _
              (cloneRMarkDefH_spec H0 hwf0 fuel) xs H ys Hm hext hxs hcl
          obtain ⟨hext2, h2a, h2b, h2c⟩ :=
            alloc_spec H0 Hm (.mdArr ys) hext1 (by simpa [cellLocs] using hout1)
          refine ⟨hext2, le_trans hmono1 h2c, ?_⟩
          intro l2 hl2
          simp only [Option.toList_some, List.mem_singleton] at hl2
          subst hl2
          exact ⟨h2a, h2b⟩
        · cases hcopy
      | strCell s => simp at hcopy
      | intCell i => simp at hcopy
      | strArr xs => simp at hcopy
      | anyArr xs => simp at hcopy
      | jmap m => simp at hcopy
      | spanArr xs => simp at hcopy

theorem cloneRNodeH_spec (H0 : Heap) (hwf0 : Heap.wf H0) (fuel : Nat) :
    ∀ (H : Heap) (n n2 : RNode) (H2 : Heap), Ext H0 H →
      (∀ l ∈ nodeOwnLocs n, l < H0.next) →
      cloneRNodeH fuel H n = some (n2, H2) → CopySpec H0 H H2 (nodeOwnLocs n2) := by
  intro H n n2 H2 hext hin hcopy
  have hin2 : ∀ l, (l ∈ n.style.toList ∨ l ∈ n.children.toList ∨ l ∈ n.markDefs.toList ∨
      l ∈ n.listItem.toList ∨ l ∈ n.level.toList ∨ l ∈ n.raw.toList) → l < H0.next := by
    intro l hl
    refine hin l ?_
    simp only [nodeOwnLocs, List.mem_append]
    tauto
  simp only [cloneRNodeH] at hcopy
  split at hcopy
  · rename_i st2 Hb hst
    split at hcopy
    · rename_i li2 Hc hli
      split at hcopy
      · rename_i lv2 Hd hlv
        split at hcopy
        · rename_i ch2 He hch
          split at hcopy
          · rename_i md2 Hf hmd
            split at hcopy
            · rename_i r2 Hg hraw
              simp only [Option.some.injEq, Prod.mk.injEq] at hcopy
              obtain ⟨rfl, rfl⟩ := hcopy
              obtain ⟨hext1, hm1, hout1⟩ :=
                cloneStrPtr_spec H0 H n.style st2 Hb hext
                  (fun l hl => hin2 l (Or.inl hl)) hst
              obtain ⟨hext2, hm2, hout2⟩ :=
                cloneStrPtr_spec H0 Hb n.listItem li2 Hc hext1
                  (fun l hl => hin2 l (Or.inr (Or.inr (Or.inr (Or.inl hl))))) hli
              obtain ⟨hext3, hm3, hout3⟩ :=
                cloneIntPtr_spec H0 Hc n.level lv2 Hd hext2
                  (fun l hl => hin2 l (Or.inr (Or.inr (Or.inr (Or.inr (Or.inl hl)))))) hlv
              obtain ⟨hext4, hm4, hout4⟩ :=
                cloneSpansH_spec H0 hwf0 fuel Hd n.children ch2 He hext3
                  (fun l hl => hin2 l (Or.inr (Or.inl hl))) hch
              obtain ⟨hext5, hm5, hout5⟩ :=
                cloneMarkDefsH_spec H0 hwf0 fuel He n.markDefs md2 Hf hext4
                  (fun l hl => hin2 l (Or.inr (Or.inr (Or.inl hl)))) hmd
              obtain ⟨hext6, hm6, hout6⟩ :=
                cloneRawMapH_spec H0 hwf0 fuel Hf n.raw r2 Hg hext5
                  (fun l hl => hin2 l (Or.inr (Or.inr (Or.inr (Or.inr (Or.inr hl)))))) hraw
              refine ⟨hext6, by omega, ?_⟩
              intro l hl
              simp only [nodeOwnLocs, List.mem_append] at hl
              rcases hl with ((((hl | hl) | hl) | hl) | hl) | hl
              · have := hout1 l hl
                exact ⟨this.1, by omega⟩
              · have := hout4 l hl
                exact ⟨this.1, by omega⟩
              · have := hout5 l hl
                exact ⟨this.1, by omega⟩
              · have := hout2 l hl
                exact ⟨this.1, by omega⟩
              · have := hout3 l hl
                exact ⟨this.1, by omega⟩
              · exact hout6 l hl
            · cases hcopy
          · cases hcopy
        · cases hcopy
      · cases hcopy
    · cases hcopy
  · cases hcopy

theorem FilterR_spec (H0 : Heap) (hwf0 : Heap.wf H0) (fuel : Nat) (pred : RNode → Bool) :
    ∀ (doc : List RNode) (H : Heap) (res : List RNode) (H2 : Heap), Ext H0 H →
      (∀ n ∈ doc, ∀ l ∈ nodeOwnLocs n, l < H0.next) →
      FilterR fuel pred H doc = some (res, H2) →
      CopySpec H0 H H2 ((res.map nodeOwnLocs).flatten) := by
  intro doc
  induction doc with
  | nil =>
    intro H res H2 hext _ h
    simp only [FilterR, Option.some.injEq, Prod.mk.injEq] at h
    obtain ⟨rfl, rfl⟩ := h
    exact ⟨hext, le_refl _, by simp⟩
  | cons n rest ihd =>
    intro H res H2 hext hin hcopy
    simp only [FilterR] at hcopy
    by_cases hp : pred n
    · rw [if_pos hp] at hcopy
      split at hcopy
      · rename_i n2 Hm hcl
        split at hcopy
        · rename_i ns H3 hrec
          have hpq : res = n2 :: ns ∧ H2 = H3 := by
            injection hcopy with h
            exact ⟨(congrArg Prod.fst h).symm, (congrArg Prod.snd h).symm⟩
          obtain ⟨rfl, rfl⟩ := hpq
          obtain ⟨hext1, hm1, hout1⟩ :=
            cloneRNodeH_spec H0 hwf0 fuel H n n2 Hm hext (hin n (by simp)) hcl
          obtain ⟨hext2, hm2, hout2⟩ :=
            ihd Hm ns H2 hext1 (fun a ha => hin a (by simp [ha])) hrec
          refine ⟨hext2, le_trans hm1 hm2, ?_⟩
          intro l hl
          simp only [List.map_cons, List.flatten_cons, List.mem_append] at hl
          rcases hl with hl | hl
          · have := hout1 l hl
            exact ⟨this.1, by omega⟩
          · exact hout2 l hl
        · cases hcopy
      · cases hcopy
    · rw [if_neg hp] at hcopy
      exact ihd H res H2 hext (fun a ha => hin a (by simp [ha])) hcopy

/-- In an extension, anything reachable from a fresh location is fresh:
copied cells refer only to copied cells. -/
theorem Reach_fresh (H0 H2 : Heap) (hext : Ext H0 H2) :
    ∀ l0 l, Reach H2 l0 l → H0.next ≤ l0 → H0.next ≤ l := by
  intro l0 l hr
  induction hr with
  | refl l => exact id
  | step hc hmem htail ih =>
    intro h0
    exact ih ((hext.2.2 _ _ h0 hc).2 _ hmem).1

--
-- Frame property of the realization observer: it reads only cells below
-- a frontier that is closed under cell references, so heaps agreeing
-- below that frontier realize every entity identically.
--

def agreeBelow (b : Nat) (H H2 : Heap) : Prop :=
  ∀ l, l < b → H.mem l = H2.mem l

def closedBelow (b : Nat) (H : Heap) : Prop :=
  ∀ l c, l < b → H.mem l = some c → ∀ l2 ∈ cellLocs c, l2 < b

theorem mapOptM_congr {α β : Type} (f g : α → Option β) :
    ∀ (xs : List α), (∀ x ∈ xs, f x = g x) → mapOptM f xs = mapOptM g xs
  | [], _ => rfl
  | x :: xs, h => by
    simp only [mapOptM]
    rw [h x (by simp), mapOptM_congr f g xs (fun a ha => h a (by simp [ha]))]

theorem realizeVal_agree (b : Nat) :
    ∀ (fuel : Nat) (H H2 : Heap), agreeBelow b H H2 → closedBelow b H →
      ∀ v, (∀ l ∈ valLocs v, l < b) → realizeVal fuel H v = realizeVal fuel H2 v := by
  intro fuel
  induction fuel with
  | zero => intro H H2 _ _ v _; rfl
  | succ f ih =>
    intro H H2 hag hcl v hin
    cases v with
    | null => rfl
    | bool b2 => rfl
    | num s => rfl
    | str s => rfl
    | arrRef l =>
      have hl : l < b := hin l (by simp [valLocs])
      have hmm : H.mem l = H2.mem l := hag l hl
      simp only [realizeVal]
      rw [← hmm]
      cases hmem : H.mem l with
      | none => rfl
      | some c =>
        cases c with
        | anyArr xs =>
          have helem : ∀ a ∈ xs, ∀ l2 ∈ valLocs a, l2 < b := by
            intro a ha l2 hl2
            exact hcl l _ hl hmem l2
              (by
                simp only [cellLocs]
                exact List.mem_flatten.mpr ⟨valLocs a, List.mem_map.mpr ⟨a, ha, rfl⟩, hl2⟩)
          simp only
          rw [mapOptM_congr (fun a => realizeVal f H a) (fun a => realizeVal f H2 a) xs
            (fun a ha => ih H H2 hag hcl a (helem a ha))]
        | strCell s => rfl
        | intCell i => rfl
        | strArr xs => rfl
        | jmap m => rfl
        | spanArr xs => rfl
        | mdArr xs => rfl
    | mapRef l =>
      have hl : l < b := hin l (by simp [valLocs])
      have hmm : H.mem l = H2.mem l := hag l hl
      simp only [realizeVal]
      rw [← hmm]
      cases hmem : H.mem l with
      | none => rfl
      | some c =>
        cases c with
        | jmap m =>
          have helem : ∀ e ∈ m, ∀ l2 ∈ valLocs e.2, l2 < b := by
            intro e he l2 hl2
            exact hcl l _ hl hmem l2
              (by
                simp only [cellLocs]
                exact List.mem_flatten.mpr
                  ⟨valLocs e.2, List.mem_map.mpr ⟨e, he, rfl⟩, hl2⟩)
          simp only
          rw [mapOptM_congr
            (fun e => (realizeVal f H e.2).map (fun jv => (e.1, jv)))
            (fun e => (realizeVal f H2 e.2).map (fun jv => (e.1, jv))) m
            (fun e he => by dsimp only; rw [ih H H2 hag hcl e.2 (helem e he)])]
        | strCell s => rfl
        | intCell i => rfl
        | strArr xs => rfl
        | anyArr xs => rfl
        | spanArr xs => rfl
        | mdArr xs => rfl

theorem realizeStrPtr_agree (b : Nat) (H H2 : Heap) (hag : agreeBelow b H H2) :
    ∀ o, (∀ l ∈ o.toList, l < b) → realizeStrPtr H o = realizeStrPtr H2 o
  | none, _ => rfl
  | some l, h => by
    simp only [realizeStrPtr]
    rw [hag l (h l (by simp))]

theorem realizeIntPtr_agree (b : Nat) (H H2 : Heap) (hag : agreeBelow b H H2) :
    ∀ o, (∀ l ∈ o.toList, l < b) → realizeIntPtr H o = realizeIntPtr H2 o
  | none, _ => rfl
  | some l, h => by
    simp only [realizeIntPtr]
    rw [hag l (h l (by simp))]

theorem realizeStrSlice_agree (b : Nat) (H H2 : Heap) (hag : agreeBelow b H H2) :
    ∀ o, (∀ l ∈ o.toList, l < b) → realizeStrSlice H o = realizeStrSlice H2 o
  | none, _ => rfl
  | some l, h => by
    simp only [realizeStrSlice]
    rw [hag l (h l (by simp))]

theorem realizeRaw_agree (b fuel : Nat) (H H2 : Heap) (hag : agreeBelow b H H2)
    (hcl : closedBelow b H) :
    ∀ o, (∀ l ∈ o.toList, l < b) → realizeRaw fuel H o = realizeRaw fuel H2 o
  | none, _ => rfl
  | some l, h => by
    have hl : l < b := h l (by simp)
    have hmm : H.mem l = H2.mem l := hag l hl
    simp only [realizeRaw]
    rw [← hmm]
    cases hmem : H.mem l with
    | none => rfl
    | some c =>
      cases c with
      | jmap m =>
        have helem : ∀ e ∈ m, ∀ l2 ∈ valLocs e.2, l2 < b := by
          intro e he l2 hl2
          exact hcl l _ hl hmem l2
            (by
              simp only [cellLocs]
              exact List.mem_flatten.mpr
                ⟨valLocs e.2, List.mem_map.mpr ⟨e, he, rfl⟩, hl2⟩)
        simp only
        rw [mapOptM_congr
          (fun e => (realizeVal fuel H e.2).map (fun jv => (e.1, jv)))
          (fun e => (realizeVal fuel H2 e.2).map (fun jv => (e.1, jv))) m
          (fun e he => by dsimp only; rw [realizeVal_agree b fuel H H2 hag hcl e.2 (helem e he)])]
      | strCell s => rfl
      | intCell i => rfl
      | strArr xs => rfl
      | anyArr xs => rfl
      | spanArr xs => rfl
      | mdArr xs => rfl

theorem realizeSpanH_agree (b fuel : Nat) (H H2 : Heap) (hag : agreeBelow b H H2)
    (hcl : closedBelow b H) (s : RSpan) (hin : ∀ l ∈ spanOwnLocs s, l < b) :
    realizeSpanH fuel H s = realizeSpanH fuel H2 s := by
  simp only [realizeSpanH]
  rw [realizeStrPtr_agree b H H2 hag s.text
      (fun l hl => hin l (by simp only [spanOwnLocs, List.mem_append]; exact Or.inl (Or.inl hl))),
    realizeStrSlice_agree b H H2 hag s.marks
      (fun l hl => hin l (by simp only [spanOwnLocs, List.mem_append]; exact Or.inl (Or.inr hl))),
    realizeRaw_agree b fuel H H2 hag hcl s.raw
      (fun l hl => hin l (by simp only [spanOwnLocs, List.mem_append]; exact Or.inr hl))]

theorem realizeSpansOpt_agree (b fuel : Nat) (H H2 : Heap) (hag : agreeBelow b H H2)
    (hcl : closedBelow b H) :
    ∀ o, (∀ l ∈ o.toList, l < b) → realizeSpansOpt fuel H o = realizeSpansOpt fuel H2 o
  | none, _ => rfl
  | some l, h => by
    have hl : l < b := h l (by simp)
    have hmm : H.mem l = H2.mem l := hag l hl
    simp only [realizeSpansOpt]
    rw [← hmm]
    cases hmem : H.mem l with
    | none => rfl
    | some c =>
      cases c with
      | spanArr xs =>
        have helem : ∀ a ∈ xs, ∀ l2 ∈ spanOwnLocs a, l2 < b := by
          intro a ha l2 hl2
          exact hcl l _ hl hmem l2
            (by
              simp only [cellLocs]
              exact List.mem_flatten.mpr
                ⟨spanOwnLocs a, List.mem_map.mpr ⟨a, ha, rfl⟩, hl2⟩)
        simp only
        rw [mapOptM_congr (realizeSpanH fuel H) (realizeSpanH fuel H2) xs
          (fun a ha => realizeSpanH_agree b fuel H H2 hag hcl a (helem a ha))]
      | strCell s => rfl
      | intCell i => rfl
      | strArr xs => rfl
      | anyArr xs => rfl
      | jmap m => rfl
      | mdArr xs => rfl

theorem realizeMarkDefH_agree (b fuel : Nat) (H H2 : Heap) (hag : agreeBelow b H H2)
    (hcl : closedBelow b H) (md : RMarkDef) (hin : ∀ l ∈ mdOwnLocs md, l < b) :
    realizeMarkDefH fuel H md = realizeMarkDefH fuel H2 md := by
  simp only [realizeMarkDefH]
  rw [realizeRaw_agree b fuel H H2 hag hcl md.raw
    (fun l hl => hin l (by simpa [mdOwnLocs] using hl))]

theorem realizeMarkDefsOpt_agree (b fuel : Nat) (H H2 : Heap) (hag : agreeBelow b H H2)
    (hcl : closedBelow b H) :
    ∀ o, (∀ l ∈ o.toList, l < b) → realizeMarkDefsOpt fuel H o = realizeMarkDefsOpt fuel H2 o
  | none, _ => rfl
  | some l, h => by
    have hl : l < b := h l (by simp)
    have hmm : H.mem l = H2.mem l := hag l hl
    simp only [realizeMarkDefsOpt]
    rw [← hmm]
    cases hmem : H.mem l with
    | none => rfl
    | some c =>
      cases c with
      | mdArr xs =>
        have helem : ∀ a ∈ xs, ∀ l2 ∈ mdOwnLocs a, l2 < b := by
          intro a ha l2 hl2
          exact hcl l _ hl hmem l2
            (by
              simp only [cellLocs]
              exact List.mem_flatten.mpr
                ⟨mdOwnLocs a, List.mem_map.mpr ⟨a, ha, rfl⟩, hl2⟩)
        simp only
        rw [mapOptM_congr (realizeMarkDefH fuel H) (realizeMarkDefH fuel H2) xs
          (fun a ha => realizeMarkDefH_agree b fuel H H2 hag hcl a (helem a ha))]
      | strCell s => rfl
      | intCell i => rfl
      | strArr xs => rfl
      | anyArr xs => rfl
      | jmap m => rfl
      | spanArr xs => rfl

theorem realizeNodeH_agree (b fuel : Nat) (H H2 : Heap) (hag : agreeBelow b H H2)
    (hcl : closedBelow b H) (n : RNode) (hin : ∀ l ∈ nodeOwnLocs n, l < b) :
    realizeNodeH fuel H n = realizeNodeH fuel H2 n := by
  have hin2 : ∀ l, (l ∈ n.style.toList ∨ l ∈ n.children.toList ∨ l ∈ n.markDefs.toList ∨
      l ∈ n.listItem.toList ∨ l ∈ n.level.toList ∨ l ∈ n.raw.toList) → l < b := by
    intro l hl
    refine hin l ?_
    simp only [nodeOwnLocs, List.mem_append]
    tauto
  simp only [realizeNodeH]
  rw [realizeStrPtr_agree b H H2 hag n.style (fun l hl => hin2 l (Or.inl hl)),
    realizeStrPtr_agree b H H2 hag n.listItem
      (fun l hl => hin2 l (Or.inr (Or.inr (Or.inr (Or.inl hl))))),
    realizeIntPtr_agree b H H2 hag n.level
      (fun l hl => hin2 l (Or.inr (Or.inr (Or.inr (Or.inr (Or.inl hl)))))),
    realizeSpansOpt_agree b fuel H H2 hag hcl n.children
      (fun l hl => hin2 l (Or.inr (Or.inl hl))),
    realizeMarkDefsOpt_agree b fuel H H2 hag hcl n.markDefs
      (fun l hl => hin2 l (Or.inr (Or.inr (Or.inl hl)))),
    realizeRaw_agree b fuel H H2 hag hcl n.raw
      (fun l hl => hin2 l (Or.inr (Or.inr (Or.inr (Or.inr (Or.inr hl))))))]

theorem realizeDocH_agree (b fuel : Nat) (H H2 : Heap) (hag : agreeBelow b H H2)
    (hcl : closedBelow b H) (doc : List RNode)
    (hin : ∀ n ∈ doc, ∀ l ∈ nodeOwnLocs n, l < b) :
    realizeDocH fuel H doc = realizeDocH fuel H2 doc := by
  simp only [realizeDocH]
  exact mapOptM_congr (realizeNodeH fuel H) (realizeNodeH fuel H2) doc
    (fun n hn => realizeNodeH_agree b fuel H H2 hag hcl n (hin n hn))

/-- C8 (Filter independence): at the value level, `Filter` returns
exactly the nodes satisfying the predicate, in document order, each a
deep copy that is value-equal to the original.  At the heap level, when
`FilterR` runs on a well-formed heap whose document only owns allocated
locations, (i) no cell of the input heap is mutated, (ii) every location
reachable from the result is freshly allocated, so the result aliases
nothing of the input, and (iii) overwriting any cell reachable from the
result leaves the realization of every field of the original document,
at every nesting depth, unchanged. -/
theorem C8_filter_independence :
    (∀ (D : Document) (p : Node → Bool), Filter D p = D.filter p) ∧
    (∀ (fuel : Nat) (pred : RNode → Bool) (H : Heap) (doc res : List RNode)
       (H2 : Heap),
       Heap.wf H → docValid H doc →
       FilterR fuel pred H doc = some (res, H2) →
       (∀ l, l < H.next → H2.mem l = H.mem l) ∧
       (∀ l, docReach H2 res l → H.next ≤ l) ∧
       (∀ (f2 l : Nat) (c : Cell), docReach H2 res l →
         realizeDocH f2 (Heap.upd H2 l c) doc = realizeDocH f2 H doc)) := by
  constructor
  · intro D p
    rw [Filter_eq]
    rw [List.map_congr_left (fun n _ => clone_eq n)]
    simp
  · intro fuel pred H doc res H2 hwf hval hF
    have hext0 : Ext H H := Ext_refl H (fun l c hc => (hwf l c hc).1)
    have hdoc : ∀ n ∈ doc, ∀ l ∈ nodeOwnLocs n, l < H.next :=
      fun n hn l hl => hval n hn l hl
    obtain ⟨hext, hmono, hout⟩ := FilterR_spec H hwf fuel pred doc H res H2 hext0 hdoc hF
    have hreachGe : ∀ l, docReach H2 res l → H.next ≤ l := by
      intro l hreach
      obtain ⟨n, hn, l0, hl0, hr⟩ := hreach
      have h0 : H.next ≤ l0 :=
        (hout l0 (List.mem_flatten.mpr ⟨nodeOwnLocs n, List.mem_map.mpr ⟨n, hn, rfl⟩, hl0⟩)).1
      exact Reach_fresh H H2 hext l0 l hr h0
    refine ⟨fun l hl => hext.2.1 l hl, hreachGe, ?_⟩
    intro f2 l c hreach
    have hge : H.next ≤ l := hreachGe l hreach
    have hag : agreeBelow H.next (Heap.upd H2 l c) H := by
      intro l2 hl2
      simp only [Heap.upd]
      rw [if_neg (by omega)]
      exact hext.2.1 l2 hl2
    have hcl : closedBelow H.next (Heap.upd H2 l c) := by
      intro l2 c2 hl2 hm2
      simp only [Heap.upd] at hm2
      rw [if_neg (by omega)] at hm2
      rw [hext.2.1 l2 hl2] at hm2
      exact (hwf l2 c2 hm2).2
    exact realizeDocH_agree H.next f2 (Heap.upd H2 l c) H hag hcl doc hdoc

/-- A two-cell heap: a string cell at 0 and a raw map cell at 1, both
owned by the single block node of `c8rdoc`. -/
def c8heap : Heap :=
  ⟨2, fun l => if l = 0 then some (.strCell "hi")
      else if l = 1 then some (.jmap [("a", RVal.str "x")]) else none⟩

def c8rnode : RNode := { type := "block", style := some 0, raw := some 1 }

def c8rdoc : List RNode := [c8rnode]

def c8out : List RNode × Heap :=
  (FilterR 4 (fun _ => true) c8heap c8rdoc).getD ([], c8heap)

/-- Concrete run of the heap-level filter: overwriting the cloned style
cell (location 2, reachable from the result) leaves the realization of
the original document unchanged. -/
theorem C8_independence_witness :
    realizeDocH 3 (Heap.upd c8out.2 2 (Cell.strCell "mutated")) c8rdoc =
      realizeDocH 3 c8heap c8rdoc :=
  (C8_filter_independence.2 4 (fun _ => true) c8heap c8rdoc c8out.1 c8out.2
    (by
      intro l c hc
      simp only [c8heap] at hc
      split at hc
      · rename_i h0
        cases hc
        subst h0
        exact ⟨by simp [c8heap], by simp [cellLocs]⟩
      · split at hc
        · rename_i _ h1
          cases hc
          subst h1
          exact ⟨by simp [c8heap], by simp [cellLocs, valLocs]⟩
        · cases hc)
    (by
      intro n hn l hl
      simp only [c8rdoc, List.mem_singleton] at hn
      subst hn
      simp only [c8rnode, nodeOwnLocs] at hl
      simp at hl
      rcases hl with rfl | rfl <;> decide)
    (by rfl)).2.2 3 2 (Cell.strCell "mutated")
    ⟨{ type := "block", style := some 2, raw := some 3 }, by decide, 2, by decide, Reach.refl 2⟩

end PortableText
